import Mathlib

/-!
# WinMD partial-chunk cache and stripe geometry (src/io.cpp)

A shallow embedding of the parity/data placement functions, the partial-chunk
cache (`add_partial_chunk`, `flush_chunks`) and the read-set construction of
`flush_partial_chunk`, followed by theorems about them.

Conventions.
* `uint32_t` and `uint64_t` values are natural numbers; every arithmetic result
  that the C++ stores in a 32-bit (64-bit) object is reduced with `u32` (`u64`).
* `/` and `%` are Lean's total operations.  The C++ leaves a division by zero
  undefined; it arises only for a zero disk count, a zero chunk size or a
  wrapped-to-zero stripe width.
* Byte buffers are lists of natural numbers.  A load of 1, 4 or 16 bytes reads
  each element as a `uint8_t` (modulo 256) and assembles a little-endian word;
  a store writes the bytes of the word back.
* Operating-system services and the collaborators that live outside io.cpp
  (pool allocation, IRP dispatch, the parity finalisers) are fields of `kernel`.
-/

namespace WinMD

/-! ## Machine integers -/

/-- Reduction of a natural number to the range of `uint32_t`. -/
def u32 (n : Nat) : Nat := n % 4294967296

/-- Reduction of a natural number to the range of `uint64_t`. -/
def u64 (n : Nat) : Nat := n % 18446744073709551616

/-- The `uint32_t` difference `a - b` (wrapping), for `a b < 2^32`. -/
def sub32 (a b : Nat) : Nat := u32 (a + 4294967296 - b)

/-- The `uint64_t` difference `a - b` (wrapping), for `a b < 2^64`. -/
def sub64 (a b : Nat) : Nat := u64 (a + 18446744073709551616 - b)

/-! ## Array configuration (winmd.h: `mdraid_array_info`) -/

/-- The RAID levels that `set_device::read` and `set_device::write` dispatch on. -/
inductive raid_level where
  | RAID_LEVEL_0 | RAID_LEVEL_1 | RAID_LEVEL_4 | RAID_LEVEL_5 | RAID_LEVEL_6
  | RAID_LEVEL_10 | RAID_LEVEL_LINEAR
  deriving DecidableEq, Repr

/-- The four parity layouts io.cpp distinguishes. -/
inductive raid_layout where
  | RAID_LAYOUT_LEFT_ASYMMETRIC | RAID_LAYOUT_RIGHT_ASYMMETRIC
  | RAID_LAYOUT_LEFT_SYMMETRIC | RAID_LAYOUT_RIGHT_SYMMETRIC
  deriving DecidableEq, Repr

open raid_level raid_layout

/-- The fields of `array_info` that io.cpp reads.  `chunksize` (in sectors) and
`raid_disks` are `uint32_t` fields of the superblock. -/
structure mdraid_array_info where
  level : raid_level
  layout : raid_layout
  chunksize : Nat
  raid_disks : Nat

/-- The layout test of `get_parity_volume`:
`layout == RAID_LAYOUT_RIGHT_ASYMMETRIC || layout == RAID_LAYOUT_RIGHT_SYMMETRIC`. -/
def right_oriented (a : mdraid_array_info) : Bool :=
  a.layout = RAID_LAYOUT_RIGHT_ASYMMETRIC || a.layout = RAID_LAYOUT_RIGHT_SYMMETRIC

/-- The layout test of `get_physical_stripe` and `flush_partial_chunk`:
`layout == RAID_LAYOUT_LEFT_ASYMMETRIC || layout == RAID_LAYOUT_RIGHT_ASYMMETRIC`. -/
def asymmetric (a : mdraid_array_info) : Bool :=
  a.layout = RAID_LAYOUT_LEFT_ASYMMETRIC || a.layout = RAID_LAYOUT_RIGHT_ASYMMETRIC

/-- The divisor of `get_parity_volume`: `(raid_disks - k) * chunksize * 512`
evaluated in `uint32_t`. -/
def stripe_bytes (a : mdraid_array_info) (k : Nat) : Nat :=
  u32 (u32 (sub32 a.raid_disks k * a.chunksize) * 512)

/-- `set_pdo::get_parity_volume` (io.cpp lines 95-121). -/
def get_parity_volume (a : mdraid_array_info) (offset : Nat) : Nat :=
  match a.level with
  | RAID_LEVEL_4 => sub32 a.raid_disks 1
  | RAID_LEVEL_5 =>
    let offset := offset / stripe_bytes a 1
    let offset := offset % a.raid_disks
    if right_oriented a then u32 offset
    else sub32 (sub32 a.raid_disks (u32 offset)) 1
  | RAID_LEVEL_6 =>
    let offset := offset / stripe_bytes a 2
    let offset := offset % a.raid_disks
    if right_oriented a then u32 offset
    else sub32 (sub32 a.raid_disks (u32 offset)) 1
  | _ => 0

/-- `set_pdo::get_physical_stripe` (io.cpp lines 123-137). -/
def get_physical_stripe (a : mdraid_array_info) (stripe parity : Nat) : Nat :=
  if a.level = RAID_LEVEL_6 then
    let q := u32 (parity + 1) % a.raid_disks
    if asymmetric a then
      u32 (stripe + (if q = 0 then 1 else (if stripe ≥ parity then 2 else 0)))
    else
      u32 (u32 (parity + stripe) + 2) % a.raid_disks
  else
    if a.level = RAID_LEVEL_5 ∧ asymmetric a then
      u32 (stripe + (if stripe ≥ parity then 1 else 0))
    else
      u32 (u32 (parity + stripe) + 1) % a.raid_disks

/-- The number of data disks, as computed at the head of `flush_partial_chunk`
and `add_partial_chunk`: `raid_disks - (level == RAID_LEVEL_6 ? 2 : 1)`. -/
def data_disks (a : mdraid_array_info) : Nat :=
  sub32 a.raid_disks (if a.level = RAID_LEVEL_6 then 2 else 1)

/-- The parity placement as the specification words it: the last disk for
RAID-4; for RAID-5 `d = (offset / ((N-1) * chunk_bytes)) mod N`, giving `d` for
a right-oriented layout and `N-1-d` otherwise; for RAID-6 the same with
`N-2` in the divisor. -/
def parity_disk_for (a : mdraid_array_info) (offset : Nat) : Nat :=
  let N := a.raid_disks
  let chunk_bytes := a.chunksize * 512
  match a.level with
  | RAID_LEVEL_4 => N - 1
  | RAID_LEVEL_5 =>
    let d := (offset / ((N - 1) * chunk_bytes)) % N
    if a.layout = RAID_LAYOUT_RIGHT_ASYMMETRIC ∨ a.layout = RAID_LAYOUT_RIGHT_SYMMETRIC
    then d else N - 1 - d
  | RAID_LEVEL_6 =>
    let d := (offset / ((N - 2) * chunk_bytes)) % N
    if a.layout = RAID_LAYOUT_RIGHT_ASYMMETRIC ∨ a.layout = RAID_LAYOUT_RIGHT_SYMMETRIC
    then d else N - 1 - d
  | _ => 0

/-! ## Status codes (ntstatus.h) -/

/-- An `NTSTATUS` is a signed 32-bit code. -/
abbrev NTSTATUS := Int

/-- The `NT_SUCCESS` test: the code is non-negative. -/
def NT_SUCCESS (Status : NTSTATUS) : Bool := decide (0 ≤ Status)

def STATUS_SUCCESS : NTSTATUS := 0

def STATUS_PENDING : NTSTATUS := 259

/-- The code 0xC000009A. -/
def STATUS_INSUFFICIENT_RESOURCES : NTSTATUS := -1073741670

/-! ## Bitmaps (`RTL_BITMAP`)

A bitmap is the list of its `SizeOfBitMap` bits; bit `k` of the header is
bit `k % 8` of byte `k / 8` of the underlying buffer. -/

/-- `RtlCheckBit`. -/
def RtlCheckBit (bmp : List Bool) (k : Nat) : Bool := bmp.getD k false

/-- The bits of `bmp` with those at `start ≤ k < start + count` replaced by `v`. -/
def fill_bits (v : Bool) : List Bool → Nat → Nat → List Bool
  | [], _, _ => []
  | b :: bs, 0, 0 => b :: bs
  | _ :: bs, 0, n + 1 => v :: fill_bits v bs 0 n
  | b :: bs, s + 1, n => b :: fill_bits v bs s n

/-- `RtlSetBits`. -/
def RtlSetBits (bmp : List Bool) (start count : Nat) : List Bool := fill_bits true bmp start count

/-- `RtlClearBits`. -/
def RtlClearBits (bmp : List Bool) (start count : Nat) : List Bool :=
  fill_bits false bmp start count

/-- `RtlAreBitsClear`: false for an empty or out-of-range span, otherwise
whether every bit of the span is clear. -/
def RtlAreBitsClear (bmp : List Bool) (start length : Nat) : Bool :=
  decide (start + length ≤ bmp.length) && decide (0 < length) &&
    ((bmp.drop start).take length).all (fun b => !b)

/-- The number of leading bits equal to `v`. -/
def run_length (v : Bool) : List Bool → Nat
  | [] => 0
  | b :: bs => if b = v then run_length v bs + 1 else 0

/-- `RtlFindNextForwardRunClear`: the length and the starting index of the
first run of clear bits at or after `FromIndex`; length 0 when there is none. -/
def RtlFindNextForwardRunClear (bmp : List Bool) (FromIndex : Nat) : Nat × Nat :=
  if bmp.length ≤ FromIndex then (0, FromIndex)
  else
    let start := FromIndex + run_length true (bmp.drop FromIndex)
    (run_length false (bmp.drop start), start)

/-- `RtlFindFirstRunClear`. -/
def RtlFindFirstRunClear (bmp : List Bool) : Nat × Nat := RtlFindNextForwardRunClear bmp 0

/-- Byte `k` of the buffer behind a bitmap. -/
def bitmap_byte (bmp : List Bool) (k : Nat) : Nat :=
  (bmp.getD (8 * k) false).toNat + 2 * (bmp.getD (8 * k + 1) false).toNat
    + 4 * (bmp.getD (8 * k + 2) false).toNat + 8 * (bmp.getD (8 * k + 3) false).toNat
    + 16 * (bmp.getD (8 * k + 4) false).toNat + 32 * (bmp.getD (8 * k + 5) false).toNat
    + 64 * (bmp.getD (8 * k + 6) false).toNat + 128 * (bmp.getD (8 * k + 7) false).toNat

/-- The buffer behind a bitmap, as bytes. -/
def bitmap_bytes (bmp : List Bool) : List Nat :=
  (List.range ((bmp.length + 7) / 8)).map (bitmap_byte bmp)

/-- `RtlInitializeBitMap(&bmp, buf, size)`: the `size` bits found in the bytes `buf`. -/
def RtlInitializeBitMap (buf : List Nat) (size : Nat) : List Bool :=
  (List.range size).map (fun j => (buf.getD (j / 8) 0).testBit (j % 8))

/-! ## The merge primitives `do_and` and `do_xor` -/

/-- A load of `n` bytes at `pos` as one little-endian word (`n = 16` for
`_mm_load_si128`, `4` for `*(uint32_t*)`, `1` for `*buf`); each element is read
as a `uint8_t`. -/
def load_le (buf : List Nat) (pos : Nat) : Nat → Nat
  | 0 => 0
  | n + 1 => buf.getD pos 0 % 256 + 256 * load_le buf (pos + 1) n

/-- Byte `i` of the word `w`. -/
def byte_of (w i : Nat) : Nat := (w / 256 ^ i) % 256

/-- A store of the low `n` bytes of the word `w` at `pos`, little-endian. -/
def store_le (buf : List Nat) (pos n w : Nat) : List Nat :=
  buf.mapIdx (fun k x => if pos ≤ k ∧ k < pos + n then byte_of w (k - pos) else x)

/-- One load/combine/store of `n` bytes at `pos`: `n` bytes of each buffer are
loaded as a word, the words are combined by `op`, and the result is stored over
`buf1`. -/
def combine_block (op : Nat → Nat → Nat) (buf1 buf2 : List Nat) (pos n : Nat) : List Nat :=
  store_le buf1 pos n (op (load_le buf1 pos n) (load_le buf2 pos n))

/-- An operation on words that acts on every byte lane separately. -/
def lanewise (op : Nat → Nat → Nat) : Prop :=
  ∀ x y i, byte_of (op x y) i = op (byte_of x i) (byte_of y i)

/-- A loop `while (len >= width) { block; buf1 += width; buf2 += width; len -= width; }`;
returns the buffer, the position reached and the remaining length. -/
def block_loop (op : Nat → Nat → Nat) (width : Nat) (buf2 : List Nat) :
    Nat → List Nat → Nat → Nat → List Nat × Nat × Nat
  | 0, buf1, pos, len => (buf1, pos, len)
  | fuel + 1, buf1, pos, len =>
    if len ≥ width then
      block_loop op width buf2 fuel (combine_block op buf1 buf2 pos width) (pos + width)
        (len - width)
    else (buf1, pos, len)

/-- The common body of `do_xor` and `do_and` (io.cpp lines 33-93): 16-byte
blocks when SSE2 is available and both pointers are 16-byte aligned, then
4-byte words, then single bytes.  `addr1` and `addr2` are the addresses of
`buf1` and `buf2`; the lists start at those addresses. -/
def do_op (op : Nat → Nat → Nat) (sse2 : Bool) (addr1 addr2 : Nat) (buf1 buf2 : List Nat)
    (len : Nat) : List Nat :=
  let s1 :=
    if sse2 && addr1 % 16 == 0 && addr2 % 16 == 0 then block_loop op 16 buf2 len buf1 0 len
    else (buf1, 0, len)
  let s2 := block_loop op 4 buf2 s1.2.2 s1.1 s1.2.1 s1.2.2
  (block_loop op 1 buf2 s2.2.2 s2.1 s2.2.1 s2.2.2).1

/-- `do_xor` (io.cpp lines 33-62). -/
def do_xor (sse2 : Bool) (addr1 addr2 : Nat) (buf1 buf2 : List Nat) (len : Nat) : List Nat :=
  do_op (fun x y => x ^^^ y) sse2 addr1 addr2 buf1 buf2 len

/-- `do_and` (io.cpp lines 64-93). -/
def do_and (sse2 : Bool) (addr1 addr2 : Nat) (buf1 buf2 : List Nat) (len : Nat) : List Nat :=
  do_op (fun x y => x &&& y) sse2 addr1 addr2 buf1 buf2 len

/-! ## Device, cache entries and the environment -/

/-- A cache entry (`partial_chunk`): its chunk offset, the pending bitmap
`bmp` (one bit per sector, set = not yet written) and the data buffer. -/
structure partial_chunk where
  offset : Nat
  bmp : List Bool
  data : Nat → Nat

/-- The parts of `set_pdo` that io.cpp reads besides the cache: `array_info`
and, for each member `k` of `child_list`, `disk_info.data_offset`. -/
structure set_pdo where
  array_info : mdraid_array_info
  data_offset : Nat → Nat

/-- A read request (`io_context`): the member disk (as its index in
`child_list`), the physical byte range, the destination `va2` (as an offset
into the entry's `data`) and the status. -/
structure io_context where
  sc : Nat
  stripe_start : Nat
  stripe_end : Nat
  va2 : Nat
  Status : NTSTATUS
  deriving DecidableEq, Repr

/-- What io.cpp obtains from outside itself. -/
structure kernel where
  /-- The global `have_sse2`. -/
  have_sse2 : Bool
  /-- Whether `ExAllocatePoolWithTag` in `add_partial_chunk` returns memory. -/
  pool_alloc : Bool
  /-- The bytes found in that fresh allocation's `data` (buffer, then bitmap). -/
  pool_data : Nat → Nat
  /-- Whether the allocation of `np_buffer valid` succeeds. -/
  valid_alloc : Bool
  /-- Its size `sector_align(chunksize, 32) / 8` (the macro is in winmd.h). -/
  valid_len : Nat
  /-- The bytes found in it. -/
  valid_garbage : Nat → Nat
  /-- The address of `valid.buf`. -/
  valid_addr : Nat
  /-- The address of the entry's `bmp.Buffer`. -/
  bmp_addr : Nat
  /-- The `Status` left by the `io_context` constructor, by member disk and byte range. -/
  io_context_status : Nat → Nat → Nat → NTSTATUS
  /-- Whether `IoAllocateMdl` succeeds for a request. -/
  IoAllocateMdl : io_context → Bool
  /-- The value `IoCallDriver` returns for a request. -/
  IoCallDriver : io_context → NTSTATUS
  /-- The completion status `iosb.Status` of a request. -/
  iosb_Status : io_context → NTSTATUS
  /-- The RAID-6 finaliser, called with the entry and the `valid` bitmap. -/
  flush_partial_chunk_raid6 : partial_chunk → List Bool → NTSTATUS
  /-- The RAID-4/5 finaliser. -/
  flush_partial_chunk_raid45 : partial_chunk → List Bool → NTSTATUS

/-! ## `flush_partial_chunk` -/

/-- The `valid` buffer after lines 244-251: row 0 of the pending bitmap copied
in, then every further row ANDed in with `do_and`. -/
def valid_rows (pdo : set_pdo) (k : kernel) (pc : partial_chunk) :
    Nat → Nat → List Nat → List Nat
  | 0, _, valid => valid
  | n + 1, i, valid =>
    let off := u32 (i * pdo.array_info.chunksize) / 8
    valid_rows pdo k pc n (i + 1)
      (do_and k.have_sse2 k.valid_addr (k.bmp_addr + off) valid
        ((bitmap_bytes pc.bmp).drop off) (pdo.array_info.chunksize / 8))

/-- `RtlCopyMemory(dst, src, n)` on byte lists. -/
def copy_bytes (dst src : List Nat) (n : Nat) : List Nat :=
  dst.mapIdx (fun k x => if k < n then src.getD k 0 else x)

/-- The contents of `valid.buf` when the read loop starts. -/
def valid_buf (pdo : set_pdo) (k : kernel) (pc : partial_chunk) : List Nat :=
  let fresh := (List.range k.valid_len).map k.valid_garbage
  let valid := copy_bytes fresh (bitmap_bytes pc.bmp) (pdo.array_info.chunksize / 8)
  valid_rows pdo k pc (data_disks pdo.array_info - 1) 1 valid

/-- The bitmap `valid_bmp`: `chunksize` bits over `valid.buf`. -/
def valid_bmp (pdo : set_pdo) (k : kernel) (pc : partial_chunk) : List Bool :=
  RtlInitializeBitMap (valid_buf pdo k pc) pdo.array_info.chunksize

/-- The physical start of sector column `j` on member `stripe` (line 267). -/
def stripe_start_of (pdo : set_pdo) (pc : partial_chunk) (stripe j : Nat) : Nat :=
  u64 (u64 (pc.offset / data_disks pdo.array_info + u32 (j * 512))
    + u64 (pdo.data_offset stripe * 512))

/-- The body of the `for j` loop (lines 266-282) for row `i` on member
`stripe`.  `ctxs` is the request list, newest first; `last` tells whether the
pointer `last` is non-null, in which case it points at the newest request. -/
def read_sector (pdo : set_pdo) (k : kernel) (pc : partial_chunk) (i stripe j : Nat)
    (ctxs : List io_context) (last : Bool) : Except NTSTATUS (List io_context × Bool) :=
  let a := pdo.array_info
  let chunk_size := u32 (a.chunksize * 512)
  if RtlCheckBit pc.bmp (u32 (u32 (i * a.chunksize) + j)) then
    let stripe_start := stripe_start_of pdo pc stripe j
    let fresh : Except NTSTATUS (List io_context × Bool) :=
      let st := k.io_context_status stripe stripe_start (u64 (stripe_start + 512))
      if NT_SUCCESS st then
        .ok ({ sc := stripe, stripe_start := stripe_start,
               stripe_end := u64 (stripe_start + 512),
               va2 := u32 (i * chunk_size) + u32 (j * 512), Status := st } :: ctxs, true)
      else .error st
    match last, ctxs with
    | true, l :: rest =>
      if l.stripe_end = stripe_start then
        .ok ({ l with stripe_end := u64 (l.stripe_end + 512) } :: rest, true)
      else fresh
    | _, _ => fresh
  else .ok (ctxs, last)

/-- The loop `for (j = index; j < index + runlength; j++)` (lines 265-283),
by the number of iterations left. -/
def read_run (pdo : set_pdo) (k : kernel) (pc : partial_chunk) (i stripe : Nat) :
    Nat → Nat → List io_context → Bool → Except NTSTATUS (List io_context × Bool)
  | 0, _, ctxs, last => .ok (ctxs, last)
  | n + 1, j, ctxs, last =>
    match read_sector pdo k pc i stripe j ctxs last with
    | .error st => .error st
    | .ok (ctxs1, last1) => read_run pdo k pc i stripe n (j + 1) ctxs1 last1

/-- The loop `while (runlength != 0)` (lines 264-286).  Every iteration moves
`index + runlength` forward, so `valid.length + 1` units of fuel never run out. -/
def read_runs (pdo : set_pdo) (k : kernel) (pc : partial_chunk) (valid : List Bool)
    (i stripe : Nat) :
    Nat → Nat → Nat → List io_context → Bool → Except NTSTATUS (List io_context × Bool)
  | 0, _, _, ctxs, last => .ok (ctxs, last)
  | fuel + 1, runlength, index, ctxs, last =>
    if runlength = 0 then .ok (ctxs, last)
    else
      match read_run pdo k pc i stripe runlength index ctxs last with
      | .error st => .error st
      | .ok (ctxs1, last1) =>
        let r := RtlFindNextForwardRunClear valid (u32 (index + runlength))
        read_runs pdo k pc valid i stripe fuel r.1 r.2 ctxs1 last1

/-- The advance of `stripe` at the end of a row (lines 288-298). -/
def next_stripe (a : mdraid_array_info) (stripe parity : Nat) : Nat :=
  if asymmetric a then
    let stripe := u32 (stripe + 1)
    if stripe = parity then
      (if a.level = RAID_LEVEL_6 then u32 (stripe + 2) else u32 (stripe + 1))
    else stripe
  else u32 (stripe + 1) % a.raid_disks

/-- The loop `for (i = 0; i < data_disks; i++)` (lines 259-299), by the number
of rows left; `last` starts null in every row. -/
def read_rows (pdo : set_pdo) (k : kernel) (pc : partial_chunk) (valid : List Bool)
    (parity : Nat) : Nat → Nat → Nat → List io_context → Except NTSTATUS (List io_context)
  | 0, _, _, ctxs => .ok ctxs
  | n + 1, i, stripe, ctxs =>
    let r := RtlFindFirstRunClear valid
    match read_runs pdo k pc valid i stripe (valid.length + 1) r.1 r.2 ctxs false with
    | .error st => .error st
    | .ok (ctxs1, _) =>
      read_rows pdo k pc valid parity n (i + 1) (next_stripe pdo.array_info stripe parity) ctxs1

/-- The read requests `flush_partial_chunk` builds (lines 253-299), in list
order (oldest first), or the status of a failed `io_context` constructor. -/
def flush_partial_chunk_reads (pdo : set_pdo) (k : kernel) (pc : partial_chunk) :
    Except NTSTATUS (List io_context) :=
  let parity := get_parity_volume pdo.array_info pc.offset
  let stripe := get_physical_stripe pdo.array_info 0 parity
  match read_rows pdo k pc (valid_bmp pdo k pc) parity (data_disks pdo.array_info) 0 stripe []
  with
  | .error st => .error st
  | .ok ctxs => .ok ctxs.reverse

/-- The length of a request's transfer, `(ULONG)(ctx.stripe_end - ctx.stripe_start)`
(lines 309 and 321). -/
def read_length (ctx : io_context) : Nat := u32 (sub64 ctx.stripe_end ctx.stripe_start)

/-- The dispatch loop (lines 302-326): each request gets an MDL and is sent
with `IoCallDriver`, whose return value becomes its `Status`. -/
def dispatch_reads (k : kernel) : List io_context → Except NTSTATUS (List io_context)
  | [] => .ok []
  | ctx :: rest =>
    if k.IoAllocateMdl ctx then
      match dispatch_reads k rest with
      | .error st => .error st
      | .ok rest1 => .ok ({ ctx with Status := k.IoCallDriver ctx } :: rest1)
    else .error STATUS_INSUFFICIENT_RESOURCES

/-- The wait loop (lines 328-345), started with `Status`: a pending request is
waited for and takes its completion status; every failure overwrites `Status`. -/
def wait_reads (k : kernel) : List io_context → NTSTATUS → NTSTATUS
  | [], Status => Status
  | ctx :: rest, Status =>
    let st := if ctx.Status = STATUS_PENDING then k.iosb_Status ctx else ctx.Status
    wait_reads k rest (if NT_SUCCESS st then Status else st)

/-- `set_pdo::flush_partial_chunk` (io.cpp lines 227-356). -/
def flush_partial_chunk (pdo : set_pdo) (k : kernel) (pc : partial_chunk) : NTSTATUS :=
  if k.valid_alloc then
    match flush_partial_chunk_reads pdo k pc with
    | .error st => st
    | .ok ctxs =>
      let finish : NTSTATUS :=
        if pdo.array_info.level = RAID_LEVEL_6 then
          k.flush_partial_chunk_raid6 pc (valid_bmp pdo k pc)
        else k.flush_partial_chunk_raid45 pc (valid_bmp pdo k pc)
      if ctxs.isEmpty then finish
      else
        match dispatch_reads k ctxs with
        | .error st => st
        | .ok sent =>
          let Status := wait_reads k sent STATUS_SUCCESS
          if NT_SUCCESS Status then finish else Status
  else STATUS_INSUFFICIENT_RESOURCES

/-! ## The cache: `add_partial_chunk` and `flush_chunks` -/

/-- `RtlCopyMemory(dst + pos, src, len)` on a byte buffer. -/
def RtlCopyMemory (dst : Nat → Nat) (pos : Nat) (src : Nat → Nat) (len : Nat) : Nat → Nat :=
  fun b => if pos ≤ b ∧ b < pos + len then src (b - pos) else dst b

/-- The outcome of `add_partial_chunk`: the returned status, the list
`partial_chunks` afterwards, and the entries it passed to `flush_partial_chunk`. -/
structure add_result where
  Status : NTSTATUS
  chunks : List partial_chunk
  flushed : List partial_chunk

/-- `full_chunk = chunksize * 512 * data_disks` in `uint32_t` (line 409). -/
def full_chunk (a : mdraid_array_info) : Nat := u32 (u32 (a.chunksize * 512) * data_disks a)

/-- The bitmap size `chunksize * data_disks` in `uint32_t`. -/
def chunk_bits (a : mdraid_array_info) : Nat := u32 (a.chunksize * data_disks a)

/-- Lines 421-423 and 459-461: the write copied into the entry's buffer and
its sectors cleared in the pending bitmap. -/
def copy_and_clear (pc : partial_chunk) (offset chunk_offset length : Nat) (data : Nat → Nat) :
    partial_chunk :=
  { pc with
    data := RtlCopyMemory pc.data (offset - chunk_offset) data length
    bmp := RtlClearBits pc.bmp (u32 ((offset - chunk_offset) / 512)) (length / 512) }

/-- Lines 443-465: the new entry, inserted before `rest` (the position `le`
where the scan stopped), or the allocation failure. -/
def add_new_chunk (pdo : set_pdo) (k : kernel) (offset chunk_offset length : Nat)
    (data : Nat → Nat) (rest : List partial_chunk) : add_result :=
  let a := pdo.array_info
  if k.pool_alloc then
    let bits := RtlInitializeBitMap
      ((List.range ((chunk_bits a + 7) / 8)).map (fun b => k.pool_data (full_chunk a + b)))
      (chunk_bits a)
    let pc : partial_chunk :=
      { offset := chunk_offset, data := k.pool_data, bmp := RtlSetBits bits 0 (chunk_bits a) }
    { Status := STATUS_SUCCESS
      chunks := copy_and_clear pc offset chunk_offset length data :: rest
      flushed := [] }
  else { Status := STATUS_INSUFFICIENT_RESOURCES, chunks := rest, flushed := [] }

/-- The scan of `add_partial_chunk` (lines 415-441) from list position `le`
on, followed by lines 443-465 when no entry matches. -/
def add_partial_chunk_from (pdo : set_pdo) (k : kernel) (offset chunk_offset length : Nat)
    (data : Nat → Nat) : List partial_chunk → add_result
  | [] => add_new_chunk pdo k offset chunk_offset length data []
  | pc :: rest =>
    if pc.offset = chunk_offset then
      let pc1 := copy_and_clear pc offset chunk_offset length data
      if RtlAreBitsClear pc1.bmp 0 (chunk_bits pdo.array_info) then
        let Status := flush_partial_chunk pdo k pc1
        if NT_SUCCESS Status then
          { Status := STATUS_SUCCESS, chunks := rest, flushed := [pc1] }
        else { Status := Status, chunks := pc1 :: rest, flushed := [pc1] }
      else { Status := STATUS_SUCCESS, chunks := pc1 :: rest, flushed := [] }
    else if pc.offset > chunk_offset then
      add_new_chunk pdo k offset chunk_offset length data (pc :: rest)
    else
      let r := add_partial_chunk_from pdo k offset chunk_offset length data rest
      { r with chunks := pc :: r.chunks }

/-- `set_pdo::add_partial_chunk` (io.cpp lines 407-466) on the cache list
`partial_chunks`. -/
def add_partial_chunk (pdo : set_pdo) (k : kernel) (partial_chunks : List partial_chunk)
    (offset length : Nat) (data : Nat → Nat) : add_result :=
  let chunk_offset := offset - offset % full_chunk pdo.array_info
  add_partial_chunk_from pdo k offset chunk_offset length data partial_chunks

/-- The outcome of `flush_chunks`: the list afterwards, and every entry it
passed to `flush_partial_chunk`, in call order, with the status returned. -/
structure flush_result where
  chunks : List partial_chunk
  flushed : List (partial_chunk × NTSTATUS)

/-- `set_pdo::flush_chunks` (io.cpp lines 358-368): while the list is not
empty, remove its head, reconcile it, free it. -/
def flush_chunks (pdo : set_pdo) (k : kernel) : List partial_chunk → flush_result
  | [] => { chunks := [], flushed := [] }
  | pc :: rest =>
    let Status := flush_partial_chunk pdo k pc
    let r := flush_chunks pdo k rest
    { chunks := r.chunks, flushed := (pc, Status) :: r.flushed }

/-- The pending bitmap the cache holds for a chunk offset: that of the first
entry with this offset, `none` when there is no such entry. -/
def pending_bitmap (chunks : List partial_chunk) (chunk_offset : Nat) : Option (List Bool) :=
  (chunks.find? (fun pc => pc.offset = chunk_offset)).map (fun pc => pc.bmp)

/-- The offset and the pending bitmap of every entry, in list order. -/
def cache_bitmaps (chunks : List partial_chunk) : List (Nat × List Bool) :=
  chunks.map (fun pc => (pc.offset, pc.bmp))

/-- The arguments of one `add_partial_chunk` call. -/
structure chunk_write where
  offset : Nat
  length : Nat
  data : Nat → Nat

/-- A sequence of `add_partial_chunk` calls, first write first: the cache
after the last call, and the entries passed to `flush_partial_chunk` by all the
calls, in call order. -/
def add_partial_chunks (pdo : set_pdo) (k : kernel) :
    List chunk_write → List partial_chunk → List partial_chunk × List partial_chunk
  | [], chunks => (chunks, [])
  | w :: ws, chunks =>
    let r := add_partial_chunk pdo k chunks w.offset w.length w.data
    let r2 := add_partial_chunks pdo k ws r.chunks
    (r2.1, r.flushed ++ r2.2)

/-- Sector `t` of the chunk group at `chunk_offset` lies in the write `w`:
the span `RtlClearBits` is called with. -/
def in_sectors (chunk_offset : Nat) (w : chunk_write) (t : Nat) : Prop :=
  (w.offset - chunk_offset) / 512 ≤ t ∧ t < (w.offset - chunk_offset) / 512 + w.length / 512

/-! ## The read set: what the requests cover -/

/-- The column scan that the run loop amounts to: for the `n` columns from
`j` on, the body `read_sector` runs on every column whose `valid` bit is clear. -/
def scan_columns (pdo : set_pdo) (k : kernel) (pc : partial_chunk) (valid : List Bool)
    (i stripe : Nat) :
    Nat → Nat → List io_context → Bool → Except NTSTATUS (List io_context × Bool)
  | 0, _, ctxs, last => .ok (ctxs, last)
  | n + 1, j, ctxs, last =>
    if RtlCheckBit valid j then scan_columns pdo k pc valid i stripe n (j + 1) ctxs last
    else
      match read_sector pdo k pc i stripe j ctxs last with
      | .error st => .error st
      | .ok (ctxs1, last1) => scan_columns pdo k pc valid i stripe n (j + 1) ctxs1 last1

/-- A request covers sector column `j` of data row `i`: its transfer fills the
512 bytes of the entry's buffer that hold this sector, those at
`(i * chunksize + j) * 512`. -/
def covers (a : mdraid_array_info) (ctx : io_context) (i j : Nat) : Prop :=
  ctx.va2 ≤ (i * a.chunksize + j) * 512 ∧
    (i * a.chunksize + j) * 512 + 512 ≤ ctx.va2 + read_length ctx

/-- Sector column `c` of row `r` has to be read: it is pending in its row and
its `valid` bit is clear. -/
def to_read (a : mdraid_array_info) (pc : partial_chunk) (valid : List Bool) (r c : Nat) : Prop :=
  RtlCheckBit pc.bmp (r * a.chunksize + c) = true ∧ RtlCheckBit valid c = false

/-- The requests cover exactly the sectors to read that lie before column `j`
of row `i` in scan order. -/
def covered_upto (a : mdraid_array_info) (pc : partial_chunk) (valid : List Bool)
    (ctxs : List io_context) (i j : Nat) : Prop :=
  ∀ r c, c < a.chunksize →
    ((∃ ctx ∈ ctxs, covers a ctx r c) ↔ (to_read a pc valid r c ∧ (r < i ∨ (r = i ∧ c < j))))

/-- When `last` is non-null, the newest request is a run of row `i` that ends
at or before column `j`, and its `stripe_end` is the physical start of the
column after the run. -/
def last_open (pdo : set_pdo) (pc : partial_chunk) (stripe i j : Nat)
    (ctxs : List io_context) (last : Bool) : Prop :=
  last = true → ∃ l rest j0 m, ctxs = l :: rest ∧
    l.va2 = (i * pdo.array_info.chunksize + j0) * 512 ∧
    sub64 l.stripe_end l.stripe_start = m * 512 ∧ 0 < m ∧ j0 + m ≤ j ∧
    l.stripe_start < 18446744073709551616 ∧ l.stripe_end < 18446744073709551616 ∧
    l.stripe_end = stripe_start_of pdo pc stripe (j0 + m)

/-- Every request of the list covers at least one sector of the chunk group. -/
def all_cover (a : mdraid_array_info) (ctxs : List io_context) : Prop :=
  ∀ ctx ∈ ctxs, ∃ r c, c < a.chunksize ∧ covers a ctx r c

/-! ## Concrete arrays and environments used in the examples -/

/-- A three-disk RAID-5 array with 8-sector chunks: two data rows, 16 sectors
and 8192 bytes per chunk group. -/
def small_array : set_pdo :=
  { array_info := { level := RAID_LEVEL_5, layout := RAID_LAYOUT_LEFT_SYMMETRIC,
                    chunksize := 8, raid_disks := 3 }
    data_offset := fun _ => 0 }

/-- An environment in which every allocation, read and finaliser succeeds. -/
def kernel_ok : kernel :=
  { have_sse2 := true, pool_alloc := true, pool_data := fun _ => 0, valid_alloc := true,
    valid_len := 4, valid_garbage := fun _ => 255, valid_addr := 0, bmp_addr := 0,
    io_context_status := fun _ _ _ => STATUS_SUCCESS, IoAllocateMdl := fun _ => true,
    IoCallDriver := fun _ => STATUS_SUCCESS, iosb_Status := fun _ => STATUS_SUCCESS,
    flush_partial_chunk_raid6 := fun _ _ => STATUS_SUCCESS,
    flush_partial_chunk_raid45 := fun _ _ => STATUS_SUCCESS }

/-- As `kernel_ok`, but the allocation of the `valid` buffer fails. -/
def kernel_no_valid : kernel := { kernel_ok with valid_alloc := false }

/-- The code 0xC0000185. -/
def STATUS_IO_DEVICE_ERROR : NTSTATUS := -1073741435

/-- As `kernel_ok`, but every read completes with `STATUS_IO_DEVICE_ERROR`. -/
def kernel_read_error : kernel := { kernel_ok with IoCallDriver := fun _ => STATUS_IO_DEVICE_ERROR }

/-- The cache of `small_array` after one write of the first 15 sectors of the
chunk group at offset 0: one entry, sector 15 still pending. -/
def one_sector_pending : List partial_chunk :=
  (add_partial_chunk small_array kernel_ok [] 0 7680 (fun _ => 1)).chunks

/-- The array of the worked scenario: RAID-5 on 4 disks, 64 KiB chunks (128
sectors), right-symmetric layout; every member's data starts 2048 sectors in. -/
def scenario_array : set_pdo :=
  { array_info := { level := RAID_LEVEL_5, layout := RAID_LAYOUT_RIGHT_SYMMETRIC,
                    chunksize := 128, raid_disks := 4 }
    data_offset := fun _ => 2048 }

/-- As `kernel_ok`, with the `valid` buffer sized for 128-sector chunks. -/
def scenario_kernel : kernel := { kernel_ok with valid_len := 16 }

/-- The scenario's cache: from empty, an 8 KiB write at the start of logical
stripe 10 (chunk offset `10 * 3 * 65536`, data row 0), then an 8 KiB write at
the same column of data row 1. -/
def scenario_chunks : List partial_chunk :=
  (add_partial_chunk scenario_array scenario_kernel
    (add_partial_chunk scenario_array scenario_kernel [] 1966080 8192 (fun _ => 1)).chunks
    (1966080 + 65536) 8192 (fun _ => 2)).chunks

/-! ## Reference notions: cache order, request statuses, rows and runs -/

/-- The ordering invariant of the cache list: strictly ascending chunk
offsets, each a multiple of `full_chunk` (line 409; `chunksize * 512 *
data_disks` when that product fits in 32 bits). -/
def cache_ordered (a : mdraid_array_info) (chunks : List partial_chunk) : Prop :=
  chunks.Pairwise (fun x y => x.offset < y.offset) ∧
    ∀ pc ∈ chunks, pc.offset % full_chunk a = 0

/-- The cache entry for a chunk offset: the first entry of the list with this
offset. -/
def entry_at (chunks : List partial_chunk) (chunk_offset : Nat) : Option partial_chunk :=
  chunks.find? (fun pc => pc.offset = chunk_offset)

/-- The entry `add_partial_chunk` allocates and initialises at lines 448-457,
before the write is copied in: every bit of its bitmap set. -/
def new_partial_chunk (pdo : set_pdo) (k : kernel) (chunk_offset : Nat) : partial_chunk :=
  { offset := chunk_offset, data := k.pool_data,
    bmp := RtlSetBits (RtlInitializeBitMap
      ((List.range ((chunk_bits pdo.array_info + 7) / 8)).map
        (fun b => k.pool_data (full_chunk pdo.array_info + b)))
      (chunk_bits pdo.array_info)) 0 (chunk_bits pdo.array_info) }

/-- The final status of a dispatched request (lines 334-337): its completion
status `iosb.Status` if `IoCallDriver` returned `STATUS_PENDING`, otherwise
what `IoCallDriver` returned. -/
def final_status (k : kernel) (ctx : io_context) : NTSTATUS :=
  if ctx.Status = STATUS_PENDING then k.iosb_Status ctx else ctx.Status

/-- The environment `k` with other parity finalisers. -/
def with_finalisers (k : kernel) (f6 f45 : partial_chunk → List Bool → NTSTATUS) : kernel :=
  { k with flush_partial_chunk_raid6 := f6, flush_partial_chunk_raid45 := f45 }

/-- The one read that flushing `one_sector_pending` builds: 512 bytes of disk 1
at byte 3584, into the scratch buffer at 7680. -/
def one_sector_read (Status : NTSTATUS) : io_context :=
  { sc := 1, stripe_start := 3584, stripe_end := 4096, va2 := 7680, Status := Status }

/-- The entry of `one_sector_pending`. -/
def one_sector_entry : partial_chunk :=
  one_sector_pending.headD ⟨0, [], fun _ => 0⟩

/-- The value of the variable `stripe` of `flush_partial_chunk` at the start of
row `i`: `get_physical_stripe(0, parity)` (line 257), advanced once per row
(lines 288-298). -/
def row_stripe (a : mdraid_array_info) (parity : Nat) : Nat → Nat
  | 0 => get_physical_stripe a 0 parity
  | i + 1 => next_stripe a (row_stripe a parity i) parity

/-- A three-disk RAID-5 array whose chunk size, 12 sectors, is not a multiple
of 8: two data rows, 24 sectors and 12288 bytes per chunk group. -/
def twelve_sector_array : set_pdo :=
  { array_info := { level := RAID_LEVEL_5, layout := RAID_LAYOUT_LEFT_SYMMETRIC,
                    chunksize := 12, raid_disks := 3 }
    data_offset := fun _ => 0 }

/-- The entry of `twelve_sector_array` after one write of its sector 12, the
first sector of data row 1, into an empty cache. -/
def row_one_written : partial_chunk :=
  (add_partial_chunk twelve_sector_array kernel_ok [] 6144 512 (fun _ => 1)).chunks.headD
    ⟨0, [], fun _ => 0⟩

/-- The test the loop of lines 259-299 applies to sector column `j` of data
row `i`: the scan reaches the column (its bit in `valid` is clear) and the
pending bit of the sector is set (line 266). -/
def scan_reads (a : mdraid_array_info) (pc : partial_chunk) (valid : List Bool)
    (i j : Nat) : Bool :=
  RtlCheckBit pc.bmp (i * a.chunksize + j) && !RtlCheckBit valid j

/-- Sector column `j` of data row `i` needs reading: the sector is pending (not
yet written) while the same column has been written in some data row, so the
parity of the column has to be recomputed from it. -/
def needs_read (a : mdraid_array_info) (pc : partial_chunk) (i j : Nat) : Bool :=
  RtlCheckBit pc.bmp (i * a.chunksize + j) &&
    (List.range (data_disks a)).any (fun r => !RtlCheckBit pc.bmp (r * a.chunksize + j))

/-- The runs of consecutive columns below `n` on which `need` holds, as pairs
(first column, number of columns), the last run first. -/
def runs_upto (need : Nat → Bool) : Nat → List (Nat × Nat)
  | 0 => []
  | n + 1 =>
    if need n then
      match runs_upto need n with
      | [] => [(n, 1)]
      | (j0, m) :: rest => if j0 + m = n then (j0, m + 1) :: rest else (n, 1) :: (j0, m) :: rest
    else runs_upto need n

/-- The `m` columns from `j0` on are a maximal run of `need` among the columns
below `n`: `need` holds on all of them, and neither on the column before nor
on the column after. -/
def maximal_run (need : Nat → Bool) (n j0 m : Nat) : Prop :=
  0 < m ∧ j0 + m ≤ n ∧ (∀ c, j0 ≤ c → c < j0 + m → need c = true) ∧
    (j0 = 0 ∨ need (j0 - 1) = false) ∧ (j0 + m = n ∨ need (j0 + m) = false)

/-- The request for the run `r = (j0, n)` of data row `i` on member `stripe`,
as the specification words it: the bytes from
`chunk_offset / data_disks + j0 * 512 + data_offset * 512` to `n * 512` bytes
further, read into the entry's buffer at `i * chunk_size + j0 * 512`. -/
def run_request (pdo : set_pdo) (k : kernel) (pc : partial_chunk) (i stripe : Nat)
    (r : Nat × Nat) : io_context :=
  let start := pc.offset / data_disks pdo.array_info + r.1 * 512 + pdo.data_offset stripe * 512
  { sc := stripe, stripe_start := start, stripe_end := start + r.2 * 512,
    va2 := i * (pdo.array_info.chunksize * 512) + r.1 * 512,
    Status := k.io_context_status stripe start (start + 512) }

/-- The requests of data row `i`, one for every run of columns that need
reading, in ascending column order. -/
def row_requests (pdo : set_pdo) (k : kernel) (pc : partial_chunk) (i : Nat) : List io_context :=
  ((runs_upto (needs_read pdo.array_info pc i) pdo.array_info.chunksize).reverse).map
    (run_request pdo k pc i
      (row_stripe pdo.array_info (get_parity_volume pdo.array_info pc.offset) i))

/-- The entry of `small_array` after a write of sectors 2 and 3 and a write of
sector 5 of the chunk group at offset 0 (all in data row 0). -/
def two_runs_entry : partial_chunk :=
  (add_partial_chunk small_array kernel_ok
    (add_partial_chunk small_array kernel_ok [] 1024 1024 (fun _ => 1)).chunks
    2560 512 (fun _ => 2)).chunks.headD ⟨0, [], fun _ => 0⟩

/-! ## Geometry theorems -/

theorem get_parity_volume_lt (a : mdraid_array_info) (offset : Nat)
    (hl : a.level = RAID_LEVEL_4 ∨ a.level = RAID_LEVEL_5 ∨ a.level = RAID_LEVEL_6)
    (h32 : a.raid_disks < 4294967296) (hN : 2 ≤ a.raid_disks) :
    get_parity_volume a offset < a.raid_disks := by
  have hm : ∀ x : Nat, x % a.raid_disks < a.raid_disks := fun x => Nat.mod_lt _ (by omega)
  rcases hl with h | h | h
  · simp only [get_parity_volume, h, sub32, u32]; omega
  · simp only [get_parity_volume, h, sub32, u32]
    have := hm (offset / stripe_bytes a 1)
    split <;> omega
  · simp only [get_parity_volume, h, sub32, u32]
    have := hm (offset / stripe_bytes a 2)
    split <;> omega

theorem mod_of_lt_two_mul (x N : Nat) (hx : x < 2 * N) :
    x % N = if x < N then x else x - N := by
  split
  · exact Nat.mod_eq_of_lt (by assumption)
  · rw [Nat.mod_eq_sub_mod (by omega)]
    exact Nat.mod_eq_of_lt (by omega)

theorem get_physical_stripe_ne (a : mdraid_array_info) (s p : Nat)
    (hl : a.level = RAID_LEVEL_4 ∨ a.level = RAID_LEVEL_5 ∨ a.level = RAID_LEVEL_6)
    (h32 : a.raid_disks < 4294967296) (hN : 2 ≤ a.raid_disks)
    (hN6 : a.level = RAID_LEVEL_6 → 3 ≤ a.raid_disks)
    (hp : p < a.raid_disks) (hs : s < data_disks a) :
    get_physical_stripe a s p ≠ p := by
  have key1 : u32 (u32 (p + s) + 1) % a.raid_disks ≠ p ∨ a.raid_disks ≤ s + 1 := by
    by_cases hs1 : a.raid_disks ≤ s + 1
    · exact Or.inr hs1
    · left
      have h1 : u32 (u32 (p + s) + 1) < 2 * a.raid_disks := by simp only [u32]; omega
      rw [mod_of_lt_two_mul _ _ h1]
      simp only [u32]
      split <;> omega
  have key2 : u32 (u32 (p + s) + 2) % a.raid_disks ≠ p ∨ a.raid_disks ≤ s + 2 := by
    by_cases hs1 : a.raid_disks ≤ s + 2
    · exact Or.inr hs1
    · left
      have h1 : u32 (u32 (p + s) + 2) < 2 * a.raid_disks := by simp only [u32]; omega
      rw [mod_of_lt_two_mul _ _ h1]
      simp only [u32]
      split <;> omega
  have hq : u32 (p + 1) % a.raid_disks = 0 → p + 1 = a.raid_disks := by
    intro h0
    have h1 : u32 (p + 1) < 2 * a.raid_disks := by simp only [u32]; omega
    rw [mod_of_lt_two_mul _ _ h1] at h0
    simp only [u32] at h0
    split at h0 <;> omega
  unfold data_disks sub32 u32 at hs
  unfold get_physical_stripe
  rcases hl with h | h | h
  · simp only [h, reduceCtorEq, if_false, false_and] at hs ⊢
    rcases key1 with k | k
    · exact k
    · omega
  · simp only [h, reduceCtorEq, if_false, true_and] at hs ⊢
    split
    · simp only [u32]; split <;> omega
    · rcases key1 with k | k
      · exact k
      · omega
  · have h3 := hN6 h
    simp only [h, if_true] at hs ⊢
    split
    · split
      · rename_i hq0
        have := hq hq0
        simp only [u32]; omega
      · simp only [u32]; split <;> omega
    · rcases key2 with k | k
      · exact k
      · omega

/-- C1: for RAID-4, RAID-5 and RAID-6, every disk count `N ≥ 2` (`N ≥ 3` for
RAID-6), every layout, every byte offset and every data-disk ordinal
`s < data_disks`, the disk `get_physical_stripe s (get_parity_volume offset)`
differs from the parity disk `get_parity_volume offset`. -/
theorem parity_and_data_never_alias (a : mdraid_array_info) (offset s : Nat)
    (hl : a.level = RAID_LEVEL_4 ∨ a.level = RAID_LEVEL_5 ∨ a.level = RAID_LEVEL_6)
    (h32 : a.raid_disks < 4294967296) (hN : 2 ≤ a.raid_disks)
    (hN6 : a.level = RAID_LEVEL_6 → 3 ≤ a.raid_disks)
    (hs : s < data_disks a) :
    get_physical_stripe a s (get_parity_volume a offset) ≠ get_parity_volume a offset :=
  get_physical_stripe_ne a s _ hl h32 hN hN6 (get_parity_volume_lt a offset hl h32 hN) hs

theorem parity_and_data_never_alias_witness :
    get_physical_stripe ⟨RAID_LEVEL_6, RAID_LAYOUT_LEFT_ASYMMETRIC, 128, 5⟩ 2
        (get_parity_volume ⟨RAID_LEVEL_6, RAID_LAYOUT_LEFT_ASYMMETRIC, 128, 5⟩ 1966080)
      ≠ get_parity_volume ⟨RAID_LEVEL_6, RAID_LAYOUT_LEFT_ASYMMETRIC, 128, 5⟩ 1966080 :=
  parity_and_data_never_alias ⟨RAID_LEVEL_6, RAID_LAYOUT_LEFT_ASYMMETRIC, 128, 5⟩ 1966080 2
    (by decide) (by decide) (by decide) (by decide) (by decide)

/-- C2: `get_parity_volume` equals the reference placement `parity_disk_for`
(last disk for RAID-4; `d` or `N-1-d` with `d = (offset / ((N-1) * chunk_bytes)) mod N`
for RAID-5, divisor `(N-2) * chunk_bytes` for RAID-6) for every offset and every
configuration with `N ≥ 2` (`N ≥ 3` for RAID-6) whose stripe width fits in 32
bits, and the result is below `N`. -/
theorem get_parity_volume_eq_reference (a : mdraid_array_info) (offset : Nat)
    (hl : a.level = RAID_LEVEL_4 ∨ a.level = RAID_LEVEL_5 ∨ a.level = RAID_LEVEL_6)
    (h32 : a.raid_disks < 4294967296) (hN : 2 ≤ a.raid_disks)
    (hN6 : a.level = RAID_LEVEL_6 → 3 ≤ a.raid_disks)
    (hfit5 : a.level = RAID_LEVEL_5 → (a.raid_disks - 1) * a.chunksize * 512 < 4294967296)
    (hfit6 : a.level = RAID_LEVEL_6 → (a.raid_disks - 2) * a.chunksize * 512 < 4294967296) :
    get_parity_volume a offset = parity_disk_for a offset ∧
      get_parity_volume a offset < a.raid_disks := by
  refine ⟨?_, get_parity_volume_lt a offset hl h32 hN⟩
  have hm : ∀ x : Nat, x % a.raid_disks < a.raid_disks := fun x => Nat.mod_lt _ (by omega)
  have hsb : ∀ k, 1 ≤ k → k ≤ a.raid_disks →
      (a.raid_disks - k) * a.chunksize * 512 < 4294967296 →
      stripe_bytes a k = (a.raid_disks - k) * (a.chunksize * 512) := by
    intro k hk1 hk2 hfit
    have e1 : sub32 a.raid_disks k = a.raid_disks - k := by
      simp only [sub32, u32]; omega
    have h2 : (a.raid_disks - k) * a.chunksize < 4294967296 := by
      have := Nat.le_mul_of_pos_right ((a.raid_disks - k) * a.chunksize) (by omega : 0 < 512)
      omega
    simp only [stripe_bytes, e1, u32]
    rw [Nat.mod_eq_of_lt h2, Nat.mod_eq_of_lt hfit, Nat.mul_assoc]
  rcases hl with h | h | h
  · simp only [get_parity_volume, parity_disk_for, h, sub32, u32]; omega
  · have e := hsb 1 (by omega) (by omega) (hfit5 h)
    have := hm (offset / ((a.raid_disks - 1) * (a.chunksize * 512)))
    simp only [get_parity_volume, parity_disk_for, h, e, right_oriented, sub32, u32,
      Bool.or_eq_true, decide_eq_true_eq]
    split <;> omega
  · have e := hsb 2 (by omega) (by have := hN6 h; omega) (hfit6 h)
    have := hm (offset / ((a.raid_disks - 2) * (a.chunksize * 512)))
    simp only [get_parity_volume, parity_disk_for, h, e, right_oriented, sub32, u32,
      Bool.or_eq_true, decide_eq_true_eq]
    split <;> omega

theorem get_parity_volume_eq_reference_witness :
    get_parity_volume ⟨RAID_LEVEL_5, RAID_LAYOUT_LEFT_SYMMETRIC, 128, 4⟩ 1966080 =
        parity_disk_for ⟨RAID_LEVEL_5, RAID_LAYOUT_LEFT_SYMMETRIC, 128, 4⟩ 1966080 ∧
      get_parity_volume ⟨RAID_LEVEL_5, RAID_LAYOUT_LEFT_SYMMETRIC, 128, 4⟩ 1966080 < 4 :=
  get_parity_volume_eq_reference ⟨RAID_LEVEL_5, RAID_LAYOUT_LEFT_SYMMETRIC, 128, 4⟩ 1966080
    (by decide) (by decide) (by decide) (by decide) (by decide) (by decide)

/-- C3 as stated fails twice: a RAID-4 array whose layout field is asymmetric
still uses the rotating formula (N = 3, p = 1, s = 0 gives 2, not 0), and for
more than 2^31 disks the 32-bit sum `p + s + 1` wraps before the reduction
modulo `N` (N = 2^32 - 1, p = N - 1, s = 1 gives 0, not 1). -/
theorem get_physical_stripe_claim_fails :
    get_physical_stripe ⟨RAID_LEVEL_4, RAID_LAYOUT_LEFT_ASYMMETRIC, 128, 3⟩ 0 1 = 2 ∧
      (0 : Nat) + (if 0 ≥ 1 then 1 else 0) = 0 ∧
      get_physical_stripe ⟨RAID_LEVEL_5, RAID_LAYOUT_LEFT_SYMMETRIC, 128, 4294967295⟩ 1
        4294967294 = 0 ∧
      (4294967294 + 1 + 1) % 4294967295 = 1 := by
  decide

/-- C3 (amended): for `N ≥ 2`, `p < N` and `s < N - 1`, a RAID-5 array with an
asymmetric layout maps `s` to `s + (s ≥ p ? 1 : 0)`; a RAID-5 array with a
symmetric layout, and a RAID-4 array whatever its layout field, map it to
`(p + s + 1) mod N`, provided `N ≤ 2^31` so that the 32-bit sum does not wrap. -/
theorem get_physical_stripe_raid45 (a : mdraid_array_info) (s p : Nat)
    (h32 : a.raid_disks < 4294967296) (hN : 2 ≤ a.raid_disks)
    (hp : p < a.raid_disks) (hs : s < a.raid_disks - 1) :
    (a.level = RAID_LEVEL_5 → asymmetric a = true →
        get_physical_stripe a s p = s + (if s ≥ p then 1 else 0)) ∧
      (a.level = RAID_LEVEL_5 → asymmetric a = false → a.raid_disks ≤ 2147483648 →
        get_physical_stripe a s p = (p + s + 1) % a.raid_disks) ∧
      (a.level = RAID_LEVEL_4 → a.raid_disks ≤ 2147483648 →
        get_physical_stripe a s p = (p + s + 1) % a.raid_disks) := by
  refine ⟨?_, ?_, ?_⟩
  · intro h ha
    simp only [get_physical_stripe, h, ha, reduceCtorEq, if_false, and_self, if_true, u32]
    split <;> omega
  · intro h ha hb
    have e : u32 (u32 (p + s) + 1) = p + s + 1 := by simp only [u32]; omega
    simp only [get_physical_stripe, h, ha, reduceCtorEq, if_false, and_false, e,
      Bool.false_eq_true]
  · intro h hb
    have e : u32 (u32 (p + s) + 1) = p + s + 1 := by simp only [u32]; omega
    simp only [get_physical_stripe, h, reduceCtorEq, if_false, false_and, e]

theorem get_physical_stripe_raid45_witness :
    get_physical_stripe ⟨RAID_LEVEL_5, RAID_LAYOUT_LEFT_ASYMMETRIC, 128, 4⟩ 2 1
        = 2 + (if 2 ≥ 1 then 1 else 0) ∧
      get_physical_stripe ⟨RAID_LEVEL_5, RAID_LAYOUT_RIGHT_SYMMETRIC, 128, 4⟩ 2 1
        = (1 + 2 + 1) % 4 ∧
      get_physical_stripe ⟨RAID_LEVEL_4, RAID_LAYOUT_LEFT_ASYMMETRIC, 128, 4⟩ 2 1
        = (1 + 2 + 1) % 4 :=
  ⟨(get_physical_stripe_raid45 ⟨RAID_LEVEL_5, RAID_LAYOUT_LEFT_ASYMMETRIC, 128, 4⟩ 2 1
      (by decide) (by decide) (by decide) (by decide)).1 rfl rfl,
   (get_physical_stripe_raid45 ⟨RAID_LEVEL_5, RAID_LAYOUT_RIGHT_SYMMETRIC, 128, 4⟩ 2 1
      (by decide) (by decide) (by decide) (by decide)).2.1 rfl rfl (by decide),
   (get_physical_stripe_raid45 ⟨RAID_LEVEL_4, RAID_LAYOUT_LEFT_ASYMMETRIC, 128, 4⟩ 2 1
      (by decide) (by decide) (by decide) (by decide)).2.2 rfl (by decide)⟩

/-! ## Bitmap and buffer lemmas -/

theorem fill_bits_length (v : Bool) (l : List Bool) (s n : Nat) :
    (fill_bits v l s n).length = l.length := by
  induction l generalizing s n with
  | nil => simp [fill_bits]
  | cons b bs ih =>
    cases s with
    | zero => cases n <;> simp [fill_bits, ih]
    | succ s => simp [fill_bits, ih]

theorem fill_bits_getD (v : Bool) (l : List Bool) (s n t : Nat) (d : Bool) :
    (fill_bits v l s n).getD t d =
      if s ≤ t ∧ t < s + n ∧ t < l.length then v else l.getD t d := by
  induction l generalizing s n t with
  | nil => simp [fill_bits]
  | cons b bs ih =>
    cases s with
    | zero =>
      cases n with
      | zero => simp [fill_bits]
      | succ n =>
        cases t with
        | zero => simp [fill_bits]
        | succ t =>
          simp only [fill_bits, List.getD_cons_succ, ih, List.length_cons]
          congr 1
          simp only [eq_iff_iff]
          omega
    | succ s =>
      cases t with
      | zero => simp [fill_bits]
      | succ t =>
        simp only [fill_bits, List.getD_cons_succ, ih, List.length_cons]
        congr 1
        simp only [eq_iff_iff]
        omega

theorem fill_bits_idem (v : Bool) (l : List Bool) (s n : Nat) :
    fill_bits v (fill_bits v l s n) s n = fill_bits v l s n := by
  induction l generalizing s n with
  | nil => simp [fill_bits]
  | cons b bs ih =>
    cases s with
    | zero => cases n <;> simp [fill_bits, ih]
    | succ s => simp [fill_bits, ih]

theorem RtlCopyMemory_idem (dst : Nat → Nat) (pos : Nat) (src : Nat → Nat) (len : Nat) :
    RtlCopyMemory (RtlCopyMemory dst pos src len) pos src len = RtlCopyMemory dst pos src len := by
  funext b
  simp only [RtlCopyMemory]
  split <;> rfl

theorem copy_and_clear_idem (pc : partial_chunk) (offset co length : Nat) (data : Nat → Nat) :
    copy_and_clear (copy_and_clear pc offset co length data) offset co length data
      = copy_and_clear pc offset co length data := by
  simp only [copy_and_clear, RtlClearBits, fill_bits_idem, RtlCopyMemory_idem]

theorem copy_and_clear_offset (pc : partial_chunk) (offset co length : Nat) (data : Nat → Nat) :
    (copy_and_clear pc offset co length data).offset = pc.offset := rfl

/-! ## The cache: idempotence, failure paths, independence, full coverage -/

/-- C5 as stated fails: in `small_array`, with sector 15 the only pending
sector of the chunk, writing sector 15 once completes the chunk, which is
finalised and removed (no entry); writing it a second time opens a new entry
whose bitmap has every bit but bit 15 set. -/
theorem merge_twice_differs_from_once :
    pending_bitmap (add_partial_chunk small_array kernel_ok one_sector_pending 7680 512
        (fun _ => 1)).chunks 0 = none ∧
      pending_bitmap (add_partial_chunk small_array kernel_ok
        (add_partial_chunk small_array kernel_ok one_sector_pending 7680 512 (fun _ => 1)).chunks
        7680 512 (fun _ => 1)).chunks 0
        = some (List.replicate 15 true ++ [false]) := by
  decide

theorem pending_bitmap_cons_ne (pc : partial_chunk) (rest : List partial_chunk) (co : Nat)
    (h : pc.offset ≠ co) : pending_bitmap (pc :: rest) co = pending_bitmap rest co := by
  simp [pending_bitmap, List.find?, h]

theorem pending_bitmap_cons_eq (pc : partial_chunk) (rest : List partial_chunk) (co : Nat)
    (h : pc.offset = co) : pending_bitmap (pc :: rest) co = some pc.bmp := by
  simp [pending_bitmap, List.find?, h]

theorem add_partial_chunk_from_idem (pdo : set_pdo) (k : kernel) (offset co length : Nat)
    (data : Nat → Nat) (chunks : List partial_chunk)
    (hq : (add_partial_chunk_from pdo k offset co length data chunks).flushed = [])
    (hp : ∀ bits ∈ pending_bitmap (add_partial_chunk_from pdo k offset co length data chunks).chunks
        co, RtlAreBitsClear bits 0 (chunk_bits pdo.array_info) = false) :
    (add_partial_chunk_from pdo k offset co length data
        (add_partial_chunk_from pdo k offset co length data chunks).chunks).chunks
      = (add_partial_chunk_from pdo k offset co length data chunks).chunks := by
  have hnew : ∀ rest : List partial_chunk, (∀ pc ∈ rest.head?, co < pc.offset) →
      (add_new_chunk pdo k offset co length data rest).flushed = [] →
      (∀ bits ∈ pending_bitmap (add_new_chunk pdo k offset co length data rest).chunks co,
        RtlAreBitsClear bits 0 (chunk_bits pdo.array_info) = false) →
      (add_partial_chunk_from pdo k offset co length data
          (add_new_chunk pdo k offset co length data rest).chunks).chunks
        = (add_new_chunk pdo k offset co length data rest).chunks := by
    intro rest hrest _ hp
    unfold add_new_chunk at hp ⊢
    by_cases ha : k.pool_alloc = true
    · simp only [ha, if_true] at hp ⊢
      have := hp _ (pending_bitmap_cons_eq _ _ _ rfl)
      simp only [add_partial_chunk_from, copy_and_clear_offset, if_true, copy_and_clear_idem,
        this, Bool.false_eq_true, if_false]
    · simp only [ha, if_false, Bool.false_eq_true]
      cases rest with
      | nil => simp [add_partial_chunk_from, add_new_chunk, ha]
      | cons pc rest =>
        have h1 : co < pc.offset := hrest pc (by simp)
        have h2 : pc.offset ≠ co := by omega
        simp [add_partial_chunk_from, add_new_chunk, ha, h1, h2]
  induction chunks with
  | nil =>
    simp only [add_partial_chunk_from] at hq hp ⊢
    exact hnew [] (by simp) hq hp
  | cons pc rest ih =>
    by_cases h1 : pc.offset = co
    · simp only [add_partial_chunk_from, h1, if_true] at hq hp ⊢
      by_cases hc : RtlAreBitsClear (copy_and_clear pc offset co length data).bmp 0
          (chunk_bits pdo.array_info) = true
      · simp only [hc, if_true] at hq
        split at hq <;> simp at hq
      · simp only [hc, if_false, Bool.false_eq_true] at hq hp ⊢
        simp only [add_partial_chunk_from, copy_and_clear_offset, h1, if_true,
          copy_and_clear_idem, hc, Bool.false_eq_true, if_false]
    · by_cases h2 : pc.offset > co
      · simp only [add_partial_chunk_from, h1, h2, if_true, if_false] at hq hp ⊢
        exact hnew (pc :: rest) (by simpa using h2) hq hp
      · simp only [add_partial_chunk_from, h1, h2, if_false] at hq hp ⊢
        rw [pending_bitmap_cons_ne _ _ _ h1] at hp
        rw [ih hq hp]

/-- C5 (amended): for every cache state and every write, if the first
`add_partial_chunk` call triggers no reconciliation and does not leave the
chunk's entry with an entirely clear bitmap, a second call with the same
arguments leaves the whole cache, and so the pending bitmap for that chunk
offset (including whether an entry exists), as the first call left it. -/
theorem merge_idempotent_on_bitmap (pdo : set_pdo) (k : kernel) (chunks : List partial_chunk)
    (offset length : Nat) (data : Nat → Nat)
    (hq : (add_partial_chunk pdo k chunks offset length data).flushed = [])
    (hp : ∀ bits ∈ pending_bitmap (add_partial_chunk pdo k chunks offset length data).chunks
        (offset - offset % full_chunk pdo.array_info),
        RtlAreBitsClear bits 0 (chunk_bits pdo.array_info) = false) :
    pending_bitmap (add_partial_chunk pdo k
        (add_partial_chunk pdo k chunks offset length data).chunks offset length data).chunks
        (offset - offset % full_chunk pdo.array_info)
      = pending_bitmap (add_partial_chunk pdo k chunks offset length data).chunks
        (offset - offset % full_chunk pdo.array_info) ∧
    (add_partial_chunk pdo k
        (add_partial_chunk pdo k chunks offset length data).chunks offset length data).chunks
      = (add_partial_chunk pdo k chunks offset length data).chunks := by
  have h := add_partial_chunk_from_idem pdo k offset
    (offset - offset % full_chunk pdo.array_info) length data chunks hq hp
  unfold add_partial_chunk
  exact ⟨by rw [h], h⟩

theorem merge_idempotent_on_bitmap_witness :
    pending_bitmap (add_partial_chunk small_array kernel_ok
        (add_partial_chunk small_array kernel_ok one_sector_pending 512 1024
          (fun _ => 1)).chunks 512 1024 (fun _ => 1)).chunks
        (512 - 512 % full_chunk small_array.array_info)
      = pending_bitmap (add_partial_chunk small_array kernel_ok one_sector_pending 512 1024
          (fun _ => 1)).chunks (512 - 512 % full_chunk small_array.array_info) ∧
    (add_partial_chunk small_array kernel_ok
        (add_partial_chunk small_array kernel_ok one_sector_pending 512 1024
          (fun _ => 1)).chunks 512 1024 (fun _ => 1)).chunks
      = (add_partial_chunk small_array kernel_ok one_sector_pending 512 1024
          (fun _ => 1)).chunks :=
  merge_idempotent_on_bitmap small_array kernel_ok one_sector_pending 512 1024 (fun _ => 1)
    (List.eq_nil_of_length_eq_zero (by decide)) (by decide)

theorem flush_chunks_empties (pdo : set_pdo) (k : kernel) (chunks : List partial_chunk) :
    (flush_chunks pdo k chunks).chunks = [] := by
  induction chunks with
  | nil => rfl
  | cons pc rest ih => simpa [flush_chunks] using ih

/-- C6, the code at the failing input: in `small_array` the cache holds one
entry (chunk offset 0, sector 15 pending); its reconciliation needs one read,
which fails with `STATUS_IO_DEVICE_ERROR`; `flush_chunks` gets that status back
from `flush_partial_chunk` and still leaves the cache empty. -/
theorem flush_chunks_drops_failed_entry :
    cache_bitmaps one_sector_pending = [(0, List.replicate 15 false ++ [true])] ∧
      (flush_chunks small_array kernel_read_error one_sector_pending).flushed.map
          (fun e => (e.1.offset, e.2)) = [(0, STATUS_IO_DEVICE_ERROR)] ∧
      NT_SUCCESS STATUS_IO_DEVICE_ERROR = false ∧
      cache_bitmaps (flush_chunks small_array kernel_read_error one_sector_pending).chunks
        = [] := by
  decide

/-- C7 as stated fails: in `small_array`, the write of the last pending sector
is merged before the reconciliation it triggers; when the `valid` buffer then
cannot be allocated, `add_partial_chunk` returns
`STATUS_INSUFFICIENT_RESOURCES` and the entry's bitmap has changed from one
pending sector to none. -/
theorem insufficient_resources_after_merge :
    (add_partial_chunk small_array kernel_no_valid one_sector_pending 7680 512
        (fun _ => 1)).Status = STATUS_INSUFFICIENT_RESOURCES ∧
      cache_bitmaps one_sector_pending = [(0, List.replicate 15 false ++ [true])] ∧
      cache_bitmaps (add_partial_chunk small_array kernel_no_valid one_sector_pending 7680 512
        (fun _ => 1)).chunks = [(0, List.replicate 16 false)] := by
  decide

theorem add_partial_chunk_from_failed (pdo : set_pdo) (k : kernel) (offset co length : Nat)
    (data : Nat → Nat) (chunks : List partial_chunk)
    (hs : NT_SUCCESS (add_partial_chunk_from pdo k offset co length data chunks).Status = false) :
    ((add_partial_chunk_from pdo k offset co length data chunks).flushed = [] →
        (add_partial_chunk_from pdo k offset co length data chunks).chunks = chunks) ∧
      List.Forall₂
        (fun old new => new = old ∨
          (old.offset = co ∧ new = copy_and_clear old offset co length data ∧
            RtlAreBitsClear new.bmp 0 (chunk_bits pdo.array_info) = true ∧
            (add_partial_chunk_from pdo k offset co length data chunks).flushed = [new]))
        chunks (add_partial_chunk_from pdo k offset co length data chunks).chunks := by
  have hrefl : ∀ (l : List partial_chunk) (q : List partial_chunk),
      List.Forall₂ (fun old new => new = old ∨
        (old.offset = co ∧ new = copy_and_clear old offset co length data ∧
          RtlAreBitsClear new.bmp 0 (chunk_bits pdo.array_info) = true ∧ q = [new])) l l := by
    intro l q
    induction l with
    | nil => exact List.Forall₂.nil
    | cons x xs ih => exact List.Forall₂.cons (Or.inl rfl) ih
  have hnew : ∀ rest : List partial_chunk,
      NT_SUCCESS (add_new_chunk pdo k offset co length data rest).Status = false →
      (add_new_chunk pdo k offset co length data rest).chunks = rest ∧
        (add_new_chunk pdo k offset co length data rest).flushed = [] := by
    intro rest h
    unfold add_new_chunk at h ⊢
    by_cases ha : k.pool_alloc = true
    · simp [ha, NT_SUCCESS, STATUS_SUCCESS] at h
    · simp [ha]
  induction chunks with
  | nil =>
    simp only [add_partial_chunk_from] at hs ⊢
    obtain ⟨h1, h2⟩ := hnew [] hs
    rw [h1]
    exact ⟨fun _ => rfl, List.Forall₂.nil⟩
  | cons pc rest ih =>
    by_cases h1 : pc.offset = co
    · simp only [add_partial_chunk_from, h1, if_true] at hs ⊢
      by_cases hc : RtlAreBitsClear (copy_and_clear pc offset co length data).bmp 0
          (chunk_bits pdo.array_info) = true
      · simp only [hc, if_true] at hs ⊢
        by_cases hf : NT_SUCCESS (flush_partial_chunk pdo k
            (copy_and_clear pc offset co length data)) = true
        · simp only [hf, if_true] at hs
          simp [NT_SUCCESS, STATUS_SUCCESS] at hs
        · simp only [hf, if_false, Bool.false_eq_true]
          refine ⟨fun h => by simp at h, List.Forall₂.cons (Or.inr ⟨h1, rfl, hc, rfl⟩) (hrefl _ _)⟩
      · simp only [hc, if_false, Bool.false_eq_true] at hs
        simp [NT_SUCCESS, STATUS_SUCCESS] at hs
    · by_cases h2 : pc.offset > co
      · simp only [add_partial_chunk_from, h1, h2, if_true, if_false] at hs ⊢
        obtain ⟨e1, e2⟩ := hnew (pc :: rest) hs
        rw [e1]
        exact ⟨fun _ => rfl, hrefl _ _⟩
      · simp only [add_partial_chunk_from, h1, h2, if_false] at hs ⊢
        obtain ⟨i1, i2⟩ := ih hs
        refine ⟨fun h => by rw [i1 h], List.Forall₂.cons (Or.inl rfl) i2⟩

/-- C7 (amended): whenever `add_partial_chunk` returns
`STATUS_INSUFFICIENT_RESOURCES` (or any failure status), the cache keeps the
same number of entries in the same order; if no reconciliation was triggered
(the failed allocation is that of a new entry) the cache is exactly as before;
otherwise every entry is as before except the entry of the written chunk,
which holds the merged write: data copied in, its sectors cleared, bitmap
entirely clear. -/
theorem allocation_failure_frame (pdo : set_pdo) (k : kernel) (chunks : List partial_chunk)
    (offset length : Nat) (data : Nat → Nat)
    (hs : (add_partial_chunk pdo k chunks offset length data).Status
      = STATUS_INSUFFICIENT_RESOURCES) :
    ((add_partial_chunk pdo k chunks offset length data).flushed = [] →
        (add_partial_chunk pdo k chunks offset length data).chunks = chunks) ∧
      List.Forall₂
        (fun old new => new = old ∨
          (old.offset = offset - offset % full_chunk pdo.array_info ∧
            new = copy_and_clear old offset (offset - offset % full_chunk pdo.array_info)
              length data ∧
            RtlAreBitsClear new.bmp 0 (chunk_bits pdo.array_info) = true ∧
            (add_partial_chunk pdo k chunks offset length data).flushed = [new]))
        chunks (add_partial_chunk pdo k chunks offset length data).chunks := by
  unfold add_partial_chunk at hs ⊢
  exact add_partial_chunk_from_failed pdo k offset _ length data chunks (by rw [hs]; rfl)

theorem allocation_failure_frame_witness :
    ((add_partial_chunk small_array kernel_no_valid one_sector_pending 7680 512
          (fun _ => 1)).flushed = [] →
        (add_partial_chunk small_array kernel_no_valid one_sector_pending 7680 512
          (fun _ => 1)).chunks = one_sector_pending) ∧
      List.Forall₂
        (fun old new => new = old ∨
          (old.offset = 7680 - 7680 % full_chunk small_array.array_info ∧
            new = copy_and_clear old 7680 (7680 - 7680 % full_chunk small_array.array_info)
              512 (fun _ => 1) ∧
            RtlAreBitsClear new.bmp 0 (chunk_bits small_array.array_info) = true ∧
            (add_partial_chunk small_array kernel_no_valid one_sector_pending 7680 512
              (fun _ => 1)).flushed = [new]))
        one_sector_pending
        (add_partial_chunk small_array kernel_no_valid one_sector_pending 7680 512
          (fun _ => 1)).chunks :=
  allocation_failure_frame small_array kernel_no_valid one_sector_pending 7680 512 (fun _ => 1)
    (by decide)

theorem add_new_chunk_chunks (pdo : set_pdo) (k : kernel) (offset co length : Nat)
    (data : Nat → Nat) (rest : List partial_chunk) :
    (add_new_chunk pdo k offset co length data rest).chunks
      = (add_new_chunk pdo k offset co length data []).chunks ++ rest := by
  unfold add_new_chunk
  split <;> simp

theorem add_new_chunk_offset (pdo : set_pdo) (k : kernel) (offset co length : Nat)
    (data : Nat → Nat) :
    ∀ pc ∈ (add_new_chunk pdo k offset co length data []).chunks, pc.offset = co := by
  unfold add_new_chunk
  split <;> simp [copy_and_clear]

/-- The scan passes a prefix of entries below the chunk offset. -/
theorem add_partial_chunk_from_skip (pdo : set_pdo) (k : kernel) (offset co length : Nat)
    (data : Nat → Nat) (pre rest : List partial_chunk) (hpre : ∀ pc ∈ pre, pc.offset < co) :
    (add_partial_chunk_from pdo k offset co length data (pre ++ rest)).chunks
      = pre ++ (add_partial_chunk_from pdo k offset co length data rest).chunks := by
  induction pre with
  | nil => rfl
  | cons pc pre ih =>
    have h1 : pc.offset < co := hpre pc (by simp)
    have h2 : ¬ pc.offset = co := by omega
    have h3 : ¬ pc.offset > co := by omega
    show (add_partial_chunk_from pdo k offset co length data (pc :: (pre ++ rest))).chunks
      = pc :: (pre ++ (add_partial_chunk_from pdo k offset co length data rest).chunks)
    simp only [add_partial_chunk_from, h2, h3, if_false]
    rw [ih (fun x hx => hpre x (by simp [hx]))]

/-- The scan stops in front of an entry above the chunk offset. -/
theorem add_partial_chunk_from_above (pdo : set_pdo) (k : kernel) (offset co length : Nat)
    (data : Nat → Nat) (rest : List partial_chunk) (hrest : ∀ pc ∈ rest.head?, co < pc.offset) :
    (add_partial_chunk_from pdo k offset co length data rest).chunks
      = (add_new_chunk pdo k offset co length data []).chunks ++ rest := by
  cases rest with
  | nil => simp [add_partial_chunk_from]
  | cons pc rest =>
    have h1 : co < pc.offset := hrest pc (by simp)
    have h2 : ¬ pc.offset = co := by omega
    simp only [add_partial_chunk_from, h2, h1, gt_iff_lt, if_true, if_false]
    exact add_new_chunk_chunks _ _ _ _ _ _ _

theorem add_partial_chunk_from_commute (pdo : set_pdo) (k1 k2 : kernel)
    (o1 c1 l1 : Nat) (d1 : Nat → Nat) (o2 c2 l2 : Nat) (d2 : Nat → Nat)
    (chunks : List partial_chunk) (hlt : c1 < c2)
    (hsorted : chunks.Pairwise (fun x y => x.offset < y.offset)) :
    (add_partial_chunk_from pdo k2 o2 c2 l2 d2
        (add_partial_chunk_from pdo k1 o1 c1 l1 d1 chunks).chunks).chunks
      = (add_partial_chunk_from pdo k1 o1 c1 l1 d1
        (add_partial_chunk_from pdo k2 o2 c2 l2 d2 chunks).chunks).chunks := by
  have hnew1 : ∀ pc ∈ (add_new_chunk pdo k1 o1 c1 l1 d1 []).chunks, pc.offset < c2 := by
    intro pc hpc
    rw [add_new_chunk_offset _ _ _ _ _ _ pc hpc]
    exact hlt
  have hnew2 : ∀ pc ∈ (add_new_chunk pdo k2 o2 c2 l2 d2 []).chunks, c1 < pc.offset := by
    intro pc hpc
    rw [add_new_chunk_offset _ _ _ _ _ _ pc hpc]
    exact hlt
  -- inserting the lower chunk in front of a list whose head is above it, either order
  have habove : ∀ rest : List partial_chunk, (∀ pc ∈ rest.head?, c1 < pc.offset) →
      (add_partial_chunk_from pdo k2 o2 c2 l2 d2
          (add_partial_chunk_from pdo k1 o1 c1 l1 d1 rest).chunks).chunks
        = (add_new_chunk pdo k1 o1 c1 l1 d1 []).chunks
          ++ (add_partial_chunk_from pdo k2 o2 c2 l2 d2 rest).chunks := by
    intro rest hrest
    rw [add_partial_chunk_from_above _ _ _ _ _ _ rest hrest]
    exact add_partial_chunk_from_skip _ _ _ _ _ _ _ _ hnew1
  induction chunks with
  | nil =>
    rw [habove [] (by simp)]
    have : (add_partial_chunk_from pdo k2 o2 c2 l2 d2 []).chunks
        = (add_new_chunk pdo k2 o2 c2 l2 d2 []).chunks := by simp [add_partial_chunk_from]
    rw [this, add_partial_chunk_from_above]
    intro pc hpc
    cases h : (add_new_chunk pdo k2 o2 c2 l2 d2 []).chunks with
    | nil => rw [h] at hpc; simp at hpc
    | cons x xs =>
      rw [h] at hpc
      simp at hpc
      subst hpc
      exact hnew2 _ (by rw [h]; simp)
  | cons pc rest ih =>
    have hrest := (List.pairwise_cons.mp hsorted).2
    have hhead := (List.pairwise_cons.mp hsorted).1
    by_cases hA : pc.offset < c1
    · -- both scans pass `pc`
      have e1 : ¬ pc.offset = c1 := by omega
      have e2 : ¬ pc.offset > c1 := by omega
      have e3 : ¬ pc.offset = c2 := by omega
      have e4 : ¬ pc.offset > c2 := by omega
      simp only [add_partial_chunk_from, e1, e2, e3, e4, if_false]
      rw [ih hrest]
    · by_cases hB : pc.offset = c1
      · -- the lower chunk merges into `pc`; the upper scan passes it either way
        have e3 : ¬ pc.offset = c2 := by omega
        have e4 : ¬ pc.offset > c2 := by omega
        have e5 : ¬ (copy_and_clear pc o1 c1 l1 d1).offset = c2 := by
          rw [copy_and_clear_offset]; exact e3
        have e6 : ¬ (copy_and_clear pc o1 c1 l1 d1).offset > c2 := by
          rw [copy_and_clear_offset]; exact e4
        subst hB
        simp only [add_partial_chunk_from, e3, e4, if_true, if_false]
        split
        · split
          · simp only [add_partial_chunk_from]
          · simp only [add_partial_chunk_from, e5, e6, if_false]
        · simp only [add_partial_chunk_from, e5, e6, if_false]
      · -- `pc` is above the lower chunk: the lower scan stops in front of it
        have hc1 : c1 < pc.offset := by omega
        rw [habove (pc :: rest) (by simpa using hc1)]
        by_cases hC : pc.offset < c2
        · have e3 : ¬ pc.offset = c2 := by omega
          have e4 : ¬ pc.offset > c2 := by omega
          have e : (add_partial_chunk_from pdo k2 o2 c2 l2 d2 (pc :: rest)).chunks
              = pc :: (add_partial_chunk_from pdo k2 o2 c2 l2 d2 rest).chunks := by
            simp only [add_partial_chunk_from, e3, e4, if_false]
          rw [e, add_partial_chunk_from_above _ _ _ _ _ _ (pc :: _) (by simpa using hc1)]
        · by_cases hD : pc.offset = c2
          · have hr : ∀ x ∈ rest.head?, c1 < x.offset := by
              intro x hx
              have : x ∈ rest := by
                cases rest with
                | nil => simp at hx
                | cons y ys => simp at hx; subst hx; simp
              have := hhead x this
              omega
            subst hD
            simp only [add_partial_chunk_from, if_true]
            split
            · split
              · exact (add_partial_chunk_from_above _ _ _ _ _ _ _ hr).symm
              · rw [add_partial_chunk_from_above]
                intro x hx
                simp at hx
                subst hx
                rw [copy_and_clear_offset]; omega
            · rw [add_partial_chunk_from_above]
              intro x hx
              simp at hx
              subst hx
              rw [copy_and_clear_offset]; omega
          · have hc2 : c2 < pc.offset := by omega
            rw [add_partial_chunk_from_above _ _ _ _ _ _ (pc :: rest) (by simpa using hc2)]
            rw [add_partial_chunk_from_above]
            intro x hx
            cases h : (add_new_chunk pdo k2 o2 c2 l2 d2 []).chunks with
            | nil => rw [h] at hx; simp at hx; subst hx; exact hc1
            | cons y ys =>
              rw [h] at hx
              simp at hx
              subst hx
              exact hnew2 _ (by rw [h]; simp)

/-- C9: for every ascending cache and every two writes whose offsets fall in
different chunks, `add_partial_chunk` applied to them in either order (each
write served by the same environment in both orders) yields the same final
cache: the same list of entries with the same bitmaps and buffers. -/
theorem merges_on_distinct_chunks_commute (pdo : set_pdo) (k1 k2 : kernel)
    (chunks : List partial_chunk) (o1 l1 : Nat) (d1 : Nat → Nat) (o2 l2 : Nat) (d2 : Nat → Nat)
    (hsorted : chunks.Pairwise (fun x y => x.offset < y.offset))
    (hne : o1 - o1 % full_chunk pdo.array_info ≠ o2 - o2 % full_chunk pdo.array_info) :
    (add_partial_chunk pdo k2 (add_partial_chunk pdo k1 chunks o1 l1 d1).chunks o2 l2 d2).chunks
      = (add_partial_chunk pdo k1 (add_partial_chunk pdo k2 chunks o2 l2 d2).chunks
          o1 l1 d1).chunks := by
  unfold add_partial_chunk
  rcases Nat.lt_or_gt_of_ne hne with h | h
  · exact add_partial_chunk_from_commute pdo k1 k2 _ _ _ _ _ _ _ _ chunks h hsorted
  · exact (add_partial_chunk_from_commute pdo k2 k1 _ _ _ _ _ _ _ _ chunks h hsorted).symm

theorem merges_on_distinct_chunks_commute_witness :
    (add_partial_chunk small_array kernel_ok
        (add_partial_chunk small_array kernel_no_valid one_sector_pending 7680 512
          (fun _ => 1)).chunks 8192 1024 (fun _ => 2)).chunks
      = (add_partial_chunk small_array kernel_no_valid
          (add_partial_chunk small_array kernel_ok one_sector_pending 8192 1024
            (fun _ => 2)).chunks 7680 512 (fun _ => 1)).chunks :=
  merges_on_distinct_chunks_commute small_array kernel_no_valid kernel_ok one_sector_pending
    7680 512 (fun _ => 1) 8192 1024 (fun _ => 2) (by decide) (by decide)

/-- C4 as stated fails for the partition made of one write: in `small_array`,
with an empty cache, a single write of the whole chunk group (8192 bytes at
offset 0) runs no reconciliation and leaves an entry, its bitmap entirely
clear, in the cache. -/
theorem single_full_write_not_finalized :
    (add_partial_chunks small_array kernel_ok [⟨0, 8192, fun _ => 1⟩] []).2.length = 0 ∧
      cache_bitmaps (add_partial_chunks small_array kernel_ok [⟨0, 8192, fun _ => 1⟩] []).1
        = [(0, List.replicate 16 false)] ∧
      full_chunk small_array.array_info = 8192 := by
  decide

theorem add_partial_chunk_from_append (pdo : set_pdo) (k : kernel) (offset co length : Nat)
    (data : Nat → Nat) (pre rest : List partial_chunk) (hpre : ∀ pc ∈ pre, pc.offset < co) :
    add_partial_chunk_from pdo k offset co length data (pre ++ rest)
      = { Status := (add_partial_chunk_from pdo k offset co length data rest).Status
          chunks := pre ++ (add_partial_chunk_from pdo k offset co length data rest).chunks
          flushed := (add_partial_chunk_from pdo k offset co length data rest).flushed } := by
  induction pre with
  | nil => rfl
  | cons pc pre ih =>
    have h1 : pc.offset < co := hpre pc (by simp)
    have h2 : ¬ pc.offset = co := by omega
    have h3 : ¬ pc.offset > co := by omega
    show add_partial_chunk_from pdo k offset co length data (pc :: (pre ++ rest)) = _
    simp only [add_partial_chunk_from, h2, h3, if_false]
    rw [ih (fun x hx => hpre x (by simp [hx]))]
    rfl

theorem exists_scan_split (co : Nat) (chunks : List partial_chunk)
    (h : ∀ pc ∈ chunks, pc.offset ≠ co) :
    ∃ pre post, chunks = pre ++ post ∧ (∀ pc ∈ pre, pc.offset < co) ∧
      (∀ pc ∈ post.head?, co < pc.offset) := by
  induction chunks with
  | nil => exact ⟨[], [], rfl, by simp, by simp⟩
  | cons pc rest ih =>
    by_cases hlt : pc.offset < co
    · obtain ⟨pre, post, e, h1, h2⟩ := ih (fun x hx => h x (by simp [hx]))
      refine ⟨pc :: pre, post, by rw [e]; rfl, ?_, h2⟩
      intro x hx
      rcases List.mem_cons.mp hx with hx | hx
      · rw [hx]; exact hlt
      · exact h1 x hx
    · refine ⟨[], pc :: rest, rfl, by simp, ?_⟩
      intro x hx
      simp at hx
      subst hx
      have := h pc (by simp)
      omega

theorem all_take_clear (l : List Bool) (n : Nat) :
    ((l.take n).all (fun b => !b)) = true ↔
      ∀ t, t < n → t < l.length → l.getD t false = false := by
  induction l generalizing n with
  | nil => simp
  | cons b bs ih =>
    cases n with
    | zero => simp
    | succ n =>
      simp only [List.take_succ_cons, List.all_cons, Bool.and_eq_true, ih, List.length_cons]
      constructor
      · rintro ⟨hb, hr⟩ t ht1 ht2
        cases t with
        | zero => simpa using hb
        | succ t => simpa using hr t (by omega) (by omega)
      · intro hall
        refine ⟨by simpa using hall 0 (by omega) (by omega), fun t ht1 ht2 => ?_⟩
        simpa using hall (t + 1) (by omega) (by omega)

theorem RtlAreBitsClear_iff (bits : List Bool) (n : Nat) (hlen : bits.length = n) (hn : 0 < n) :
    RtlAreBitsClear bits 0 n = true ↔ ∀ t, t < n → bits.getD t false = false := by
  simp only [RtlAreBitsClear, List.drop_zero, Bool.and_eq_true, decide_eq_true_eq,
    all_take_clear, hlen]
  constructor
  · rintro ⟨_, h⟩ t ht
    exact h t ht ht
  · intro h
    exact ⟨⟨by omega, hn⟩, fun t ht _ => h t ht⟩

theorem new_chunk_bits (buf : List Nat) (n t : Nat) (ht : t < n) :
    (RtlSetBits (RtlInitializeBitMap buf n) 0 n).getD t false = true ∧
      (RtlSetBits (RtlInitializeBitMap buf n) 0 n).length = n := by
  have hl : (RtlInitializeBitMap buf n).length = n := by simp [RtlInitializeBitMap]
  refine ⟨?_, by rw [RtlSetBits, fill_bits_length, hl]⟩
  rw [RtlSetBits, fill_bits_getD, hl]
  simp [ht]

theorem chunk_sizes (a : mdraid_array_info)
    (hfit : a.chunksize * 512 * data_disks a < 4294967296) :
    full_chunk a = 512 * chunk_bits a ∧ chunk_bits a = a.chunksize * data_disks a ∧
      512 * chunk_bits a < 4294967296 := by
  have e : a.chunksize * 512 * data_disks a = 512 * (a.chunksize * data_disks a) := by ring
  have hb : chunk_bits a = a.chunksize * data_disks a := by
    simp only [chunk_bits, u32]
    exact Nat.mod_eq_of_lt (by omega)
  refine ⟨?_, hb, by omega⟩
  rw [hb]
  by_cases hd : data_disks a = 0
  · simp [full_chunk, u32, hd]
  · have h1 : a.chunksize * 512 ≤ a.chunksize * 512 * data_disks a :=
      Nat.le_mul_of_pos_right _ (by omega)
    simp only [full_chunk, u32]
    rw [Nat.mod_eq_of_lt (by omega : a.chunksize * 512 < 4294967296), Nat.mod_eq_of_lt hfit, e]

theorem chunk_offset_eq (co fc x : Nat) (hco : co % fc = 0) (h1 : co ≤ x) (h2 : x < co + fc) :
    x - x % fc = co := by
  obtain ⟨q, rfl⟩ := Nat.dvd_of_mod_eq_zero hco
  have hx : x = fc * q + (x - fc * q) := by omega
  have : x % fc = x - fc * q := by
    rw [hx, Nat.mul_add_mod, Nat.mod_eq_of_lt (by omega)]
    omega
  omega

theorem copy_and_clear_bits (pc : partial_chunk) (co n t : Nat) (w : chunk_write)
    (hlen : pc.bmp.length = n) (ht : t < n) (hw : (w.offset - co) / 512 < 4294967296) :
    ((copy_and_clear pc w.offset co w.length w.data).bmp.getD t false = false ↔
        (pc.bmp.getD t false = false ∨ in_sectors co w t)) ∧
      (copy_and_clear pc w.offset co w.length w.data).bmp.length = n := by
  have e : u32 ((w.offset - co) / 512) = (w.offset - co) / 512 := Nat.mod_eq_of_lt hw
  refine ⟨?_, by simp [copy_and_clear, RtlClearBits, fill_bits_length, hlen]⟩
  simp only [copy_and_clear, RtlClearBits, fill_bits_getD, e, hlen, in_sectors]
  split
  · rename_i h
    simp only [true_iff]
    exact Or.inr ⟨h.1, h.2.1⟩
  · rename_i h
    constructor
    · exact fun h1 => Or.inl h1
    · rintro (h1 | h1)
      · exact h1
      · exact absurd ⟨h1.1, h1.2, ht⟩ h

/-- The writes of a partition, after the first: each merges into the entry;
only the last one leaves the bitmap clear and is finalised. -/
theorem add_partial_chunks_merge (pdo : set_pdo) (k : kernel) (co : Nat)
    (pre post : List partial_chunk) (hpre : ∀ pc ∈ pre, pc.offset < co)
    (hfit : pdo.array_info.chunksize * 512 * data_disks pdo.array_info < 4294967296)
    (hpos : 0 < chunk_bits pdo.array_info)
    (hco : co % full_chunk pdo.array_info = 0) (todo : List chunk_write) :
    ∀ (e : partial_chunk) (cleared : Nat → Prop), e.offset = co →
      e.bmp.length = chunk_bits pdo.array_info →
      (∀ t, t < chunk_bits pdo.array_info → (e.bmp.getD t false = false ↔ cleared t)) →
      todo ≠ [] →
      (∀ w ∈ todo, co ≤ w.offset ∧ w.offset + w.length ≤ co + full_chunk pdo.array_info ∧
        w.offset % 512 = 0 ∧ w.length % 512 = 0 ∧ 0 < w.length) →
      (∀ w ∈ todo, ∀ t, in_sectors co w t → ¬ cleared t) →
      todo.Pairwise (fun w1 w2 => w1.offset + w1.length ≤ w2.offset ∨
        w2.offset + w2.length ≤ w1.offset) →
      (∀ t, t < chunk_bits pdo.array_info → cleared t ∨ ∃ w ∈ todo, in_sectors co w t) →
      (∀ pc ∈ (add_partial_chunks pdo k todo (pre ++ e :: post)).2,
        NT_SUCCESS (flush_partial_chunk pdo k pc) = true) →
      (add_partial_chunks pdo k todo (pre ++ e :: post)).1 = pre ++ post ∧
        (add_partial_chunks pdo k todo (pre ++ e :: post)).2.length = 1 := by
  obtain ⟨hfc, hcb, hfc32⟩ := chunk_sizes pdo.array_info hfit
  have hco512 : co % 512 = 0 := by
    have h1 : (512 : Nat) ∣ full_chunk pdo.array_info := ⟨_, hfc⟩
    exact Nat.mod_eq_zero_of_dvd (Nat.dvd_trans h1 (Nat.dvd_of_mod_eq_zero hco))
  induction todo with
  | nil => intro e cleared _ _ _ h; exact absurd rfl h
  | cons w rest ih =>
    intro e cleared heo hlen hbits _ hin hfresh hdisj hcover hflush
    obtain ⟨hw1, hw2, hw3, hw4, hw5⟩ := hin w (by simp)
    have hchunk : w.offset - w.offset % full_chunk pdo.array_info = co :=
      chunk_offset_eq co _ _ hco hw1 (by omega)
    have hsec : (w.offset - co) / 512 < 4294967296 := by omega
    have hstep : add_partial_chunk pdo k (pre ++ e :: post) w.offset w.length w.data
        = { Status := (add_partial_chunk_from pdo k w.offset co w.length w.data
              (e :: post)).Status
            chunks := pre ++ (add_partial_chunk_from pdo k w.offset co w.length w.data
              (e :: post)).chunks
            flushed := (add_partial_chunk_from pdo k w.offset co w.length w.data
              (e :: post)).flushed } := by
      unfold add_partial_chunk
      rw [hchunk]
      exact add_partial_chunk_from_append pdo k _ _ _ _ pre (e :: post) hpre
    have hb1 := fun t ht => (copy_and_clear_bits e co _ t w hlen ht hsec).1
    have hl1 : (copy_and_clear e w.offset co w.length w.data).bmp.length
        = chunk_bits pdo.array_info :=
      (copy_and_clear_bits e co _ 0 w hlen hpos hsec).2
    cases rest with
    | nil =>
      have hclear : RtlAreBitsClear (copy_and_clear e w.offset co w.length w.data).bmp 0
          (chunk_bits pdo.array_info) = true := by
        rw [RtlAreBitsClear_iff _ _ hl1 hpos]
        intro t ht
        rw [hb1 t ht]
        rcases hcover t ht with h | ⟨w1, hw1, h⟩
        · exact Or.inl ((hbits t ht).mpr h)
        · simp at hw1
          subst hw1
          exact Or.inr h
      simp only [add_partial_chunks, hstep, add_partial_chunk_from, heo, if_true, hclear,
        List.append_nil] at hflush ⊢
      by_cases hs : NT_SUCCESS (flush_partial_chunk pdo k
          (copy_and_clear e w.offset co w.length w.data)) = true
      · simp [hs]
      · simp only [hs, if_false, Bool.false_eq_true] at hflush
        exact absurd (hflush _ (by simp)) hs
    | cons w2 rest2 =>
      obtain ⟨hv1, hv2, hv3, hv4, hv5⟩ := hin w2 (by simp)
      have hd12 : w.offset + w.length ≤ w2.offset ∨ w2.offset + w2.length ≤ w.offset :=
        (List.pairwise_cons.mp hdisj).1 w2 (by simp)
      have hin2 : in_sectors co w2 ((w2.offset - co) / 512) := by
        unfold in_sectors; omega
      have ht0 : (w2.offset - co) / 512 < chunk_bits pdo.array_info := by omega
      have hnot : ¬ RtlAreBitsClear (copy_and_clear e w.offset co w.length w.data).bmp 0
          (chunk_bits pdo.array_info) = true := by
        rw [RtlAreBitsClear_iff _ _ hl1 hpos]
        intro hall
        rcases (hb1 _ ht0).mp (hall _ ht0) with h | h
        · exact hfresh w2 (by simp) _ hin2 ((hbits _ ht0).mp h)
        · unfold in_sectors at h; omega
      have hchunks : (add_partial_chunk pdo k (pre ++ e :: post) w.offset w.length w.data).chunks
          = pre ++ copy_and_clear e w.offset co w.length w.data :: post := by
        rw [hstep]; simp only [add_partial_chunk_from, heo, if_true, hnot, if_false, Bool.false_eq_true]
      have hflushed : (add_partial_chunk pdo k (pre ++ e :: post) w.offset w.length
          w.data).flushed = [] := by
        rw [hstep]; simp only [add_partial_chunk_from, heo, if_true, hnot, if_false, Bool.false_eq_true]
      have hunfold : add_partial_chunks pdo k (w :: w2 :: rest2) (pre ++ e :: post)
          = add_partial_chunks pdo k (w2 :: rest2)
              (pre ++ copy_and_clear e w.offset co w.length w.data :: post) := by
        rw [add_partial_chunks, hchunks, hflushed]; rfl
      rw [hunfold] at hflush ⊢
      refine ih (copy_and_clear e w.offset co w.length w.data)
        (fun t => cleared t ∨ in_sectors co w t) heo hl1 ?_ (by simp) ?_ ?_ ?_ ?_ hflush
      · intro t ht
        rw [hb1 t ht, hbits t ht]
      · exact fun x hx => hin x (by simp [hx])
      · intro x hx t hxt hc
        rcases hc with hc | hc
        · exact hfresh x (by simp [hx]) t hxt hc
        · obtain ⟨hx1, hx2, hx3, hx4, hx5⟩ := hin x (by simp [hx])
          have := (List.pairwise_cons.mp hdisj).1 x hx
          unfold in_sectors at hxt hc
          omega
      · exact (List.pairwise_cons.mp hdisj).2
      · intro t ht
        rcases hcover t ht with h | ⟨x, hx, h⟩
        · exact Or.inl (Or.inl h)
        · rcases List.mem_cons.mp hx with hx | hx
          · subst hx; exact Or.inl (Or.inr h)
          · exact Or.inr ⟨x, hx, h⟩

/-- C4 (amended): with no cache entry for an aligned chunk offset, any two or
more sector-aligned, non-empty, pairwise non-overlapping writes that together
cover the whole chunk group, issued in any order, make exactly one
`add_partial_chunk` call run `flush_partial_chunk`, and, that reconciliation
succeeding, the cache ends exactly as it started: no entry for that chunk
offset.  (A single write of the whole chunk group is not finalised.) -/
theorem full_coverage_finalizes (pdo : set_pdo) (k : kernel) (chunks : List partial_chunk)
    (co : Nat) (ws : List chunk_write)
    (hfit : pdo.array_info.chunksize * 512 * data_disks pdo.array_info < 4294967296)
    (hpos : 0 < chunk_bits pdo.array_info)
    (hco : co % full_chunk pdo.array_info = 0)
    (hnone : ∀ pc ∈ chunks, pc.offset ≠ co)
    (hlen : 2 ≤ ws.length)
    (hin : ∀ w ∈ ws, co ≤ w.offset ∧ w.offset + w.length ≤ co + full_chunk pdo.array_info ∧
      w.offset % 512 = 0 ∧ w.length % 512 = 0 ∧ 0 < w.length)
    (hdisj : ws.Pairwise (fun w1 w2 => w1.offset + w1.length ≤ w2.offset ∨
      w2.offset + w2.length ≤ w1.offset))
    (hcover : ∀ b, co ≤ b → b < co + full_chunk pdo.array_info →
      ∃ w ∈ ws, w.offset ≤ b ∧ b < w.offset + w.length)
    (halloc : k.pool_alloc = true)
    (hflush : ∀ pc ∈ (add_partial_chunks pdo k ws chunks).2,
      NT_SUCCESS (flush_partial_chunk pdo k pc) = true) :
    (add_partial_chunks pdo k ws chunks).2.length = 1 ∧
      (add_partial_chunks pdo k ws chunks).1 = chunks ∧
      ∀ pc ∈ (add_partial_chunks pdo k ws chunks).1, pc.offset ≠ co := by
  obtain ⟨hfc, hcb, hfc32⟩ := chunk_sizes pdo.array_info hfit
  have hco512 : co % 512 = 0 := by
    have h1 : (512 : Nat) ∣ full_chunk pdo.array_info := ⟨_, hfc⟩
    exact Nat.mod_eq_zero_of_dvd (Nat.dvd_trans h1 (Nat.dvd_of_mod_eq_zero hco))
  obtain ⟨pre, post, hsplit, hpre, hpost⟩ := exists_scan_split co chunks hnone
  cases ws with
  | nil => simp at hlen
  | cons w rest =>
    have hrest : rest ≠ [] := by
      intro h; rw [h] at hlen; simp at hlen
    obtain ⟨hw1, hw2, hw3, hw4, hw5⟩ := hin w (by simp)
    have hchunk : w.offset - w.offset % full_chunk pdo.array_info = co :=
      chunk_offset_eq co _ _ hco hw1 (by omega)
    have hsec : (w.offset - co) / 512 < 4294967296 := by omega
    -- the first write opens the entry
    let pc0 : partial_chunk :=
      { offset := co, data := k.pool_data,
        bmp := RtlSetBits (RtlInitializeBitMap
          ((List.range ((chunk_bits pdo.array_info + 7) / 8)).map
            (fun b => k.pool_data (full_chunk pdo.array_info + b)))
          (chunk_bits pdo.array_info)) 0 (chunk_bits pdo.array_info) }
    have hstep : add_partial_chunk pdo k chunks w.offset w.length w.data
        = { Status := STATUS_SUCCESS
            chunks := pre ++ copy_and_clear pc0 w.offset co w.length w.data :: post
            flushed := [] } := by
      unfold add_partial_chunk
      rw [hchunk, hsplit, add_partial_chunk_from_append pdo k _ _ _ _ pre post hpre]
      cases post with
      | nil => simp [add_partial_chunk_from, add_new_chunk, halloc, pc0]
      | cons x xs =>
        have h1 : co < x.offset := hpost x (by simp)
        have h2 : ¬ x.offset = co := by omega
        simp [add_partial_chunk_from, add_new_chunk, halloc, pc0, h1, h2]
    have hunfold : add_partial_chunks pdo k (w :: rest) chunks
        = add_partial_chunks pdo k rest
            (pre ++ copy_and_clear pc0 w.offset co w.length w.data :: post) := by
      rw [add_partial_chunks, hstep]; rfl
    rw [hunfold] at hflush ⊢
    have hl0 : pc0.bmp.length = chunk_bits pdo.array_info := (new_chunk_bits _ _ 0 hpos).2
    have hmain := add_partial_chunks_merge pdo k co pre post hpre hfit hpos hco rest
      (copy_and_clear pc0 w.offset co w.length w.data) (in_sectors co w) rfl
      (copy_and_clear_bits pc0 co _ 0 w hl0 hpos hsec).2 ?_ hrest
      (fun x hx => hin x (by simp [hx])) ?_ (List.pairwise_cons.mp hdisj).2 ?_ hflush
    · refine ⟨hmain.2, by rw [hmain.1, hsplit], ?_⟩
      rw [hmain.1, ← hsplit]
      exact hnone
    · intro t ht
      rw [(copy_and_clear_bits pc0 co _ t w hl0 ht hsec).1]
      have := (new_chunk_bits ((List.range ((chunk_bits pdo.array_info + 7) / 8)).map
            (fun b => k.pool_data (full_chunk pdo.array_info + b))) _ t ht).1
      constructor
      · rintro (h | h)
        · rw [this] at h; exact absurd h (by simp)
        · exact h
      · exact fun h => Or.inr h
    · intro x hx t hxt hc
      obtain ⟨hx1, hx2, hx3, hx4, hx5⟩ := hin x (by simp [hx])
      have := (List.pairwise_cons.mp hdisj).1 x hx
      unfold in_sectors at hxt hc
      omega
    · intro t ht
      obtain ⟨x, hx, hx1, hx2⟩ := hcover (co + 512 * t) (by omega) (by omega)
      obtain ⟨hy1, hy2, hy3, hy4, hy5⟩ := hin x hx
      have hxt : in_sectors co x t := by
        unfold in_sectors; omega
      rcases List.mem_cons.mp hx with h | h
      · subst h; exact Or.inl hxt
      · exact Or.inr ⟨x, h, hxt⟩

theorem full_coverage_finalizes_witness :
    (add_partial_chunks small_array kernel_ok
        [⟨5120, 3072, fun _ => 3⟩, ⟨0, 1024, fun _ => 1⟩, ⟨1024, 4096, fun _ => 2⟩] []).2.length
        = 1 ∧
      (add_partial_chunks small_array kernel_ok
        [⟨5120, 3072, fun _ => 3⟩, ⟨0, 1024, fun _ => 1⟩, ⟨1024, 4096, fun _ => 2⟩] []).1 = [] ∧
      ∀ pc ∈ (add_partial_chunks small_array kernel_ok
        [⟨5120, 3072, fun _ => 3⟩, ⟨0, 1024, fun _ => 1⟩, ⟨1024, 4096, fun _ => 2⟩] []).1,
        pc.offset ≠ 0 :=
  full_coverage_finalizes small_array kernel_ok [] 0
    [⟨5120, 3072, fun _ => 3⟩, ⟨0, 1024, fun _ => 1⟩, ⟨1024, 4096, fun _ => 2⟩]
    (by decide) (by decide) (by decide) (by decide) (by decide) (by decide) (by decide)
    (by
      intro b _ hb
      have hb : b < 8192 := hb
      by_cases h1 : b < 1024
      · exact ⟨⟨0, 1024, fun _ => 1⟩, by simp, by simp, by simpa using h1⟩
      · by_cases h2 : b < 5120
        · exact ⟨⟨1024, 4096, fun _ => 2⟩, by simp, by simp; omega, by simp; omega⟩
        · exact ⟨⟨5120, 3072, fun _ => 3⟩, by simp, by simp; omega, by simp; omega⟩)
    (by decide) (by decide)

/-! ## The merge primitives and the `valid` bitmap -/

theorem byte_of_load_le (buf : List Nat) (n : Nat) :
    ∀ (pos i : Nat), i < n → byte_of (load_le buf pos n) i = buf.getD (pos + i) 0 % 256 := by
  induction n with
  | zero => intro pos i hi; omega
  | succ n ih =>
    intro pos i hi
    cases i with
    | zero =>
      simp only [load_le, byte_of, Nat.pow_zero, Nat.div_one, Nat.add_zero]
      omega
    | succ i =>
      have := ih (pos + 1) i (by omega)
      simp only [byte_of] at this ⊢
      rw [load_le, Nat.pow_succ, Nat.mul_comm (256 ^ i) 256, ← Nat.div_div_eq_div_mul,
        show (buf.getD pos 0 % 256 + 256 * load_le buf (pos + 1) n) / 256
          = load_le buf (pos + 1) n by omega, this]
      congr 2
      omega

theorem byte_of_eq (w i : Nat) : byte_of w i = (w >>> (8 * i)) % 2 ^ 8 := by
  rw [byte_of, Nat.shiftRight_eq_div_pow, Nat.pow_mul]
  rfl

/-- The bitwise AND of two words is the AND of their bytes, lane by lane. -/
theorem lanewise_and : lanewise (fun x y => x &&& y) := by
  intro x y i
  simp only [byte_of_eq]
  apply Nat.eq_of_testBit_eq
  intro j
  simp only [Nat.testBit_mod_two_pow, Nat.testBit_shiftRight, Nat.testBit_and]
  cases decide (j < 8) <;> simp

/-- The bitwise XOR of two words is the XOR of their bytes, lane by lane. -/
theorem lanewise_xor : lanewise (fun x y => x ^^^ y) := by
  intro x y i
  simp only [byte_of_eq]
  apply Nat.eq_of_testBit_eq
  intro j
  simp only [Nat.testBit_mod_two_pow, Nat.testBit_shiftRight, Nat.testBit_xor]
  cases decide (j < 8) <;> simp

theorem combine_block_length (op : Nat → Nat → Nat) (buf1 buf2 : List Nat) (pos n : Nat) :
    (combine_block op buf1 buf2 pos n).length = buf1.length := by
  simp [combine_block, store_le]

theorem combine_block_getD (op : Nat → Nat → Nat) (hop : lanewise op) (buf1 buf2 : List Nat)
    (pos n t d : Nat) :
    (combine_block op buf1 buf2 pos n).getD t d =
      if pos ≤ t ∧ t < pos + n ∧ t < buf1.length
      then op (buf1.getD t d % 256) (buf2.getD t 0 % 256)
      else buf1.getD t d := by
  simp only [combine_block, store_le, List.getD_eq_getElem?_getD, List.getElem?_mapIdx]
  by_cases ht : t < buf1.length
  · simp only [List.getElem?_eq_getElem ht, Option.map_some', Option.getD_some, ht, and_true]
    by_cases hr : pos ≤ t ∧ t < pos + n
    · rw [if_pos hr, if_pos hr, hop, byte_of_load_le _ _ _ _ (by omega),
        byte_of_load_le _ _ _ _ (by omega), show pos + (t - pos) = t by omega]
      simp only [List.getD_eq_getElem?_getD, List.getElem?_eq_getElem ht, Option.getD_some]
    · rw [if_neg hr, if_neg hr]
  · have : buf1[t]? = none := List.getElem?_eq_none (by omega)
    simp [this, ht]

/-- What a block loop leaves: the position and the remaining length add up as
before, and exactly the bytes between the old and the new position are combined. -/
theorem block_loop_spec (op : Nat → Nat → Nat) (hop : lanewise op) (width : Nat)
    (buf2 : List Nat) (fuel : Nat) :
    ∀ (buf1 : List Nat) (pos len : Nat), ∃ buf pos1 len1,
      block_loop op width buf2 fuel buf1 pos len = (buf, pos1, len1) ∧
        pos1 + len1 = pos + len ∧ pos ≤ pos1 ∧ buf.length = buf1.length ∧
        (∀ t d, buf.getD t d =
          if pos ≤ t ∧ t < pos1 ∧ t < buf1.length
          then op (buf1.getD t d % 256) (buf2.getD t 0 % 256) else buf1.getD t d) ∧
        (width = 1 → len ≤ fuel → len1 = 0) := by
  induction fuel with
  | zero =>
    intro buf1 pos len
    refine ⟨buf1, pos, len, rfl, rfl, Nat.le_refl _, rfl, ?_, fun _ h => by omega⟩
    intro t d
    rw [if_neg (by omega)]
  | succ fuel ih =>
    intro buf1 pos len
    simp only [block_loop]
    by_cases hw : len ≥ width
    · simp only [hw, if_true]
      obtain ⟨buf, pos1, len1, e, h1, h2, h3, h4, h5⟩ :=
        ih (combine_block op buf1 buf2 pos width) (pos + width) (len - width)
      refine ⟨buf, pos1, len1, e, by omega, by omega, by rw [h3, combine_block_length], ?_, ?_⟩
      · intro t d
        rw [h4, combine_block_length, combine_block_getD op hop]
        split_ifs <;> first | rfl | (exfalso; omega)
      · intro hw1 hl
        exact h5 hw1 (by omega)
    · simp only [hw, if_false]
      refine ⟨buf1, pos, len, rfl, rfl, Nat.le_refl _, rfl, ?_, fun hw1 _ => by omega⟩
      intro t d
      rw [if_neg (by omega)]

/-- `do_xor` and `do_and` combine exactly the first `len` bytes, whatever the
SSE2 flag and the alignment. -/
theorem do_op_spec (op : Nat → Nat → Nat) (hop : lanewise op) (sse2 : Bool) (addr1 addr2 : Nat)
    (buf1 buf2 : List Nat) (len : Nat) :
    (do_op op sse2 addr1 addr2 buf1 buf2 len).length = buf1.length ∧
      ∀ t d, (do_op op sse2 addr1 addr2 buf1 buf2 len).getD t d =
        if t < len ∧ t < buf1.length then op (buf1.getD t d % 256) (buf2.getD t 0 % 256)
        else buf1.getD t d := by
  have key : ∀ (b : List Nat) (p l : Nat), p + l = len → b.length = buf1.length →
      (∀ t d, b.getD t d = if t < p ∧ t < buf1.length
        then op (buf1.getD t d % 256) (buf2.getD t 0 % 256) else buf1.getD t d) →
      ((block_loop op 1 buf2 (block_loop op 4 buf2 l b p l).2.2
          (block_loop op 4 buf2 l b p l).1 (block_loop op 4 buf2 l b p l).2.1
          (block_loop op 4 buf2 l b p l).2.2).1).length = buf1.length ∧
        ∀ t d, ((block_loop op 1 buf2 (block_loop op 4 buf2 l b p l).2.2
          (block_loop op 4 buf2 l b p l).1 (block_loop op 4 buf2 l b p l).2.1
          (block_loop op 4 buf2 l b p l).2.2).1).getD t d =
          if t < len ∧ t < buf1.length then op (buf1.getD t d % 256) (buf2.getD t 0 % 256)
          else buf1.getD t d := by
    intro b p l hs1 hl1 hg1
    obtain ⟨b4, p4, l4, e4, a1, a2, a3, a4, _⟩ := block_loop_spec op hop 4 buf2 l b p l
    rw [e4]
    obtain ⟨b1, p1, l1, e1, c1, c2, c3, c4, c5⟩ := block_loop_spec op hop 1 buf2 l4 b4 p4 l4
    rw [e1]
    have c6 := c5 rfl (Nat.le_refl _)
    refine ⟨by rw [c3, a3, hl1], ?_⟩
    intro t d
    show b1.getD t d = _
    rw [c4, a3, hl1, a4, hl1, hg1]
    split_ifs <;> first | rfl | (exfalso; omega)
  unfold do_op
  by_cases hs : (sse2 && addr1 % 16 == 0 && addr2 % 16 == 0) = true
  · simp only [hs, if_true]
    obtain ⟨b, p, l, e, a1, a2, a3, a4, _⟩ := block_loop_spec op hop 16 buf2 len buf1 0 len
    rw [e]
    refine key b p l (by omega) a3 ?_
    intro t d
    rw [a4]
    split_ifs <;> first | rfl | (exfalso; omega)
  · simp only [hs, if_false, Bool.false_eq_true]
    refine key buf1 0 len (by omega) rfl ?_
    intro t d
    simp

theorem byte_testBit : ∀ (b0 b1 b2 b3 b4 b5 b6 b7 : Bool) (s : Nat), s < 8 →
    (b0.toNat + 2 * b1.toNat + 4 * b2.toNat + 8 * b3.toNat + 16 * b4.toNat + 32 * b5.toNat
        + 64 * b6.toNat + 128 * b7.toNat).testBit s
      = [b0, b1, b2, b3, b4, b5, b6, b7].getD s false := by
  decide

theorem bitmap_byte_testBit (bmp : List Bool) (k s : Nat) (hs : s < 8) :
    (bitmap_byte bmp k).testBit s = bmp.getD (8 * k + s) false := by
  unfold bitmap_byte
  rw [byte_testBit _ _ _ _ _ _ _ _ s hs]
  have : s = 0 ∨ s = 1 ∨ s = 2 ∨ s = 3 ∨ s = 4 ∨ s = 5 ∨ s = 6 ∨ s = 7 := by omega
  rcases this with h | h | h | h | h | h | h | h <;> subst h <;> rfl

theorem bitmap_bytes_testBit (bmp : List Bool) (k s : Nat) (hs : s < 8) :
    ((bitmap_bytes bmp).getD k 0).testBit s = bmp.getD (8 * k + s) false := by
  unfold bitmap_bytes
  by_cases hk : k < (bmp.length + 7) / 8
  · have : ((List.range ((bmp.length + 7) / 8)).map (bitmap_byte bmp)).getD k 0
        = bitmap_byte bmp k := by
      simp [List.getD_eq_getElem?_getD, List.getElem?_map, List.getElem?_range hk]
    rw [this, bitmap_byte_testBit _ _ _ hs]
  · have : ((List.range ((bmp.length + 7) / 8)).map (bitmap_byte bmp)).getD k 0 = 0 := by
      rw [List.getD_eq_default]
      simp; omega
    rw [this, List.getD_eq_default _ _ (by omega)]
    simp

theorem copy_bytes_spec (dst src : List Nat) (n : Nat) :
    (copy_bytes dst src n).length = dst.length ∧
      ∀ t, t < dst.length → (copy_bytes dst src n).getD t 0
        = if t < n then src.getD t 0 else dst.getD t 0 := by
  refine ⟨by simp [copy_bytes], ?_⟩
  intro t ht
  simp only [copy_bytes, List.getD_eq_getElem?_getD, List.getElem?_mapIdx,
    List.getElem?_eq_getElem ht, Option.map_some', Option.getD_some]

theorem valid_rows_spec (pdo : set_pdo) (k : kernel) (pc : partial_chunk)
    (hcs8 : pdo.array_info.chunksize % 8 = 0) (n : Nat) :
    ∀ (i : Nat) (valid : List Nat), (i + n) * pdo.array_info.chunksize < 4294967296 + pdo.array_info.chunksize →
      (valid_rows pdo k pc n i valid).length = valid.length ∧
        ∀ b s, b < pdo.array_info.chunksize / 8 → b < valid.length → s < 8 →
          (((valid_rows pdo k pc n i valid).getD b 0).testBit s = true ↔
            ((valid.getD b 0).testBit s = true ∧
              ∀ r, i ≤ r → r < i + n →
                pc.bmp.getD (r * pdo.array_info.chunksize + (8 * b + s)) false = true)) := by
  induction n with
  | zero =>
    intro i valid _
    refine ⟨rfl, ?_⟩
    intro b s _ _ _
    simp only [valid_rows]
    exact ⟨fun h => ⟨h, fun r h1 h2 => by omega⟩, fun h => h.1⟩
  | succ n ih =>
    intro i valid hi
    simp only [valid_rows]
    have hsp := do_op_spec (fun x y => x &&& y) lanewise_and k.have_sse2 k.valid_addr
      (k.bmp_addr + u32 (i * pdo.array_info.chunksize) / 8) valid
      ((bitmap_bytes pc.bmp).drop (u32 (i * pdo.array_info.chunksize) / 8))
      (pdo.array_info.chunksize / 8)
    have hi2 : (i + 1 + n) * pdo.array_info.chunksize
        < 4294967296 + pdo.array_info.chunksize := by
      have : i + 1 + n = i + (n + 1) := by omega
      rw [this]; exact hi
    obtain ⟨h1, h2⟩ := ih (i + 1) (do_and k.have_sse2 k.valid_addr
      (k.bmp_addr + u32 (i * pdo.array_info.chunksize) / 8) valid
      ((bitmap_bytes pc.bmp).drop (u32 (i * pdo.array_info.chunksize) / 8))
      (pdo.array_info.chunksize / 8)) hi2
    unfold do_and at h1 h2 ⊢
    refine ⟨by rw [h1, hsp.1], ?_⟩
    intro b s hb hbl hs
    rw [h2 b s hb (by rw [hsp.1]; exact hbl) hs, hsp.2 b 0, if_pos ⟨hb, hbl⟩]
    have hlt : i * pdo.array_info.chunksize < 4294967296 := by
      have : (i + (n + 1)) * pdo.array_info.chunksize
          = i * pdo.array_info.chunksize + n * pdo.array_info.chunksize
            + pdo.array_info.chunksize := by ring
      omega
    have hmod : (i * pdo.array_info.chunksize) % 8 = 0 := by
      rw [Nat.mul_mod, hcs8]; simp
    have hdrop : ((bitmap_bytes pc.bmp).drop (u32 (i * pdo.array_info.chunksize) / 8)).getD b 0
        = (bitmap_bytes pc.bmp).getD (i * pdo.array_info.chunksize / 8 + b) 0 := by
      simp only [List.getD_eq_getElem?_getD, List.getElem?_drop, u32, Nat.mod_eq_of_lt hlt]
    have hbit : ((bitmap_bytes pc.bmp).getD (i * pdo.array_info.chunksize / 8 + b) 0).testBit s
        = pc.bmp.getD (i * pdo.array_info.chunksize + (8 * b + s)) false := by
      rw [bitmap_bytes_testBit _ _ _ hs]
      congr 1
      omega
    have hm : ∀ x : Nat, (x % 256).testBit s = x.testBit s := by
      intro x
      rw [show (256 : Nat) = 2 ^ 8 by rfl, Nat.testBit_mod_two_pow]
      simp [hs]
    rw [Nat.testBit_and, hm, hm, hdrop, Bool.and_eq_true, hbit]
    constructor
    · rintro ⟨⟨ha, hb1⟩, hr⟩
      refine ⟨ha, fun r hr1 hr2 => ?_⟩
      by_cases hri : r = i
      · rw [hri]; exact hb1
      · exact hr r (by omega) (by omega)
    · rintro ⟨ha, hr⟩
      exact ⟨⟨ha, hr i (Nat.le_refl _) (by omega)⟩, fun r hr1 hr2 => hr r (by omega) (by omega)⟩

/-- With a chunk size that is a multiple of 8 sectors, bit `j` of `valid` is
set exactly when column `j` is pending in every data row. -/
theorem valid_bmp_spec (pdo : set_pdo) (k : kernel) (pc : partial_chunk)
    (hcs8 : pdo.array_info.chunksize % 8 = 0)
    (hfit : pdo.array_info.chunksize * 512 * data_disks pdo.array_info < 4294967296)
    (hdd : 0 < data_disks pdo.array_info)
    (hvl : pdo.array_info.chunksize / 8 ≤ k.valid_len) :
    (valid_bmp pdo k pc).length = pdo.array_info.chunksize ∧
      ∀ j, j < pdo.array_info.chunksize →
        ((valid_bmp pdo k pc).getD j false = true ↔
          ∀ r, r < data_disks pdo.array_info →
            pc.bmp.getD (r * pdo.array_info.chunksize + j) false = true) := by
  refine ⟨by simp [valid_bmp, RtlInitializeBitMap], ?_⟩
  intro j hj
  have hget : (valid_bmp pdo k pc).getD j false
      = ((valid_buf pdo k pc).getD (j / 8) 0).testBit (j % 8) := by
    simp [valid_bmp, RtlInitializeBitMap, List.getD_eq_getElem?_getD, List.getElem?_map,
      List.getElem?_range hj]
  have hfresh : ((List.range k.valid_len).map k.valid_garbage).length = k.valid_len := by simp
  obtain ⟨c1, c2⟩ := copy_bytes_spec ((List.range k.valid_len).map k.valid_garbage)
    (bitmap_bytes pc.bmp) (pdo.array_info.chunksize / 8)
  have hprod : (1 + (data_disks pdo.array_info - 1)) * pdo.array_info.chunksize
      < 4294967296 + pdo.array_info.chunksize := by
    have e1 : 1 + (data_disks pdo.array_info - 1) = data_disks pdo.array_info := by omega
    have e2 : pdo.array_info.chunksize * 512 * data_disks pdo.array_info
        = 512 * (data_disks pdo.array_info * pdo.array_info.chunksize) := by ring
    rw [e1]; omega
  obtain ⟨v1, v2⟩ := valid_rows_spec pdo k pc hcs8 (data_disks pdo.array_info - 1) 1
    (copy_bytes ((List.range k.valid_len).map k.valid_garbage) (bitmap_bytes pc.bmp)
      (pdo.array_info.chunksize / 8)) hprod
  have hb : j / 8 < pdo.array_info.chunksize / 8 := by omega
  rw [hget]
  unfold valid_buf
  rw [v2 (j / 8) (j % 8) hb (by rw [c1, hfresh]; omega) (by omega),
    c2 (j / 8) (by rw [hfresh]; omega), if_pos hb, bitmap_bytes_testBit _ _ _ (by omega)]
  have e8 : 8 * (j / 8) + j % 8 = j := by omega
  rw [e8]
  constructor
  · rintro ⟨h0, hr⟩ r hr1
    by_cases hr0 : r = 0
    · rw [hr0]; simpa using h0
    · exact hr r (by omega) (by omega)
  · intro h
    exact ⟨by simpa using h 0 hdd, fun r _ hr2 => h r (by omega)⟩

/-! ## The read set of `flush_partial_chunk` -/

theorem run_length_spec (v : Bool) (l : List Bool) :
    run_length v l ≤ l.length ∧ (∀ t, t < run_length v l → l[t]? = some v) ∧
      (run_length v l < l.length → l[run_length v l]? = some (!v)) := by
  induction l with
  | nil => simp [run_length]
  | cons b bs ih =>
    obtain ⟨h1, h2, h3⟩ := ih
    by_cases hb : b = v
    · simp only [run_length, hb, if_true, List.length_cons]
      refine ⟨by omega, ?_, ?_⟩
      · intro t ht
        cases t with
        | zero => simp
        | succ t => simpa using h2 t (by omega)
      · intro h
        simpa using h3 (by omega)
    · simp only [run_length, hb, if_false, List.length_cons]
      refine ⟨by omega, fun t ht => by omega, fun _ => ?_⟩
      cases b <;> cases v <;> simp at hb ⊢

theorem scan_columns_skip (pdo : set_pdo) (k : kernel) (pc : partial_chunk) (valid : List Bool)
    (i stripe : Nat) (n : Nat) :
    ∀ (j : Nat) (ctxs : List io_context) (last : Bool),
      (∀ t, t < n → valid[j + t]? = some true) →
      scan_columns pdo k pc valid i stripe n j ctxs last = .ok (ctxs, last) := by
  induction n with
  | zero => intro j ctxs last _; rfl
  | succ n ih =>
    intro j ctxs last h
    have h0 : RtlCheckBit valid j = true := by
      have := h 0 (by omega)
      simp only [Nat.add_zero] at this
      simp [RtlCheckBit, List.getD_eq_getElem?_getD, this]
    simp only [scan_columns, h0, if_true]
    exact ih (j + 1) ctxs last (fun t ht => by
      have := h (t + 1) (by omega)
      rwa [show j + (t + 1) = j + 1 + t by omega] at this)

theorem scan_columns_run (pdo : set_pdo) (k : kernel) (pc : partial_chunk) (valid : List Bool)
    (i stripe : Nat) (n : Nat) :
    ∀ (j : Nat) (ctxs : List io_context) (last : Bool),
      (∀ t, t < n → valid[j + t]? = some false) →
      scan_columns pdo k pc valid i stripe n j ctxs last
        = read_run pdo k pc i stripe n j ctxs last := by
  induction n with
  | zero => intro j ctxs last _; rfl
  | succ n ih =>
    intro j ctxs last h
    have h0 : RtlCheckBit valid j = false := by
      have := h 0 (by omega)
      simp only [Nat.add_zero] at this
      simp [RtlCheckBit, List.getD_eq_getElem?_getD, this]
    have hn : ∀ t, t < n → valid[j + 1 + t]? = some false := fun t ht => by
      have := h (t + 1) (by omega)
      rwa [show j + (t + 1) = j + 1 + t by omega] at this
    simp only [scan_columns, read_run, h0, Bool.false_eq_true, if_false]
    cases read_sector pdo k pc i stripe j ctxs last with
    | error st => rfl
    | ok p => exact ih (j + 1) p.1 p.2 hn

theorem scan_columns_append (pdo : set_pdo) (k : kernel) (pc : partial_chunk)
    (valid : List Bool) (i stripe : Nat) (n m : Nat) :
    ∀ (j : Nat) (ctxs : List io_context) (last : Bool),
      scan_columns pdo k pc valid i stripe (n + m) j ctxs last
        = match scan_columns pdo k pc valid i stripe n j ctxs last with
          | .error st => .error st
          | .ok p => scan_columns pdo k pc valid i stripe m (j + n) p.1 p.2 := by
  induction n with
  | zero => intro j ctxs last; simp [scan_columns]
  | succ n ih =>
    intro j ctxs last
    rw [show n + 1 + m = (n + m) + 1 by omega]
    simp only [scan_columns]
    have e : j + (n + 1) = j + 1 + n := by omega
    split
    · rw [ih, e]
    · cases read_sector pdo k pc i stripe j ctxs last with
      | error st => rfl
      | ok p => simp only [ih, e]

/-- The run loop visits exactly the columns whose `valid` bit is clear: with
enough fuel it equals the column scan over the rest of the bitmap. -/
theorem read_runs_eq_scan (pdo : set_pdo) (k : kernel) (pc : partial_chunk)
    (valid : List Bool) (i stripe : Nat) (hv : valid.length < 4294967296) (fuel : Nat) :
    ∀ (start : Nat) (ctxs : List io_context) (last : Bool),
      start ≤ valid.length → valid.length - start < fuel →
      read_runs pdo k pc valid i stripe fuel (RtlFindNextForwardRunClear valid start).1
          (RtlFindNextForwardRunClear valid start).2 ctxs last
        = scan_columns pdo k pc valid i stripe (valid.length - start) start ctxs last := by
  induction fuel with
  | zero => intro start ctxs last _ h; omega
  | succ fuel ih =>
    intro start ctxs last hs hf
    by_cases hend : valid.length ≤ start
    · have e : valid.length - start = 0 := by omega
      simp [RtlFindNextForwardRunClear, hend, read_runs, e, scan_columns]
    · obtain ⟨s1, s2, s3⟩ := run_length_spec true (valid.drop start)
      obtain ⟨c1, c2, c3⟩ := run_length_spec false
        (valid.drop (start + run_length true (valid.drop start)))
      simp only [List.length_drop, List.getElem?_drop, Bool.not_true, Bool.not_false] at s1 s2 s3 c1 c2 c3
      simp only [RtlFindNextForwardRunClear, hend, if_false]
      generalize run_length true (valid.drop start) = rs at s1 s2 s3 c1 c2 c3 ⊢
      generalize run_length false (valid.drop (start + rs)) = rl at c1 c2 c3 ⊢
      have hsplit : valid.length - start = rs + (rl + (valid.length - (start + rs + rl))) := by
        omega
      rw [hsplit, scan_columns_append, scan_columns_skip _ _ _ _ _ _ rs start ctxs last s2]
      simp only
      by_cases hrl : rl = 0
      · subst hrl
        have hstart : start + rs = valid.length := by
          by_contra hne
          have h1 := s3 (by omega)
          have h2 : valid[start + rs]? = some false := h1
          have h3 := c3 (by omega)
          simp only [Nat.add_zero] at h3
          rw [h2] at h3
          simp at h3
        have e : valid.length - (start + rs) = 0 := by omega
        simp [read_runs, e, scan_columns]
      · simp only [read_runs, hrl, if_false]
        rw [scan_columns_append, scan_columns_run _ _ _ _ _ _ rl (start + rs) ctxs last c2]
        cases read_run pdo k pc i stripe rl (start + rs) ctxs last with
        | error st => rfl
        | ok p =>
          have hu : u32 (start + rs + rl) = start + rs + rl :=
            Nat.mod_eq_of_lt (by omega)
          simp only [hu]
          exact ih (start + rs + rl) p.1 p.2 (by omega) (by omega)

theorem covers_span (a : mdraid_array_info) (ctx : io_context) (i j0 m r c : Nat)
    (hva : ctx.va2 = (i * a.chunksize + j0) * 512) (hlen : read_length ctx = m * 512)
    (hm : j0 + m ≤ a.chunksize) (hc : c < a.chunksize) :
    covers a ctx r c ↔ (r = i ∧ j0 ≤ c ∧ c < j0 + m) := by
  unfold covers
  rw [hva, hlen]
  rcases Nat.lt_trichotomy r i with h | h | h
  · have := Nat.mul_le_mul_right a.chunksize (Nat.succ_le_of_lt h)
    rw [Nat.succ_mul] at this
    constructor
    · intro ⟨h1, _⟩; omega
    · intro ⟨h1, _⟩; omega
  · subst h
    constructor
    · intro ⟨h1, h2⟩; exact ⟨rfl, by omega, by omega⟩
    · intro ⟨_, h1, h2⟩; exact ⟨by omega, by omega⟩
  · have := Nat.mul_le_mul_right a.chunksize (Nat.succ_le_of_lt h)
    rw [Nat.succ_mul] at this
    constructor
    · intro ⟨_, h2⟩; omega
    · intro ⟨h1, _⟩; omega

theorem covered_upto_skip (a : mdraid_array_info) (pc : partial_chunk) (valid : List Bool)
    (ctxs : List io_context) (i j : Nat) (h : covered_upto a pc valid ctxs i j)
    (hn : ¬ to_read a pc valid i j) : covered_upto a pc valid ctxs i (j + 1) := by
  intro r c hc
  rw [h r c hc]
  constructor
  · rintro ⟨h1, h2⟩
    exact ⟨h1, by omega⟩
  · rintro ⟨h1, h2⟩
    refine ⟨h1, ?_⟩
    rcases h2 with h2 | ⟨h2, h3⟩
    · exact Or.inl h2
    · by_cases hcj : c = j
      · subst h2; subst hcj; exact absurd h1 hn
      · exact Or.inr ⟨h2, by omega⟩

theorem covered_upto_extend (a : mdraid_array_info) (pc : partial_chunk) (valid : List Bool)
    (ctxs ctxs1 : List io_context) (i j : Nat) (h : covered_upto a pc valid ctxs i j)
    (hn : to_read a pc valid i j)
    (hnew : ∀ r c, c < a.chunksize → ((∃ ctx ∈ ctxs1, covers a ctx r c) ↔
      ((∃ ctx ∈ ctxs, covers a ctx r c) ∨ (r = i ∧ c = j)))) :
    covered_upto a pc valid ctxs1 i (j + 1) := by
  intro r c hc
  rw [hnew r c hc, h r c hc]
  constructor
  · rintro (⟨h1, h2⟩ | ⟨h1, h2⟩)
    · exact ⟨h1, by omega⟩
    · subst h1; subst h2; exact ⟨hn, Or.inr ⟨rfl, by omega⟩⟩
  · rintro ⟨h1, h2⟩
    rcases h2 with h2 | ⟨h2, h3⟩
    · exact Or.inl ⟨h1, Or.inl h2⟩
    · by_cases hcj : c = j
      · exact Or.inr ⟨h2, hcj⟩
      · exact Or.inl ⟨h1, Or.inr ⟨h2, by omega⟩⟩

theorem stripe_start_of_eq (pdo : set_pdo) (pc : partial_chunk) (stripe j : Nat)
    (hj : j * 512 < 4294967296) :
    stripe_start_of pdo pc stripe j
      = (pc.offset / data_disks pdo.array_info + pdo.data_offset stripe * 512 + j * 512)
        % 18446744073709551616 := by
  simp only [stripe_start_of, u64, u32]
  omega

theorem sub64_step (s e m : Nat) (hs : s < 18446744073709551616) (he : e < 18446744073709551616)
    (hm : m * 512 < 4294967296) (h : sub64 e s = m * 512) :
    sub64 (u64 (e + 512)) s = (m + 1) * 512 := by
  simp only [sub64, u64] at h ⊢
  omega

theorem exists_mem_cons_iff (p : io_context → Prop) (x : io_context) (l : List io_context) :
    (∃ ctx ∈ x :: l, p ctx) ↔ (p x ∨ ∃ ctx ∈ l, p ctx) := by
  simp

/-- One column of the read loop keeps the coverage invariant. -/
theorem read_sector_inv (pdo : set_pdo) (k : kernel) (pc : partial_chunk) (valid : List Bool)
    (i stripe j : Nat) (ctxs : List io_context) (last : Bool)
    (hfit : pdo.array_info.chunksize * 512 * data_disks pdo.array_info < 4294967296)
    (hctx : ∀ d s e, NT_SUCCESS (k.io_context_status d s e) = true)
    (hi : i < data_disks pdo.array_info) (hj : j < pdo.array_info.chunksize)
    (hV : RtlCheckBit valid j = false)
    (hcov : covered_upto pdo.array_info pc valid ctxs i j)
    (hlast : last_open pdo pc stripe i j ctxs last)
    (hall : all_cover pdo.array_info ctxs) :
    ∃ c1 l1, read_sector pdo k pc i stripe j ctxs last = .ok (c1, l1) ∧
      covered_upto pdo.array_info pc valid c1 i (j + 1) ∧
      last_open pdo pc stripe i (j + 1) c1 l1 ∧ all_cover pdo.array_info c1 := by
  have hB : i * pdo.array_info.chunksize + pdo.array_info.chunksize
      ≤ data_disks pdo.array_info * pdo.array_info.chunksize := by
    have := Nat.mul_le_mul_right pdo.array_info.chunksize (Nat.succ_le_of_lt hi)
    rwa [Nat.succ_mul] at this
  have e512 : pdo.array_info.chunksize * 512 * data_disks pdo.array_info
      = 512 * (data_disks pdo.array_info * pdo.array_info.chunksize) := by ring
  have hbit : u32 (u32 (i * pdo.array_info.chunksize) + j) = i * pdo.array_info.chunksize + j := by
    simp only [u32]; omega
  have hva : u32 (i * u32 (pdo.array_info.chunksize * 512)) + u32 (j * 512)
      = (i * pdo.array_info.chunksize + j) * 512 := by
    have e1 : u32 (pdo.array_info.chunksize * 512) = pdo.array_info.chunksize * 512 := by
      simp only [u32]; omega
    have e2 : i * (pdo.array_info.chunksize * 512) = i * pdo.array_info.chunksize * 512 := by
      ring
    rw [e1, e2]
    simp only [u32]; omega
  have hS0 := stripe_start_of_eq pdo pc stripe j (by omega)
  have hS1 := stripe_start_of_eq pdo pc stripe (j + 1) (by omega)
  have hSlt : stripe_start_of pdo pc stripe j < 18446744073709551616 := by
    rw [hS0]; omega
  have hSnext : u64 (stripe_start_of pdo pc stripe j + 512)
      = stripe_start_of pdo pc stripe (j + 1) := by
    rw [hS0, hS1]; simp only [u64]; omega
  unfold read_sector
  simp only [hbit]
  by_cases hb : RtlCheckBit pc.bmp (i * pdo.array_info.chunksize + j) = true
  · have hneed : to_read pdo.array_info pc valid i j := ⟨hb, hV⟩
    simp only [hb, if_true, hctx]
    -- the outcome of opening a new request
    have hfresh : covered_upto pdo.array_info pc valid
          ({ sc := stripe, stripe_start := stripe_start_of pdo pc stripe j,
             stripe_end := u64 (stripe_start_of pdo pc stripe j + 512),
             va2 := u32 (i * u32 (pdo.array_info.chunksize * 512)) + u32 (j * 512),
             Status := k.io_context_status stripe (stripe_start_of pdo pc stripe j)
               (u64 (stripe_start_of pdo pc stripe j + 512)) } :: ctxs) i (j + 1) ∧
        last_open pdo pc stripe i (j + 1)
          ({ sc := stripe, stripe_start := stripe_start_of pdo pc stripe j,
             stripe_end := u64 (stripe_start_of pdo pc stripe j + 512),
             va2 := u32 (i * u32 (pdo.array_info.chunksize * 512)) + u32 (j * 512),
             Status := k.io_context_status stripe (stripe_start_of pdo pc stripe j)
               (u64 (stripe_start_of pdo pc stripe j + 512)) } :: ctxs) true ∧
        all_cover pdo.array_info
          ({ sc := stripe, stripe_start := stripe_start_of pdo pc stripe j,
             stripe_end := u64 (stripe_start_of pdo pc stripe j + 512),
             va2 := u32 (i * u32 (pdo.array_info.chunksize * 512)) + u32 (j * 512),
             Status := k.io_context_status stripe (stripe_start_of pdo pc stripe j)
               (u64 (stripe_start_of pdo pc stripe j + 512)) } :: ctxs) := by
      have hsub : sub64 (u64 (stripe_start_of pdo pc stripe j + 512))
          (stripe_start_of pdo pc stripe j) = 1 * 512 := by
        simp only [sub64, u64]; omega
      refine ⟨?_, ?_, ?_⟩
      · refine covered_upto_extend _ _ _ ctxs _ i j hcov hneed ?_
        intro r c hc
        rw [exists_mem_cons_iff, covers_span pdo.array_info _ i j 1 r c hva
          (by simp only [read_length, hsub, u32]) (by omega) hc]
        constructor
        · rintro (⟨h1, h2, h3⟩ | h)
          · exact Or.inr ⟨h1, by omega⟩
          · exact Or.inl h
        · rintro (h | ⟨h1, h2⟩)
          · exact Or.inr h
          · exact Or.inl ⟨h1, by omega, by omega⟩
      · intro _
        refine ⟨_, ctxs, j, 1, rfl, hva, hsub, by omega, by omega, hSlt, ?_, hSnext⟩
        simp only [u64]; omega
      · intro ctx hctx1
        rcases List.mem_cons.mp hctx1 with h | h
        · subst h
          exact ⟨i, j, hj, (covers_span pdo.array_info _ i j 1 i j hva
            (by simp only [read_length, hsub, u32]) (by omega) hj).mpr ⟨rfl, by omega, by omega⟩⟩
        · exact hall ctx h
    cases last with
    | false => exact ⟨_, _, rfl, hfresh⟩
    | true =>
      obtain ⟨l, rest, j0, m, e, l1, l2, l3, l4, l5, l6, l7⟩ := hlast rfl
      subst e
      simp only
      by_cases hco : l.stripe_end = stripe_start_of pdo pc stripe j
      · rw [if_pos hco]
        have hSm := stripe_start_of_eq pdo pc stripe (j0 + m) (by omega)
        have hjm : j0 + m = j := by
          rw [l7, hSm, hS0] at hco
          omega
        have hrl : read_length l = m * 512 := by
          simp only [read_length, l2, u32]; omega
        have hsub1 : sub64 (u64 (l.stripe_end + 512)) l.stripe_start = (m + 1) * 512 :=
          sub64_step _ _ _ l5 l6 (by omega) l2
        have hrl1 : read_length { l with stripe_end := u64 (l.stripe_end + 512) }
            = (m + 1) * 512 := by
          show u32 (sub64 (u64 (l.stripe_end + 512)) l.stripe_start) = _
          rw [hsub1]; simp only [u32]; omega
        have hm1 : j0 + (m + 1) ≤ pdo.array_info.chunksize := by omega
        refine ⟨_, _, rfl, ?_, ?_, ?_⟩
        · refine covered_upto_extend _ _ _ (l :: rest) _ i j hcov hneed ?_
          intro r c hc
          have hm0 : j0 + m ≤ pdo.array_info.chunksize := by omega
          rw [exists_mem_cons_iff, exists_mem_cons_iff,
            covers_span pdo.array_info { l with stripe_end := u64 (l.stripe_end + 512) }
              i j0 (m + 1) r c l1 hrl1 hm1 hc,
            covers_span pdo.array_info l i j0 m r c l1 hrl hm0 hc]
          constructor
          · rintro (⟨h1, h2, h3⟩ | h)
            · by_cases hcj : c = j
              · exact Or.inr ⟨h1, hcj⟩
              · exact Or.inl (Or.inl ⟨h1, h2, by omega⟩)
            · exact Or.inl (Or.inr h)
          · rintro ((⟨h1, h2, h3⟩ | h) | ⟨h1, h2⟩)
            · exact Or.inl ⟨h1, h2, by omega⟩
            · exact Or.inr h
            · exact Or.inl ⟨h1, by omega, by omega⟩
        · intro _
          have hm2 : j0 + (m + 1) ≤ j + 1 := by omega
          refine ⟨_, rest, j0, m + 1, rfl, l1, hsub1, Nat.succ_pos m, hm2, l5, ?_, ?_⟩
          · show u64 (l.stripe_end + 512) < _
            simp only [u64]; omega
          · show u64 (l.stripe_end + 512) = _
            have e1 : j0 + (m + 1) = j + 1 := by omega
            rw [hco, hSnext, e1]
        · intro ctx hctx1
          rcases List.mem_cons.mp hctx1 with h | h
          · subst h
            exact ⟨i, j, hj, (covers_span pdo.array_info
              { l with stripe_end := u64 (l.stripe_end + 512) } i j0 (m + 1) i j l1 hrl1 hm1
              hj).mpr ⟨rfl, by omega, by omega⟩⟩
          · exact hall ctx (List.mem_cons_of_mem _ h)
      · rw [if_neg hco]
        exact ⟨_, _, rfl, hfresh⟩
  · simp only [hb, if_false, Bool.false_eq_true]
    refine ⟨ctxs, last, rfl, covered_upto_skip _ _ _ _ _ _ hcov (fun h => hb h.1), ?_, hall⟩
    intro hl
    obtain ⟨l, rest, j0, m, e, l1, l2, l3, l4, l5, l6, l7⟩ := hlast hl
    exact ⟨l, rest, j0, m, e, l1, l2, l3, by omega, l5, l6, l7⟩

theorem scan_columns_inv (pdo : set_pdo) (k : kernel) (pc : partial_chunk) (valid : List Bool)
    (i stripe : Nat)
    (hfit : pdo.array_info.chunksize * 512 * data_disks pdo.array_info < 4294967296)
    (hctx : ∀ d s e, NT_SUCCESS (k.io_context_status d s e) = true)
    (hi : i < data_disks pdo.array_info) (n : Nat) :
    ∀ (j : Nat) (ctxs : List io_context) (last : Bool), j + n ≤ pdo.array_info.chunksize →
      covered_upto pdo.array_info pc valid ctxs i j → last_open pdo pc stripe i j ctxs last →
      all_cover pdo.array_info ctxs →
      ∃ c1 l1, scan_columns pdo k pc valid i stripe n j ctxs last = .ok (c1, l1) ∧
        covered_upto pdo.array_info pc valid c1 i (j + n) ∧
        last_open pdo pc stripe i (j + n) c1 l1 ∧ all_cover pdo.array_info c1 := by
  induction n with
  | zero => intro j ctxs last _ h1 h2 h3; exact ⟨ctxs, last, rfl, h1, h2, h3⟩
  | succ n ih =>
    intro j ctxs last hjn h1 h2 h3
    have e : j + (n + 1) = j + 1 + n := by omega
    simp only [scan_columns]
    by_cases hV : RtlCheckBit valid j = true
    · simp only [hV, if_true]
      rw [e]
      refine ih (j + 1) ctxs last (by omega)
        (covered_upto_skip _ _ _ _ _ _ h1 (fun h => by rw [h.2] at hV; simp at hV)) ?_ h3
      intro hl
      obtain ⟨l, rest, j0, m, e1, l1, l2, l3, l4, l5, l6, l7⟩ := h2 hl
      exact ⟨l, rest, j0, m, e1, l1, l2, l3, by omega, l5, l6, l7⟩
    · have hV0 : RtlCheckBit valid j = false := by simpa using hV
      simp only [hV0, Bool.false_eq_true, if_false]
      obtain ⟨c1, l1, e1, a1, a2, a3⟩ := read_sector_inv pdo k pc valid i stripe j ctxs last
        hfit hctx hi (by omega) hV0 h1 h2 h3
      rw [e1, e]
      exact ih (j + 1) c1 l1 (by omega) a1 a2 a3

theorem read_rows_inv (pdo : set_pdo) (k : kernel) (pc : partial_chunk) (valid : List Bool)
    (parity : Nat)
    (hfit : pdo.array_info.chunksize * 512 * data_disks pdo.array_info < 4294967296)
    (hctx : ∀ d s e, NT_SUCCESS (k.io_context_status d s e) = true)
    (hvalid : valid.length = pdo.array_info.chunksize) (n : Nat) :
    ∀ (i stripe : Nat) (ctxs : List io_context), i + n ≤ data_disks pdo.array_info →
      covered_upto pdo.array_info pc valid ctxs i 0 → all_cover pdo.array_info ctxs →
      ∃ c1, read_rows pdo k pc valid parity n i stripe ctxs = .ok c1 ∧
        covered_upto pdo.array_info pc valid c1 (i + n) 0 ∧ all_cover pdo.array_info c1 := by
  induction n with
  | zero => intro i stripe ctxs _ h1 h2; exact ⟨ctxs, rfl, h1, h2⟩
  | succ n ih =>
    intro i stripe ctxs hin h1 h2
    have hcs : pdo.array_info.chunksize < 4294967296 := by
      have := Nat.le_mul_of_pos_right (pdo.array_info.chunksize * 512)
        (by omega : 0 < data_disks pdo.array_info)
      omega
    have hscan := read_runs_eq_scan pdo k pc valid i stripe (by omega) (valid.length + 1) 0
      ctxs false (Nat.zero_le _) (by omega)
    obtain ⟨c1, l1, e1, a1, _, a3⟩ := scan_columns_inv pdo k pc valid i stripe hfit hctx
      (by omega) pdo.array_info.chunksize 0 ctxs false (by omega) h1
      (fun h => by simp at h) h2
    simp only [read_rows, RtlFindFirstRunClear]
    rw [hscan, Nat.sub_zero, hvalid, e1]
    simp only
    have e : i + (n + 1) = i + 1 + n := by omega
    rw [e]
    refine ih (i + 1) _ c1 (by omega) ?_ a3
    intro r c hc
    rw [a1 r c hc]
    constructor
    · rintro ⟨h, _⟩; exact ⟨h, by omega⟩
    · rintro ⟨h, h'⟩; exact ⟨h, by omega⟩

/-- C8: for an array whose chunk size is a multiple of 32 sectors, the read
requests `flush_partial_chunk` builds for an entry cover exactly the sectors
(row `i`, column `j`) whose pending bit `i * chunksize + j` is set while some
row `r < data_disks` has pending bit `r * chunksize + j` clear; every request
covers at least one such sector, so an entry with an entirely clear bitmap
produces no request. -/
theorem read_set_minimal_and_complete (pdo : set_pdo) (k : kernel) (pc : partial_chunk)
    (h32 : pdo.array_info.chunksize % 32 = 0)
    (hfit : pdo.array_info.chunksize * 512 * data_disks pdo.array_info < 4294967296)
    (hdd : 0 < data_disks pdo.array_info)
    (hvl : pdo.array_info.chunksize / 8 ≤ k.valid_len)
    (hctx : ∀ d s e, NT_SUCCESS (k.io_context_status d s e) = true) :
    ∃ ctxs, flush_partial_chunk_reads pdo k pc = .ok ctxs ∧
      (∀ i j, j < pdo.array_info.chunksize →
        ((∃ ctx ∈ ctxs, covers pdo.array_info ctx i j) ↔
          (i < data_disks pdo.array_info ∧
            RtlCheckBit pc.bmp (i * pdo.array_info.chunksize + j) = true ∧
            ∃ r, r < data_disks pdo.array_info ∧
              RtlCheckBit pc.bmp (r * pdo.array_info.chunksize + j) = false))) ∧
      (∀ ctx ∈ ctxs, ∃ i j, j < pdo.array_info.chunksize ∧ covers pdo.array_info ctx i j) ∧
      ((∀ t, RtlCheckBit pc.bmp t = false) → ctxs = []) := by
  obtain ⟨v1, v2⟩ := valid_bmp_spec pdo k pc (by omega) hfit hdd hvl
  obtain ⟨c1, e1, a1, a2⟩ := read_rows_inv pdo k pc (valid_bmp pdo k pc)
    (get_parity_volume pdo.array_info pc.offset) hfit hctx v1 (data_disks pdo.array_info) 0
    (get_physical_stripe pdo.array_info 0 (get_parity_volume pdo.array_info pc.offset)) []
    (by omega) (fun r c _ => by simp) (fun ctx h => by simp at h)
  have hmain : ∀ i j, j < pdo.array_info.chunksize →
      ((∃ ctx ∈ c1.reverse, covers pdo.array_info ctx i j) ↔
        (i < data_disks pdo.array_info ∧
          RtlCheckBit pc.bmp (i * pdo.array_info.chunksize + j) = true ∧
          ∃ r, r < data_disks pdo.array_info ∧
            RtlCheckBit pc.bmp (r * pdo.array_info.chunksize + j) = false)) := by
    intro i j hj
    have hv : RtlCheckBit (valid_bmp pdo k pc) j = false ↔
        ∃ r, r < data_disks pdo.array_info ∧
          RtlCheckBit pc.bmp (r * pdo.array_info.chunksize + j) = false := by
      have := v2 j hj
      unfold RtlCheckBit
      constructor
      · intro h
        by_contra hne
        have hall : ∀ r, r < data_disks pdo.array_info →
            pc.bmp.getD (r * pdo.array_info.chunksize + j) false = true := by
          intro r hr
          by_contra hr1
          exact hne ⟨r, hr, by simpa using hr1⟩
        rw [this.mpr hall] at h
        simp at h
      · rintro ⟨r, hr, hr1⟩
        by_contra hne
        have := this.mp (by simpa using hne) r hr
        rw [hr1] at this
        simp at this
    simp only [List.mem_reverse]
    rw [a1 i j hj, Nat.zero_add, to_read, hv]
    constructor
    · rintro ⟨⟨h1, h2⟩, h3⟩
      exact ⟨by omega, h1, h2⟩
    · rintro ⟨h1, h2, h3⟩
      exact ⟨⟨h2, h3⟩, Or.inl h1⟩
  have hall : ∀ ctx ∈ c1.reverse,
      ∃ i j, j < pdo.array_info.chunksize ∧ covers pdo.array_info ctx i j := by
    intro ctx h
    exact a2 ctx (List.mem_reverse.mp h)
  refine ⟨c1.reverse, ?_, hmain, hall, ?_⟩
  · simp only [flush_partial_chunk_reads, e1]
  · intro hclear
    cases hrev : c1.reverse with
    | nil => rfl
    | cons x xs =>
      obtain ⟨i, j, hj, hc⟩ := hall x (by rw [hrev]; simp)
      have := (hmain i j hj).mp ⟨x, by rw [hrev]; simp, hc⟩
      rw [hclear] at this
      simp at this

theorem read_set_minimal_and_complete_witness :
    ∃ ctxs, flush_partial_chunk_reads scenario_array scenario_kernel
        (scenario_chunks.headD ⟨0, [], fun _ => 0⟩) = .ok ctxs ∧
      (∀ i j, j < scenario_array.array_info.chunksize →
        ((∃ ctx ∈ ctxs, covers scenario_array.array_info ctx i j) ↔
          (i < data_disks scenario_array.array_info ∧
            RtlCheckBit (scenario_chunks.headD ⟨0, [], fun _ => 0⟩).bmp
              (i * scenario_array.array_info.chunksize + j) = true ∧
            ∃ r, r < data_disks scenario_array.array_info ∧
              RtlCheckBit (scenario_chunks.headD ⟨0, [], fun _ => 0⟩).bmp
                (r * scenario_array.array_info.chunksize + j) = false))) ∧
      (∀ ctx ∈ ctxs, ∃ i j, j < scenario_array.array_info.chunksize ∧
        covers scenario_array.array_info ctx i j) ∧
      ((∀ t, RtlCheckBit (scenario_chunks.headD ⟨0, [], fun _ => 0⟩).bmp t = false) →
        ctxs = []) :=
  read_set_minimal_and_complete scenario_array scenario_kernel
    (scenario_chunks.headD ⟨0, [], fun _ => 0⟩) (by decide) (by decide) (by decide) (by decide)
    (fun _ _ _ => rfl)

/-! ## The worked scenario -/

set_option maxRecDepth 1000000

/-- C10 as stated fails: in the scenario the entry's only request goes to
member disk 1; member disk 0 holds data row 1, which has been written, and is
not read. -/
theorem scenario_does_not_read_disk_0 :
    cache_bitmaps scenario_chunks
        = [(1966080, List.replicate 16 false ++ List.replicate 112 true
            ++ List.replicate 16 false ++ List.replicate 240 true)] ∧
      (scenario_chunks.map (fun pc =>
          (flush_partial_chunk_reads scenario_array scenario_kernel pc).toOption.map
            (fun ctxs => ctxs.map (fun ctx => ctx.sc)))) = [some [1]] ∧
      get_physical_stripe scenario_array.array_info 1
        (get_parity_volume scenario_array.array_info 1966080) = 0 := by
  decide

/-- C10 (amended): in the scenario (parity on disk 2; data rows 0, 1, 2 on
disks 3, 0, 1) reconciliation of the entry builds exactly one read: the same
8 KiB column (16 sectors from column 0) of the one remaining unwritten row,
row 2, from member disk 1, into the buffer at `2 * 65536`. -/
theorem scenario_reads :
    scenario_chunks.map (fun pc =>
        (flush_partial_chunk_reads scenario_array scenario_kernel pc).toOption)
      = [some [{ sc := 1, stripe_start := 655360 + 2048 * 512,
                 stripe_end := 655360 + 2048 * 512 + 8192,
                 va2 := 2 * 65536, Status := STATUS_SUCCESS }]] ∧
      get_parity_volume scenario_array.array_info 1966080 = 2 ∧
      get_physical_stripe scenario_array.array_info 0 2 = 3 ∧
      get_physical_stripe scenario_array.array_info 1 2 = 0 ∧
      get_physical_stripe scenario_array.array_info 2 2 = 1 := by
  decide

/-! ## The cache: ordering, error propagation, copy-and-clear -/

theorem add_partial_chunk_from_offsets (pdo : set_pdo) (k : kernel) (offset co length : Nat)
    (data : Nat → Nat) (chunks : List partial_chunk) :
    ∀ x ∈ (add_partial_chunk_from pdo k offset co length data chunks).chunks,
      x.offset = co ∨ ∃ y ∈ chunks, x.offset = y.offset := by
  have hnew : ∀ rest : List partial_chunk,
      ∀ x ∈ (add_new_chunk pdo k offset co length data rest).chunks,
        x.offset = co ∨ ∃ y ∈ rest, x.offset = y.offset := by
    intro rest x hx
    rw [add_new_chunk_chunks] at hx
    rcases List.mem_append.mp hx with h | h
    · exact Or.inl (add_new_chunk_offset _ _ _ _ _ _ x h)
    · exact Or.inr ⟨x, h, rfl⟩
  induction chunks with
  | nil => simpa [add_partial_chunk_from] using hnew []
  | cons pc rest ih =>
    intro x hx
    by_cases h1 : pc.offset = co
    · simp only [add_partial_chunk_from, h1, if_true] at hx
      have hx' : x = copy_and_clear pc offset co length data ∨ x ∈ rest := by
        split at hx
        · split at hx
          · exact Or.inr hx
          · exact List.mem_cons.mp hx
        · exact List.mem_cons.mp hx
      rcases hx' with h | h
      · left; rw [h, copy_and_clear_offset, h1]
      · exact Or.inr ⟨x, List.mem_cons_of_mem _ h, rfl⟩
    · by_cases h2 : pc.offset > co
      · simp only [add_partial_chunk_from, h1, h2, if_true, if_false] at hx
        exact hnew (pc :: rest) x hx
      · simp only [add_partial_chunk_from, h1, h2, if_false] at hx
        rcases List.mem_cons.mp hx with h | h
        · exact Or.inr ⟨pc, List.mem_cons_self _ _, by rw [h]⟩
        · rcases ih x h with h | ⟨y, hy, h⟩
          · exact Or.inl h
          · exact Or.inr ⟨y, List.mem_cons_of_mem _ hy, h⟩

theorem add_partial_chunk_from_sorted (pdo : set_pdo) (k : kernel) (offset co length : Nat)
    (data : Nat → Nat) (chunks : List partial_chunk)
    (hs : chunks.Pairwise (fun x y => x.offset < y.offset)) :
    (add_partial_chunk_from pdo k offset co length data chunks).chunks.Pairwise
      (fun x y => x.offset < y.offset) := by
  have hnew : ∀ rest : List partial_chunk, rest.Pairwise (fun x y => x.offset < y.offset) →
      (∀ y ∈ rest, co < y.offset) →
      (add_new_chunk pdo k offset co length data rest).chunks.Pairwise
        (fun x y => x.offset < y.offset) := by
    intro rest hr hgt
    unfold add_new_chunk
    split
    · refine List.pairwise_cons.mpr ⟨?_, hr⟩
      intro y hy
      rw [copy_and_clear_offset]
      exact hgt y hy
    · exact hr
  induction chunks with
  | nil => simpa [add_partial_chunk_from] using hnew [] List.Pairwise.nil (by simp)
  | cons pc rest ih =>
    obtain ⟨hhead, hrest⟩ := List.pairwise_cons.mp hs
    by_cases h1 : pc.offset = co
    · simp only [add_partial_chunk_from, h1, if_true]
      have hm : (copy_and_clear pc offset co length data :: rest).Pairwise
          (fun x y => x.offset < y.offset) := by
        refine List.pairwise_cons.mpr ⟨?_, hrest⟩
        intro y hy
        rw [copy_and_clear_offset]
        exact hhead y hy
      split
      · split
        · exact hrest
        · exact hm
      · exact hm
    · by_cases h2 : pc.offset > co
      · simp only [add_partial_chunk_from, h1, h2, if_true, if_false]
        refine hnew (pc :: rest) hs ?_
        intro y hy
        rcases List.mem_cons.mp hy with h | h
        · rw [h]; exact h2
        · have := hhead y h
          omega
      · simp only [add_partial_chunk_from, h1, h2, if_false]
        refine List.pairwise_cons.mpr ⟨?_, ih hrest⟩
        intro y hy
        rcases add_partial_chunk_from_offsets pdo k offset co length data rest y hy with h | ⟨z, hz, h⟩
        · omega
        · rw [h]; exact hhead z hz

/-- C11: if the cache list is strictly ascending by chunk offset and every
chunk offset is a multiple of `full_chunk`, the same holds after
`add_partial_chunk`, for every offset, length and data and whichever path the
call takes (merge, insertion, finalisation and removal, failure), and after
`flush_chunks`. -/
theorem cache_ordering_invariant (pdo : set_pdo) (k : kernel) (chunks : List partial_chunk)
    (offset length : Nat) (data : Nat → Nat) (h : cache_ordered pdo.array_info chunks) :
    cache_ordered pdo.array_info (add_partial_chunk pdo k chunks offset length data).chunks ∧
      cache_ordered pdo.array_info (flush_chunks pdo k chunks).chunks := by
  refine ⟨⟨add_partial_chunk_from_sorted pdo k offset _ length data chunks h.1, ?_⟩, ?_⟩
  · intro x hx
    rcases add_partial_chunk_from_offsets pdo k offset _ length data chunks x hx with e | ⟨y, hy, e⟩
    · rw [e]
      exact Nat.sub_mod_eq_zero_of_mod_eq (Nat.mod_mod _ _).symm
    · rw [e]; exact h.2 y hy
  · rw [flush_chunks_empties]
    exact ⟨List.Pairwise.nil, by simp⟩

theorem cache_ordering_invariant_witness :
    cache_ordered small_array.array_info
        (add_partial_chunk small_array kernel_ok one_sector_pending 8192 1024
          (fun _ => 2)).chunks ∧
      cache_ordered small_array.array_info
        (flush_chunks small_array kernel_ok one_sector_pending).chunks :=
  cache_ordering_invariant small_array kernel_ok one_sector_pending 8192 1024 (fun _ => 2)
    ⟨by decide, by decide⟩

/-- In an ascending cache an entry is preceded only by entries below it. -/
theorem sorted_split (chunks : List partial_chunk) (e : partial_chunk)
    (hs : chunks.Pairwise (fun x y => x.offset < y.offset)) (he : e ∈ chunks) :
    ∃ pre post, chunks = pre ++ e :: post ∧ (∀ x ∈ pre, x.offset < e.offset) ∧
      (∀ x ∈ post, e.offset < x.offset) := by
  obtain ⟨pre, post, hsplit⟩ := List.append_of_mem he
  refine ⟨pre, post, hsplit, ?_, ?_⟩
  · intro x hx
    rw [hsplit] at hs
    exact (List.pairwise_append.mp hs).2.2 x hx e (List.mem_cons_self _ _)
  · intro x hx
    rw [hsplit] at hs
    exact (List.pairwise_cons.mp (List.pairwise_append.mp hs).2.1).1 x hx

/-- C12: when `add_partial_chunk` merges a write into the existing entry `e`
of an ascending cache and the merge leaves its bitmap entirely clear, the call
reconciles the merged entry; if `flush_partial_chunk` returns a non-success
status, the call returns exactly that status and the merged entry is still in
the list at the same position; if it succeeds, the call returns
`STATUS_SUCCESS` and the entry is removed. -/
theorem merge_path_error_propagation (pdo : set_pdo) (k : kernel) (chunks : List partial_chunk)
    (e : partial_chunk) (offset length : Nat) (data : Nat → Nat)
    (hs : chunks.Pairwise (fun x y => x.offset < y.offset)) (he : e ∈ chunks)
    (hoff : e.offset = offset - offset % full_chunk pdo.array_info)
    (hclear : RtlAreBitsClear
      (copy_and_clear e offset (offset - offset % full_chunk pdo.array_info) length data).bmp 0
      (chunk_bits pdo.array_info) = true) :
    ∃ pre post, chunks = pre ++ e :: post ∧
      (add_partial_chunk pdo k chunks offset length data).flushed
        = [copy_and_clear e offset (offset - offset % full_chunk pdo.array_info) length data] ∧
      (NT_SUCCESS (flush_partial_chunk pdo k
          (copy_and_clear e offset (offset - offset % full_chunk pdo.array_info) length data))
          = false →
        (add_partial_chunk pdo k chunks offset length data).Status
            = flush_partial_chunk pdo k
              (copy_and_clear e offset (offset - offset % full_chunk pdo.array_info) length data) ∧
          (add_partial_chunk pdo k chunks offset length data).chunks
            = pre ++ copy_and_clear e offset (offset - offset % full_chunk pdo.array_info)
                length data :: post) ∧
      (NT_SUCCESS (flush_partial_chunk pdo k
          (copy_and_clear e offset (offset - offset % full_chunk pdo.array_info) length data))
          = true →
        (add_partial_chunk pdo k chunks offset length data).Status = STATUS_SUCCESS ∧
          (add_partial_chunk pdo k chunks offset length data).chunks = pre ++ post) := by
  obtain ⟨pre, post, hsplit, hpre, _⟩ := sorted_split chunks e hs he
  refine ⟨pre, post, hsplit, ?_⟩
  have hstep : add_partial_chunk pdo k chunks offset length data
      = { Status := (add_partial_chunk_from pdo k offset
            (offset - offset % full_chunk pdo.array_info) length data (e :: post)).Status
          chunks := pre ++ (add_partial_chunk_from pdo k offset
            (offset - offset % full_chunk pdo.array_info) length data (e :: post)).chunks
          flushed := (add_partial_chunk_from pdo k offset
            (offset - offset % full_chunk pdo.array_info) length data (e :: post)).flushed } := by
    unfold add_partial_chunk
    rw [hsplit]
    exact add_partial_chunk_from_append pdo k _ _ _ _ pre (e :: post)
      (fun x hx => by rw [← hoff]; exact hpre x hx)
  rw [hstep]
  simp only [add_partial_chunk_from, hoff, if_true, hclear]
  by_cases hf : NT_SUCCESS (flush_partial_chunk pdo k
      (copy_and_clear e offset (offset - offset % full_chunk pdo.array_info) length data)) = true
  · simp [hf]
  · simp [hf]

theorem merge_path_error_propagation_witness :
    ∃ pre post, one_sector_pending = pre ++ one_sector_pending.headD ⟨0, [], fun _ => 0⟩ :: post ∧
      (add_partial_chunk small_array kernel_no_valid one_sector_pending 7680 512
          (fun _ => 1)).flushed
        = [copy_and_clear (one_sector_pending.headD ⟨0, [], fun _ => 0⟩) 7680
            (7680 - 7680 % full_chunk small_array.array_info) 512 (fun _ => 1)] ∧
      (NT_SUCCESS (flush_partial_chunk small_array kernel_no_valid
          (copy_and_clear (one_sector_pending.headD ⟨0, [], fun _ => 0⟩) 7680
            (7680 - 7680 % full_chunk small_array.array_info) 512 (fun _ => 1))) = false →
        (add_partial_chunk small_array kernel_no_valid one_sector_pending 7680 512
            (fun _ => 1)).Status
            = flush_partial_chunk small_array kernel_no_valid
              (copy_and_clear (one_sector_pending.headD ⟨0, [], fun _ => 0⟩) 7680
                (7680 - 7680 % full_chunk small_array.array_info) 512 (fun _ => 1)) ∧
          (add_partial_chunk small_array kernel_no_valid one_sector_pending 7680 512
            (fun _ => 1)).chunks
            = pre ++ copy_and_clear (one_sector_pending.headD ⟨0, [], fun _ => 0⟩) 7680
                (7680 - 7680 % full_chunk small_array.array_info) 512 (fun _ => 1) :: post) ∧
      (NT_SUCCESS (flush_partial_chunk small_array kernel_no_valid
          (copy_and_clear (one_sector_pending.headD ⟨0, [], fun _ => 0⟩) 7680
            (7680 - 7680 % full_chunk small_array.array_info) 512 (fun _ => 1))) = true →
        (add_partial_chunk small_array kernel_no_valid one_sector_pending 7680 512
            (fun _ => 1)).Status = STATUS_SUCCESS ∧
          (add_partial_chunk small_array kernel_no_valid one_sector_pending 7680 512
            (fun _ => 1)).chunks = pre ++ post) :=
  merge_path_error_propagation small_array kernel_no_valid one_sector_pending
    (one_sector_pending.headD ⟨0, [], fun _ => 0⟩) 7680 512 (fun _ => 1)
    (by decide) (List.mem_of_mem_head? rfl) (by decide) (by decide)

theorem entry_at_above (co : Nat) (l : List partial_chunk) (h : ∀ y ∈ l, co < y.offset) :
    entry_at l co = none ∧ l.filter (fun pc => pc.offset ≠ co) = l := by
  constructor
  · unfold entry_at
    rw [List.find?_eq_none]
    intro x hx
    have := h x hx
    simp; omega
  · rw [List.filter_eq_self]
    intro x hx
    have := h x hx
    simp; omega

theorem add_new_chunk_eq (pdo : set_pdo) (k : kernel) (offset co length : Nat)
    (data : Nat → Nat) (rest : List partial_chunk) (halloc : k.pool_alloc = true) :
    add_new_chunk pdo k offset co length data rest
      = { Status := STATUS_SUCCESS
          chunks := copy_and_clear (new_partial_chunk pdo k co) offset co length data :: rest
          flushed := [] } := by
  simp [add_new_chunk, halloc, new_partial_chunk]

/-- A call that does not finalise leaves, as the entry for the chunk offset,
the previous entry (a new one if there was none) with the write copied and
cleared in; the other entries stay as they were. -/
theorem add_partial_chunk_from_entry (pdo : set_pdo) (k : kernel) (offset co length : Nat)
    (data : Nat → Nat) (chunks : List partial_chunk)
    (hs : chunks.Pairwise (fun x y => x.offset < y.offset))
    (halloc : k.pool_alloc = true)
    (hnofin : ∀ pc ∈ (add_partial_chunk_from pdo k offset co length data chunks).flushed,
      NT_SUCCESS (flush_partial_chunk pdo k pc) = false) :
    entry_at (add_partial_chunk_from pdo k offset co length data chunks).chunks co
        = some (copy_and_clear ((entry_at chunks co).getD (new_partial_chunk pdo k co))
            offset co length data) ∧
      (add_partial_chunk_from pdo k offset co length data chunks).chunks.filter
          (fun pc => pc.offset ≠ co)
        = chunks.filter (fun pc => pc.offset ≠ co) := by
  have hnew : ∀ rest : List partial_chunk, (∀ y ∈ rest, co < y.offset) →
      entry_at (add_new_chunk pdo k offset co length data rest).chunks co
          = some (copy_and_clear ((entry_at rest co).getD (new_partial_chunk pdo k co))
              offset co length data) ∧
        (add_new_chunk pdo k offset co length data rest).chunks.filter
            (fun pc => pc.offset ≠ co)
          = rest.filter (fun pc => pc.offset ≠ co) := by
    intro rest hgt
    obtain ⟨e1, e2⟩ := entry_at_above co rest hgt
    rw [add_new_chunk_eq _ _ _ _ _ _ _ halloc, e1]
    constructor
    · simp [entry_at, copy_and_clear_offset, new_partial_chunk]
    · simp [List.filter_cons, copy_and_clear_offset, new_partial_chunk]
  induction chunks with
  | nil => simpa [add_partial_chunk_from] using hnew [] (by simp)
  | cons pc rest ih =>
    obtain ⟨hhead, hrest⟩ := List.pairwise_cons.mp hs
    by_cases h1 : pc.offset = co
    · have hgt : ∀ y ∈ rest, co < y.offset := fun y hy => by rw [← h1]; exact hhead y hy
      obtain ⟨e1, e2⟩ := entry_at_above co rest hgt
      have hold : entry_at (pc :: rest) co = some pc := by simp [entry_at, h1]
      rw [hold]
      simp only [add_partial_chunk_from, h1, if_true, Option.getD_some] at hnofin ⊢
      by_cases hc : RtlAreBitsClear (copy_and_clear pc offset co length data).bmp 0
          (chunk_bits pdo.array_info) = true
      · simp only [hc, if_true] at hnofin ⊢
        by_cases hf : NT_SUCCESS (flush_partial_chunk pdo k
            (copy_and_clear pc offset co length data)) = true
        · simp only [hf, if_true] at hnofin
          have := hnofin _ (List.mem_singleton.mpr rfl)
          rw [hf] at this
          exact absurd this (by simp)
        · simp only [hf, if_false, Bool.false_eq_true]
          constructor
          · simp [entry_at, copy_and_clear_offset, h1]
          · simp [List.filter_cons, copy_and_clear_offset, h1]
      · simp only [hc, if_false, Bool.false_eq_true]
        constructor
        · simp [entry_at, copy_and_clear_offset, h1]
        · simp [List.filter_cons, copy_and_clear_offset, h1]
    · by_cases h2 : pc.offset > co
      · simp only [add_partial_chunk_from, h1, h2, if_true, if_false]
        refine hnew (pc :: rest) ?_
        intro y hy
        rcases List.mem_cons.mp hy with h | h
        · rw [h]; exact h2
        · have := hhead y h
          omega
      · simp only [add_partial_chunk_from, h1, h2, if_false] at hnofin ⊢
        obtain ⟨i1, i2⟩ := ih hrest hnofin
        constructor
        · have : entry_at (pc :: rest) co = entry_at rest co := by
            simp [entry_at, List.find?_cons, h1]
          rw [this, ← i1]
          simp [entry_at, List.find?_cons, h1]
        · simp only [List.filter_cons, i2]

/-- C13: for a write with `rel = offset - chunk_offset` and
`rel + length ≤ full_chunk`, after an `add_partial_chunk` call on an ascending
cache that does not finalise (and whose new-entry allocation, if any,
succeeds), the entry for the chunk offset holds `data` in buffer bytes
`[rel, rel + length)`, and its bitmap is the previous one (all bits set if
there was no entry) with exactly the bits `[rel/512, rel/512 + length/512)`
cleared; the other bytes of a pre-existing buffer and all other entries are
unchanged, and a merge into an existing entry sets no bit. -/
theorem copy_and_clear_postcondition (pdo : set_pdo) (k : kernel) (chunks : List partial_chunk)
    (offset length co rel : Nat) (data : Nat → Nat)
    (hco : co = offset - offset % full_chunk pdo.array_info) (hrel : rel = offset - co)
    (hlen : rel + length ≤ full_chunk pdo.array_info)
    (hs : chunks.Pairwise (fun x y => x.offset < y.offset))
    (halloc : k.pool_alloc = true)
    (hnofin : ∀ pc ∈ (add_partial_chunk pdo k chunks offset length data).flushed,
      NT_SUCCESS (flush_partial_chunk pdo k pc) = false) :
    ∃ e1, entry_at (add_partial_chunk pdo k chunks offset length data).chunks co = some e1 ∧
      (∀ b, b < length → e1.data (rel + b) = data b) ∧
      e1.bmp.length = (((entry_at chunks co).map (fun e0 => e0.bmp)).getD
        (List.replicate (chunk_bits pdo.array_info) true)).length ∧
      (∀ t, t < e1.bmp.length →
        e1.bmp.getD t false =
          if rel / 512 ≤ t ∧ t < rel / 512 + length / 512 then false
          else (((entry_at chunks co).map (fun e0 => e0.bmp)).getD
            (List.replicate (chunk_bits pdo.array_info) true)).getD t false) ∧
      (∀ e0, entry_at chunks co = some e0 →
        (∀ b, ¬ (rel ≤ b ∧ b < rel + length) → e1.data b = e0.data b) ∧
        (∀ t, e1.bmp.getD t false = true → e0.bmp.getD t false = true)) ∧
      (add_partial_chunk pdo k chunks offset length data).chunks.filter
          (fun pc => pc.offset ≠ co)
        = chunks.filter (fun pc => pc.offset ≠ co) := by
  have hfc : full_chunk pdo.array_info < 4294967296 := by
    unfold full_chunk u32; omega
  have hu : u32 (rel / 512) = rel / 512 := by
    unfold u32; omega
  obtain ⟨h1, h2⟩ := add_partial_chunk_from_entry pdo k offset
    (offset - offset % full_chunk pdo.array_info) length data chunks hs halloc hnofin
  unfold add_partial_chunk
  rw [← hco] at h1 h2
  rw [← hco]
  refine ⟨_, h1, ?_, ?_, ?_, ?_, h2⟩
  · intro b hb
    simp only [copy_and_clear, RtlCopyMemory, ← hrel]
    rw [if_pos ⟨by omega, by omega⟩]
    congr 1
    omega
  · simp only [copy_and_clear, RtlClearBits, fill_bits_length]
    cases entry_at chunks co with
    | none => simp [new_partial_chunk, RtlSetBits, fill_bits_length, RtlInitializeBitMap]
    | some e0 => rfl
  · intro t ht
    simp only [copy_and_clear, RtlClearBits, fill_bits_length] at ht
    simp only [copy_and_clear, RtlClearBits, fill_bits_getD, ← hrel, hu]
    have hcond : (rel / 512 ≤ t ∧ t < rel / 512 + length / 512 ∧
        t < ((entry_at chunks co).getD (new_partial_chunk pdo k co)).bmp.length)
        ↔ (rel / 512 ≤ t ∧ t < rel / 512 + length / 512) :=
      ⟨fun h => ⟨h.1, h.2.1⟩, fun h => ⟨h.1, h.2, ht⟩⟩
    simp only [hcond]
    split
    · rfl
    · cases hent : entry_at chunks co with
      | none =>
        rw [hent] at ht
        have hl := (new_chunk_bits ((List.range ((chunk_bits pdo.array_info + 7) / 8)).map
          (fun b => k.pool_data (full_chunk pdo.array_info + b))) (chunk_bits pdo.array_info))
        have ht' : t < chunk_bits pdo.array_info := by
          by_contra hge
          simp [new_partial_chunk, RtlSetBits, fill_bits_length, RtlInitializeBitMap] at ht
          omega
        have := (hl t ht').1
        simp only [Option.getD_none, Option.map_none', new_partial_chunk]
        rw [this]
        simp [List.getD_eq_getElem?_getD, List.getElem?_replicate, ht']
      | some e0 => rfl
  · intro e0 he0
    rw [he0]
    constructor
    · intro b hb
      simp only [copy_and_clear, RtlCopyMemory, ← hrel, Option.getD_some]
      rw [if_neg hb]
    · intro t ht
      simp only [copy_and_clear, RtlClearBits, fill_bits_getD, Option.getD_some] at ht
      split at ht
      · exact absurd ht (by simp)
      · exact ht

theorem copy_and_clear_postcondition_witness :
    ∃ e1, entry_at (add_partial_chunk small_array kernel_ok one_sector_pending 512 1024
        (fun _ => 7)).chunks 0 = some e1 ∧
      (∀ b, b < 1024 → e1.data (512 + b) = (fun _ => 7) b) ∧
      e1.bmp.length = (((entry_at one_sector_pending 0).map (fun e0 => e0.bmp)).getD
        (List.replicate (chunk_bits small_array.array_info) true)).length ∧
      (∀ t, t < e1.bmp.length →
        e1.bmp.getD t false =
          if 512 / 512 ≤ t ∧ t < 512 / 512 + 1024 / 512 then false
          else (((entry_at one_sector_pending 0).map (fun e0 => e0.bmp)).getD
            (List.replicate (chunk_bits small_array.array_info) true)).getD t false) ∧
      (∀ e0, entry_at one_sector_pending 0 = some e0 →
        (∀ b, ¬ (512 ≤ b ∧ b < 512 + 1024) → e1.data b = e0.data b) ∧
        (∀ t, e1.bmp.getD t false = true → e0.bmp.getD t false = true)) ∧
      (add_partial_chunk small_array kernel_ok one_sector_pending 512 1024
          (fun _ => 7)).chunks.filter (fun pc => pc.offset ≠ 0)
        = one_sector_pending.filter (fun pc => pc.offset ≠ 0) :=
  copy_and_clear_postcondition small_array kernel_ok one_sector_pending 512 1024 0 512
    (fun _ => 7) (by decide) (by decide) (by decide) (by decide) rfl (by decide)

theorem wait_reads_append (k : kernel) (pre post : List io_context) :
    ∀ S, wait_reads k (pre ++ post) S = wait_reads k post (wait_reads k pre S) := by
  induction pre with
  | nil => intro S; rfl
  | cons x xs ih =>
    intro S
    show wait_reads k (x :: (xs ++ post)) S = _
    simp only [wait_reads, ih]

theorem wait_reads_all_success (k : kernel) (l : List io_context)
    (h : ∀ x ∈ l, NT_SUCCESS (final_status k x) = true) :
    ∀ S, wait_reads k l S = S := by
  induction l with
  | nil => intro S; rfl
  | cons x xs ih =>
    intro S
    have hx : NT_SUCCESS (if x.Status = STATUS_PENDING then k.iosb_Status x else x.Status)
        = true := h x (List.mem_cons_self _ _)
    simp only [wait_reads, hx, if_true]
    exact ih (fun y hy => h y (List.mem_cons_of_mem _ hy)) S

theorem wait_reads_last_failure (k : kernel) (pre post : List io_context) (ctx : io_context)
    (S : NTSTATUS) (hf : NT_SUCCESS (final_status k ctx) = false)
    (hpost : ∀ x ∈ post, NT_SUCCESS (final_status k x) = true) :
    wait_reads k (pre ++ ctx :: post) S = final_status k ctx := by
  have hx : NT_SUCCESS (if ctx.Status = STATUS_PENDING then k.iosb_Status ctx else ctx.Status)
      = false := hf
  rw [wait_reads_append]
  simp only [wait_reads, hx, Bool.false_eq_true, if_false]
  exact wait_reads_all_success k post hpost _

theorem wait_reads_success_iff (k : kernel) (l : List io_context) :
    ∀ S, NT_SUCCESS (wait_reads k l S) = true ↔
      (NT_SUCCESS S = true ∧ ∀ x ∈ l, NT_SUCCESS (final_status k x) = true) := by
  induction l with
  | nil => intro S; simp [wait_reads]
  | cons x xs ih =>
    intro S
    simp only [wait_reads, ih, List.mem_cons, forall_eq_or_imp]
    by_cases hx : NT_SUCCESS (if x.Status = STATUS_PENDING then k.iosb_Status x else x.Status)
        = true
    · have hx' : NT_SUCCESS (final_status k x) = true := hx
      simp only [hx, if_true, hx', true_and]
    · have hx' : ¬ NT_SUCCESS (final_status k x) = true := hx
      have hx2 : NT_SUCCESS (if x.Status = STATUS_PENDING then k.iosb_Status x else x.Status)
          = false := by simpa using hx
      simp only [hx2, Bool.false_eq_true, if_false, false_and, and_false, iff_false, not_and]
      exact ⟨fun h => h.elim, fun h => hx' h.2.1⟩

theorem valid_rows_finalisers (pdo : set_pdo) (k : kernel)
    (f6 f45 : partial_chunk → List Bool → NTSTATUS) (pc : partial_chunk) (n : Nat) :
    ∀ i valid, valid_rows pdo (with_finalisers k f6 f45) pc n i valid
      = valid_rows pdo k pc n i valid := by
  induction n with
  | zero => intro i valid; rfl
  | succ n ih => intro i valid; simp only [valid_rows, ih]; rfl

theorem valid_bmp_finalisers (pdo : set_pdo) (k : kernel)
    (f6 f45 : partial_chunk → List Bool → NTSTATUS) (pc : partial_chunk) :
    valid_bmp pdo (with_finalisers k f6 f45) pc = valid_bmp pdo k pc := by
  simp only [valid_bmp, valid_buf, valid_rows_finalisers]
  rfl

theorem read_run_finalisers (pdo : set_pdo) (k : kernel)
    (f6 f45 : partial_chunk → List Bool → NTSTATUS) (pc : partial_chunk) (i stripe n : Nat) :
    ∀ j ctxs last, read_run pdo (with_finalisers k f6 f45) pc i stripe n j ctxs last
      = read_run pdo k pc i stripe n j ctxs last := by
  induction n with
  | zero => intro j ctxs last; rfl
  | succ n ih =>
    intro j ctxs last
    simp only [read_run]
    have : read_sector pdo (with_finalisers k f6 f45) pc i stripe j ctxs last
        = read_sector pdo k pc i stripe j ctxs last := rfl
    rw [this]
    cases read_sector pdo k pc i stripe j ctxs last with
    | error st => rfl
    | ok p => exact ih _ _ _

theorem read_runs_finalisers (pdo : set_pdo) (k : kernel)
    (f6 f45 : partial_chunk → List Bool → NTSTATUS) (pc : partial_chunk) (valid : List Bool)
    (i stripe fuel : Nat) :
    ∀ rl idx ctxs last,
      read_runs pdo (with_finalisers k f6 f45) pc valid i stripe fuel rl idx ctxs last
        = read_runs pdo k pc valid i stripe fuel rl idx ctxs last := by
  induction fuel with
  | zero => intro rl idx ctxs last; rfl
  | succ fuel ih =>
    intro rl idx ctxs last
    simp only [read_runs, read_run_finalisers]
    split
    · rfl
    · cases read_run pdo k pc i stripe rl idx ctxs last with
      | error st => rfl
      | ok p => exact ih _ _ _ _

theorem read_rows_finalisers (pdo : set_pdo) (k : kernel)
    (f6 f45 : partial_chunk → List Bool → NTSTATUS) (pc : partial_chunk) (valid : List Bool)
    (parity n : Nat) :
    ∀ i stripe ctxs, read_rows pdo (with_finalisers k f6 f45) pc valid parity n i stripe ctxs
      = read_rows pdo k pc valid parity n i stripe ctxs := by
  induction n with
  | zero => intro i stripe ctxs; rfl
  | succ n ih =>
    intro i stripe ctxs
    simp only [read_rows, read_runs_finalisers]
    cases read_runs pdo k pc valid i stripe (valid.length + 1) (RtlFindFirstRunClear valid).1
        (RtlFindFirstRunClear valid).2 ctxs false with
    | error st => rfl
    | ok p => exact ih _ _ _

theorem flush_partial_chunk_reads_finalisers (pdo : set_pdo) (k : kernel)
    (f6 f45 : partial_chunk → List Bool → NTSTATUS) (pc : partial_chunk) :
    flush_partial_chunk_reads pdo (with_finalisers k f6 f45) pc
      = flush_partial_chunk_reads pdo k pc := by
  simp only [flush_partial_chunk_reads, valid_bmp_finalisers, read_rows_finalisers]

theorem dispatch_reads_finalisers (k : kernel)
    (f6 f45 : partial_chunk → List Bool → NTSTATUS) (l : List io_context) :
    dispatch_reads (with_finalisers k f6 f45) l = dispatch_reads k l := by
  induction l with
  | nil => rfl
  | cons x xs ih =>
    simp only [dispatch_reads, ih]
    rfl

theorem wait_reads_finalisers (k : kernel)
    (f6 f45 : partial_chunk → List Bool → NTSTATUS) (l : List io_context) :
    ∀ S, wait_reads (with_finalisers k f6 f45) l S = wait_reads k l S := by
  induction l with
  | nil => intro S; rfl
  | cons x xs ih =>
    intro S
    simp only [wait_reads, ih]
    rfl
/-- C17: once a non-empty list of reads has been built and dispatched, the
wait loop looks at every request; it succeeds exactly when every final status
is a success status; otherwise `flush_partial_chunk` returns the final status
of the last failing request in dispatch order, whatever the parity finalisers
would return (they are not called); when all succeed the result is the
finaliser's. -/
theorem wait_for_all_last_failure_wins (pdo : set_pdo) (k : kernel) (pc : partial_chunk)
    (ctxs sent : List io_context) (hvalid : k.valid_alloc = true)
    (hreads : flush_partial_chunk_reads pdo k pc = .ok ctxs) (hne : ctxs ≠ [])
    (hsent : dispatch_reads k ctxs = .ok sent) :
    (NT_SUCCESS (wait_reads k sent STATUS_SUCCESS) = true ↔
        ∀ ctx ∈ sent, NT_SUCCESS (final_status k ctx) = true) ∧
      (∀ pre ctx post, sent = pre ++ ctx :: post →
        NT_SUCCESS (final_status k ctx) = false →
        (∀ x ∈ post, NT_SUCCESS (final_status k x) = true) →
        wait_reads k sent STATUS_SUCCESS = final_status k ctx ∧
          flush_partial_chunk pdo k pc = final_status k ctx ∧
          ∀ f6 f45, flush_partial_chunk pdo (with_finalisers k f6 f45) pc
            = final_status k ctx) ∧
      ((∀ ctx ∈ sent, NT_SUCCESS (final_status k ctx) = true) →
        flush_partial_chunk pdo k pc =
          if pdo.array_info.level = RAID_LEVEL_6 then
            k.flush_partial_chunk_raid6 pc (valid_bmp pdo k pc)
          else k.flush_partial_chunk_raid45 pc (valid_bmp pdo k pc)) := by
  have hemp : ctxs.isEmpty = false := by
    cases ctxs with
    | nil => exact absurd rfl hne
    | cons x xs => rfl
  have hflush : ∀ f6 f45, flush_partial_chunk pdo (with_finalisers k f6 f45) pc =
      if NT_SUCCESS (wait_reads k sent STATUS_SUCCESS) = true then
        (if pdo.array_info.level = RAID_LEVEL_6 then f6 pc (valid_bmp pdo k pc)
          else f45 pc (valid_bmp pdo k pc))
      else wait_reads k sent STATUS_SUCCESS := by
    intro f6 f45
    have hv : (with_finalisers k f6 f45).valid_alloc = true := hvalid
    simp only [flush_partial_chunk, hv, if_true, flush_partial_chunk_reads_finalisers, hreads,
      hemp, Bool.false_eq_true, if_false, dispatch_reads_finalisers, hsent,
      wait_reads_finalisers, valid_bmp_finalisers]
    rfl
  have hk : with_finalisers k k.flush_partial_chunk_raid6 k.flush_partial_chunk_raid45 = k := rfl
  refine ⟨?_, ?_, ?_⟩
  · rw [wait_reads_success_iff]
    exact ⟨fun h => h.2, fun h => ⟨rfl, h⟩⟩
  · intro pre ctx post hsplit hf hpost
    have hw : wait_reads k sent STATUS_SUCCESS = final_status k ctx := by
      rw [hsplit]; exact wait_reads_last_failure k pre post ctx _ hf hpost
    have hall : ∀ f6 f45, flush_partial_chunk pdo (with_finalisers k f6 f45) pc
        = final_status k ctx := by
      intro f6 f45
      rw [hflush, hw, hf]
      simp
    refine ⟨hw, ?_, hall⟩
    have := hall k.flush_partial_chunk_raid6 k.flush_partial_chunk_raid45
    rwa [hk] at this
  · intro hall
    have hw : NT_SUCCESS (wait_reads k sent STATUS_SUCCESS) = true :=
      (wait_reads_success_iff k sent _).mpr ⟨rfl, hall⟩
    have := hflush k.flush_partial_chunk_raid6 k.flush_partial_chunk_raid45
    rw [hk, hw] at this
    simpa using this

theorem wait_for_all_last_failure_wins_witness :
    (NT_SUCCESS (wait_reads kernel_read_error [one_sector_read STATUS_IO_DEVICE_ERROR]
          STATUS_SUCCESS) = true ↔
        ∀ ctx ∈ [one_sector_read STATUS_IO_DEVICE_ERROR],
          NT_SUCCESS (final_status kernel_read_error ctx) = true) ∧
      (∀ pre ctx post,
        [one_sector_read STATUS_IO_DEVICE_ERROR] = pre ++ ctx :: post →
        NT_SUCCESS (final_status kernel_read_error ctx) = false →
        (∀ x ∈ post, NT_SUCCESS (final_status kernel_read_error x) = true) →
        wait_reads kernel_read_error [one_sector_read STATUS_IO_DEVICE_ERROR] STATUS_SUCCESS
            = final_status kernel_read_error ctx ∧
          flush_partial_chunk small_array kernel_read_error one_sector_entry
            = final_status kernel_read_error ctx ∧
          ∀ f6 f45, flush_partial_chunk small_array (with_finalisers kernel_read_error f6 f45)
            one_sector_entry = final_status kernel_read_error ctx) ∧
      ((∀ ctx ∈ [one_sector_read STATUS_IO_DEVICE_ERROR],
          NT_SUCCESS (final_status kernel_read_error ctx) = true) →
        flush_partial_chunk small_array kernel_read_error one_sector_entry =
          if small_array.array_info.level = RAID_LEVEL_6 then
            kernel_read_error.flush_partial_chunk_raid6 one_sector_entry
              (valid_bmp small_array kernel_read_error one_sector_entry)
          else kernel_read_error.flush_partial_chunk_raid45 one_sector_entry
            (valid_bmp small_array kernel_read_error one_sector_entry)) :=
  wait_for_all_last_failure_wins small_array kernel_read_error one_sector_entry
    [one_sector_read STATUS_SUCCESS] [one_sector_read STATUS_IO_DEVICE_ERROR]
    rfl (by rfl) (by simp) (by rfl)

/-! ## Draining the cache -/

/-- Without 32-bit wrap-around (`raid_disks ≤ 2^31`), `get_physical_stripe`
in plain arithmetic. -/
theorem get_physical_stripe_plain (a : mdraid_array_info) (s p : Nat)
    (h31 : a.raid_disks ≤ 2147483648) (hp : p < a.raid_disks) (hs : s + 1 < a.raid_disks) :
    get_physical_stripe a s p =
      if a.level = RAID_LEVEL_6 then
        if asymmetric a then
          s + (if p + 1 = a.raid_disks then 1 else (if s ≥ p then 2 else 0))
        else (if p + s + 2 < a.raid_disks then p + s + 2 else p + s + 2 - a.raid_disks)
      else
        if a.level = RAID_LEVEL_5 ∧ asymmetric a then s + (if s ≥ p then 1 else 0)
        else (if p + s + 1 < a.raid_disks then p + s + 1 else p + s + 1 - a.raid_disks) := by
  have hq : (u32 (p + 1) % a.raid_disks = 0) ↔ p + 1 = a.raid_disks := by
    have h1 : u32 (p + 1) < 2 * a.raid_disks := by simp only [u32]; omega
    rw [mod_of_lt_two_mul _ _ h1]
    simp only [u32]
    split <;> omega
  have h1 : u32 (u32 (p + s) + 1) % a.raid_disks
      = if p + s + 1 < a.raid_disks then p + s + 1 else p + s + 1 - a.raid_disks := by
    have e : u32 (u32 (p + s) + 1) = p + s + 1 := by simp only [u32]; omega
    rw [e, mod_of_lt_two_mul _ _ (by omega)]
  have h2 : u32 (u32 (p + s) + 2) % a.raid_disks
      = if p + s + 2 < a.raid_disks then p + s + 2 else p + s + 2 - a.raid_disks := by
    have e : u32 (u32 (p + s) + 2) = p + s + 2 := by simp only [u32]; omega
    rw [e, mod_of_lt_two_mul _ _ (by omega)]
  have e3 : ∀ c, c ≤ 2 → u32 (s + c) = s + c := by
    intro c hc; simp only [u32]; omega
  simp only [get_physical_stripe, hq, h1, h2]
  split
  · split
    · rw [e3 _ (by split <;> [omega; (split <;> omega)])]
    · rfl
  · split
    · rw [e3 _ (by split <;> omega)]
    · rfl

/-- Without 32-bit wrap-around, the advance of `stripe` in plain arithmetic. -/
theorem next_stripe_plain (a : mdraid_array_info) (stripe p : Nat)
    (h31 : a.raid_disks ≤ 2147483648) (hs : stripe < a.raid_disks) :
    next_stripe a stripe p =
      if asymmetric a then
        (if stripe + 1 = p then (if a.level = RAID_LEVEL_6 then stripe + 3 else stripe + 2)
          else stripe + 1)
      else (if stripe + 1 < a.raid_disks then stripe + 1 else 0) := by
  have e1 : u32 (stripe + 1) = stripe + 1 := by simp only [u32]; omega
  have e2 : u32 (stripe + 1 + 1) = stripe + 2 := by simp only [u32]; omega
  have e3 : u32 (stripe + 1 + 2) = stripe + 3 := by simp only [u32]; omega
  have e4 : (stripe + 1) % a.raid_disks = if stripe + 1 < a.raid_disks then stripe + 1 else 0 := by
    rw [mod_of_lt_two_mul _ _ (by omega)]
    split <;> omega
  simp only [next_stripe, e1, e2, e3, e4]

/-- One advance of `stripe` takes the disk of data ordinal `s` to the disk of
data ordinal `s + 1`. -/
theorem next_stripe_get_physical_stripe (a : mdraid_array_info) (offset s : Nat)
    (hl : a.level = RAID_LEVEL_4 ∨ a.level = RAID_LEVEL_5 ∨ a.level = RAID_LEVEL_6)
    (h31 : a.raid_disks ≤ 2147483648) (hN : 2 ≤ a.raid_disks)
    (hs : s + 1 < data_disks a) :
    next_stripe a (get_physical_stripe a s (get_parity_volume a offset))
        (get_parity_volume a offset)
      = get_physical_stripe a (s + 1) (get_parity_volume a offset) := by
  have hp := get_parity_volume_lt a offset hl (by omega) hN
  have hp4 : a.level = RAID_LEVEL_4 → get_parity_volume a offset = a.raid_disks - 1 := by
    intro h
    simp only [get_parity_volume, h, sub32, u32]; omega
  generalize get_parity_volume a offset = p at hp hp4 ⊢
  have hdd : data_disks a ≤ a.raid_disks - 1 ∧
      (a.level = RAID_LEVEL_6 → data_disks a = a.raid_disks - 2 ∨ a.raid_disks < 2) := by
    simp only [data_disks, sub32, u32]
    split <;> simp [*] <;> omega
  have hlt : get_physical_stripe a s p < a.raid_disks := by
    rw [get_physical_stripe_plain a s p h31 hp (by omega)]
    split
    · rename_i h6
      have := hdd.2 h6
      split <;> [skip; (split <;> omega)]
      split <;> [omega; (split <;> omega)]
    · split <;> [skip; (split <;> omega)]
      split <;> omega
  rw [next_stripe_plain a _ p h31 hlt, get_physical_stripe_plain a s p h31 hp (by omega),
    get_physical_stripe_plain a (s + 1) p h31 hp (by omega)]
  rcases hl with h | h | h
  · have := hp4 h
    simp only [h, reduceCtorEq, if_false, false_and]
    split_ifs <;> omega
  · simp only [h, reduceCtorEq, if_false, true_and]
    split_ifs <;> omega
  · have := hdd.2 h
    simp only [h, if_true]
    split_ifs <;> omega

/-- C16: for RAID-4, RAID-5 and RAID-6 with at most `2^31` member disks, every
layout and every chunk offset, the member-disk index `flush_partial_chunk` uses
for data row `i` (the variable `stripe`, started at `get_physical_stripe(0,
parity)` and advanced after every row) equals
`get_physical_stripe(i, get_parity_volume(chunk_offset))` for every
`i < data_disks`. -/
theorem row_stripe_eq_get_physical_stripe (a : mdraid_array_info) (offset i : Nat)
    (hl : a.level = RAID_LEVEL_4 ∨ a.level = RAID_LEVEL_5 ∨ a.level = RAID_LEVEL_6)
    (h31 : a.raid_disks ≤ 2147483648) (hN : 2 ≤ a.raid_disks)
    (hi : i < data_disks a) :
    row_stripe a (get_parity_volume a offset) i
      = get_physical_stripe a i (get_parity_volume a offset) := by
  induction i with
  | zero => rfl
  | succ n ih =>
    rw [row_stripe, ih (by omega)]
    exact next_stripe_get_physical_stripe a offset n hl h31 hN hi

theorem row_stripe_eq_get_physical_stripe_witness :
    row_stripe ⟨RAID_LEVEL_6, RAID_LAYOUT_LEFT_ASYMMETRIC, 128, 6⟩
        (get_parity_volume ⟨RAID_LEVEL_6, RAID_LAYOUT_LEFT_ASYMMETRIC, 128, 6⟩ 1048576) 3
      = get_physical_stripe ⟨RAID_LEVEL_6, RAID_LAYOUT_LEFT_ASYMMETRIC, 128, 6⟩ 3
        (get_parity_volume ⟨RAID_LEVEL_6, RAID_LAYOUT_LEFT_ASYMMETRIC, 128, 6⟩ 1048576) :=
  row_stripe_eq_get_physical_stripe ⟨RAID_LEVEL_6, RAID_LAYOUT_LEFT_ASYMMETRIC, 128, 6⟩
    1048576 3 (by decide) (by decide) (by decide) (by decide)
/-- C20: for RAID-4, RAID-5 and RAID-6 with `2 ≤ N ≤ 2^31` member disks
(`3 ≤ N` for RAID-6), every layout and every parity index `p < N`, the map
`s ↦ get_physical_stripe s p` on `s < data_disks` has every value below `N`, is
injective, and its image is exactly the disks other than `p` and, for RAID-6,
other than the Q slot `(p + 1) mod N`. -/
theorem data_ordinals_enumerate_data_disks (a : mdraid_array_info) (p : Nat)
    (hl : a.level = RAID_LEVEL_4 ∨ a.level = RAID_LEVEL_5 ∨ a.level = RAID_LEVEL_6)
    (h31 : a.raid_disks ≤ 2147483648) (hN : 2 ≤ a.raid_disks)
    (hN6 : a.level = RAID_LEVEL_6 → 3 ≤ a.raid_disks) (hp : p < a.raid_disks) :
    (∀ s, s < data_disks a → get_physical_stripe a s p < a.raid_disks) ∧
      (∀ s1 s2, s1 < data_disks a → s2 < data_disks a →
        get_physical_stripe a s1 p = get_physical_stripe a s2 p → s1 = s2) ∧
      (∀ d, d < a.raid_disks →
        ((∃ s, s < data_disks a ∧ get_physical_stripe a s p = d) ↔
          (d ≠ p ∧ (a.level = RAID_LEVEL_6 → d ≠ (p + 1) % a.raid_disks)))) := by
  have hdd : data_disks a = a.raid_disks - (if a.level = RAID_LEVEL_6 then 2 else 1) := by
    simp only [data_disks, sub32, u32]
    split <;> omega
  have hq : (p + 1) % a.raid_disks = if p + 1 < a.raid_disks then p + 1 else 0 := by
    rw [mod_of_lt_two_mul _ _ (by omega)]
    split <;> omega
  have hpl : ∀ s, s < data_disks a → get_physical_stripe a s p = _ :=
    fun s hs => get_physical_stripe_plain a s p h31 hp (by rw [hdd] at hs; split at hs <;> omega)
  rw [hq]
  refine ⟨?_, ?_, ?_⟩
  · intro s hs
    rw [hpl s hs]
    rw [hdd] at hs
    rcases hl with h | h | h
    · simp only [h, reduceCtorEq, if_false, false_and] at hs ⊢
      split_ifs <;> omega
    · simp only [h, reduceCtorEq, if_false, true_and] at hs ⊢
      split_ifs <;> omega
    · have := hN6 h
      simp only [h, if_true] at hs ⊢
      split_ifs <;> omega
  · intro s1 s2 hs1 hs2
    rw [hpl s1 hs1, hpl s2 hs2]
    rw [hdd] at hs1 hs2
    rcases hl with h | h | h
    · simp only [h, reduceCtorEq, if_false, false_and] at hs1 hs2 ⊢
      split_ifs <;> omega
    · simp only [h, reduceCtorEq, if_false, true_and] at hs1 hs2 ⊢
      split_ifs <;> omega
    · have := hN6 h
      simp only [h, if_true] at hs1 hs2 ⊢
      split_ifs <;> omega
  · intro d hd
    constructor
    · rintro ⟨s, hs, he⟩
      rw [hpl s hs] at he
      rw [hdd] at hs
      rcases hl with h | h | h
      · simp only [h, reduceCtorEq, if_false, false_and, false_implies, and_true] at hs he ⊢
        split_ifs at he <;> omega
      · simp only [h, reduceCtorEq, if_false, true_and, false_implies, and_true] at hs he ⊢
        split_ifs at he <;> omega
      · have := hN6 h
        simp only [h, if_true, true_implies] at hs he ⊢
        split_ifs at he ⊢ <;> omega
    · rintro ⟨hdp, hdq⟩
      rcases hl with h | h | h
      · simp only [h, reduceCtorEq, if_false] at hdd
        refine ⟨if d > p then d - p - 1 else d + a.raid_disks - p - 1, ?_, ?_⟩
        · split <;> omega
        · rw [get_physical_stripe_plain a _ p h31 hp (by split <;> omega)]
          simp only [h, reduceCtorEq, if_false, false_and]
          split_ifs <;> omega
      · simp only [h, reduceCtorEq, if_false] at hdd
        by_cases has : asymmetric a = true
        · refine ⟨if d < p then d else d - 1, ?_, ?_⟩
          · split <;> omega
          · rw [get_physical_stripe_plain a _ p h31 hp (by split <;> omega)]
            simp only [h, reduceCtorEq, if_false, true_and, has, if_true]
            split_ifs <;> omega
        · refine ⟨if d > p then d - p - 1 else d + a.raid_disks - p - 1, ?_, ?_⟩
          · split <;> omega
          · rw [get_physical_stripe_plain a _ p h31 hp (by split <;> omega)]
            simp only [h, reduceCtorEq, if_false, true_and, has]
            split_ifs <;> omega
      · have h3 := hN6 h
        have hdq := hdq h
        simp only [h, if_true] at hdd
        by_cases has : asymmetric a = true
        · refine ⟨if p + 1 = a.raid_disks then d - 1 else if d < p then d else d - 2, ?_, ?_⟩
          · split_ifs at hdq ⊢ <;> omega
          · rw [get_physical_stripe_plain a _ p h31 hp (by split_ifs at hdq ⊢ <;> omega)]
            simp only [h, if_true, has]
            split_ifs at hdq ⊢ <;> omega
        · refine ⟨if d ≥ p + 2 then d - p - 2 else d + a.raid_disks - p - 2, ?_, ?_⟩
          · split_ifs at hdq ⊢ <;> omega
          · rw [get_physical_stripe_plain a _ p h31 hp (by split_ifs at hdq ⊢ <;> omega)]
            simp only [h, if_true, has, Bool.false_eq_true, if_false]
            split_ifs at hdq ⊢ <;> omega

theorem data_ordinals_enumerate_data_disks_witness :
    (∀ s, s < data_disks ⟨RAID_LEVEL_6, RAID_LAYOUT_LEFT_SYMMETRIC, 128, 5⟩ →
        get_physical_stripe ⟨RAID_LEVEL_6, RAID_LAYOUT_LEFT_SYMMETRIC, 128, 5⟩ s 4 < 5) ∧
      (∀ s1 s2, s1 < data_disks ⟨RAID_LEVEL_6, RAID_LAYOUT_LEFT_SYMMETRIC, 128, 5⟩ →
        s2 < data_disks ⟨RAID_LEVEL_6, RAID_LAYOUT_LEFT_SYMMETRIC, 128, 5⟩ →
        get_physical_stripe ⟨RAID_LEVEL_6, RAID_LAYOUT_LEFT_SYMMETRIC, 128, 5⟩ s1 4
          = get_physical_stripe ⟨RAID_LEVEL_6, RAID_LAYOUT_LEFT_SYMMETRIC, 128, 5⟩ s2 4 →
        s1 = s2) ∧
      (∀ d, d < 5 →
        ((∃ s, s < data_disks ⟨RAID_LEVEL_6, RAID_LAYOUT_LEFT_SYMMETRIC, 128, 5⟩ ∧
            get_physical_stripe ⟨RAID_LEVEL_6, RAID_LAYOUT_LEFT_SYMMETRIC, 128, 5⟩ s 4 = d) ↔
          (d ≠ 4 ∧ (RAID_LEVEL_6 = RAID_LEVEL_6 → d ≠ (4 + 1) % 5)))) :=
  data_ordinals_enumerate_data_disks ⟨RAID_LEVEL_6, RAID_LAYOUT_LEFT_SYMMETRIC, 128, 5⟩ 4
    (by decide) (by decide) (by decide) (by decide) (by decide)

/-! ## The valid bitmap when the chunk size is not a multiple of 8 -/

/-- C14 fails in the code for a chunk size that is not a multiple of 8 sectors
(the case of the FIXME at line 246).  With 12-sector chunks `flush_partial_chunk`
copies `12 / 8 = 1` byte of row 0 and ANDs in the one byte at byte offset
`1 * 12 / 8 = 1`, which holds bits 8 to 15 and not row 1 (bits 12 to 23).  After
a write of sector 12 (row 1, column 0): bit 0 of `valid` is set although
column 0 is written in row 1; bit 4 of `valid` is clear although column 4 is
pending in both rows; the reads built are those of column 4 and none of
column 0; and bit 8 of `valid` is whatever the fresh buffer held. -/
theorem valid_bmp_not_and_of_rows :
    row_one_written.bmp.getD (1 * 12 + 0) false = false ∧
      (valid_bmp twelve_sector_array kernel_ok row_one_written).getD 0 false = true ∧
      row_one_written.bmp.getD (0 * 12 + 4) false = true ∧
      row_one_written.bmp.getD (1 * 12 + 4) false = true ∧
      (valid_bmp twelve_sector_array kernel_ok row_one_written).getD 4 false = false ∧
      (flush_partial_chunk_reads twelve_sector_array kernel_ok row_one_written).toOption
        = some [{ sc := 0, stripe_start := 2048, stripe_end := 2560, va2 := 2048,
                  Status := STATUS_SUCCESS },
                { sc := 1, stripe_start := 2048, stripe_end := 2560, va2 := 8192,
                  Status := STATUS_SUCCESS }] ∧
      (valid_bmp twelve_sector_array kernel_ok row_one_written).getD 8 false = true ∧
      (valid_bmp twelve_sector_array { kernel_ok with valid_garbage := fun _ => 0 }
        row_one_written).getD 8 false = false := by
  decide

/-! ## The merge primitives against the byte-wise reference -/

/-- A block loop that has as much fuel as bytes to go stops by its own test:
fewer than `width` bytes remain. -/
theorem block_loop_exit (op : Nat → Nat → Nat) (width : Nat) (hw : 0 < width) (buf2 : List Nat)
    (fuel : Nat) : ∀ (buf1 : List Nat) (pos len : Nat), len ≤ fuel →
      (block_loop op width buf2 fuel buf1 pos len).2.2 < width := by
  induction fuel with
  | zero =>
    intro buf1 pos len hl
    simp only [block_loop]
    omega
  | succ fuel ih =>
    intro buf1 pos len hl
    simp only [block_loop]
    by_cases h : len ≥ width
    · simp only [h, if_true]
      exact ih _ _ _ (by omega)
    · simp only [h, if_false]
      omega

/-- C18: on byte buffers, `buf1` of at least `len` bytes, whatever `have_sse2`
and the addresses of the buffers, `do_and` leaves `buf1[k] = old buf1[k] AND buf2[k]`
and `do_xor` leaves `buf1[k] = old buf1[k] XOR buf2[k]` for every `k < len`,
and the bytes of `buf1` from `len` on as they were (`buf2` is only read); every
loop, given as much fuel as it has bytes to go, ends by its own test with fewer
than its width left. -/
theorem merge_primitives_bytewise (sse2 : Bool) (addr1 addr2 : Nat) (buf1 buf2 : List Nat)
    (len : Nat) (h1 : len ≤ buf1.length)
    (hb1 : ∀ k, k < len → buf1.getD k 0 < 256) (hb2 : ∀ k, k < len → buf2.getD k 0 < 256) :
    ((do_and sse2 addr1 addr2 buf1 buf2 len).length = buf1.length ∧
        (∀ k, k < len →
          (do_and sse2 addr1 addr2 buf1 buf2 len).getD k 0 = buf1.getD k 0 &&& buf2.getD k 0) ∧
        (∀ k, len ≤ k → (do_and sse2 addr1 addr2 buf1 buf2 len).getD k 0 = buf1.getD k 0)) ∧
      ((do_xor sse2 addr1 addr2 buf1 buf2 len).length = buf1.length ∧
        (∀ k, k < len →
          (do_xor sse2 addr1 addr2 buf1 buf2 len).getD k 0 = buf1.getD k 0 ^^^ buf2.getD k 0) ∧
        (∀ k, len ≤ k → (do_xor sse2 addr1 addr2 buf1 buf2 len).getD k 0 = buf1.getD k 0)) ∧
      (∀ (op : Nat → Nat → Nat) (width n pos : Nat) (buf : List Nat), 0 < width →
        (block_loop op width buf2 n buf pos n).2.2 < width) := by
  have key : ∀ op, lanewise op →
      (do_op op sse2 addr1 addr2 buf1 buf2 len).length = buf1.length ∧
        (∀ k, k < len →
          (do_op op sse2 addr1 addr2 buf1 buf2 len).getD k 0
            = op (buf1.getD k 0) (buf2.getD k 0)) ∧
        (∀ k, len ≤ k → (do_op op sse2 addr1 addr2 buf1 buf2 len).getD k 0 = buf1.getD k 0) := by
    intro op hop
    obtain ⟨hl, hg⟩ := do_op_spec op hop sse2 addr1 addr2 buf1 buf2 len
    refine ⟨hl, ?_, ?_⟩
    · intro k hk
      rw [hg k 0, if_pos ⟨hk, by omega⟩, Nat.mod_eq_of_lt (hb1 k hk),
        Nat.mod_eq_of_lt (hb2 k hk)]
    · intro k hk
      rw [hg k 0, if_neg (by omega)]
  exact ⟨key _ lanewise_and, key _ lanewise_xor,
    fun op width n pos buf hw => block_loop_exit op width hw buf2 n buf pos n (Nat.le_refl _)⟩

theorem merge_primitives_bytewise_witness :
    ((do_and true 4096 8192 ((List.range 24).map (fun k => 255 - k))
          ((List.range 24).map (fun k => 7 * k + 3)) 21).length = 24 ∧
        (∀ k, k < 21 →
          (do_and true 4096 8192 ((List.range 24).map (fun k => 255 - k))
              ((List.range 24).map (fun k => 7 * k + 3)) 21).getD k 0
            = ((List.range 24).map (fun k => 255 - k)).getD k 0
              &&& ((List.range 24).map (fun k => 7 * k + 3)).getD k 0) ∧
        (∀ k, 21 ≤ k →
          (do_and true 4096 8192 ((List.range 24).map (fun k => 255 - k))
              ((List.range 24).map (fun k => 7 * k + 3)) 21).getD k 0
            = ((List.range 24).map (fun k => 255 - k)).getD k 0)) ∧
      ((do_xor true 4096 8192 ((List.range 24).map (fun k => 255 - k))
          ((List.range 24).map (fun k => 7 * k + 3)) 21).length = 24 ∧
        (∀ k, k < 21 →
          (do_xor true 4096 8192 ((List.range 24).map (fun k => 255 - k))
              ((List.range 24).map (fun k => 7 * k + 3)) 21).getD k 0
            = ((List.range 24).map (fun k => 255 - k)).getD k 0
              ^^^ ((List.range 24).map (fun k => 7 * k + 3)).getD k 0) ∧
        (∀ k, 21 ≤ k →
          (do_xor true 4096 8192 ((List.range 24).map (fun k => 255 - k))
              ((List.range 24).map (fun k => 7 * k + 3)) 21).getD k 0
            = ((List.range 24).map (fun k => 255 - k)).getD k 0)) ∧
      (∀ (op : Nat → Nat → Nat) (width n pos : Nat) (buf : List Nat), 0 < width →
        (block_loop op width ((List.range 24).map (fun k => 7 * k + 3)) n buf pos n).2.2
          < width) :=
  merge_primitives_bytewise true 4096 8192 ((List.range 24).map (fun k => 255 - k))
    ((List.range 24).map (fun k => 7 * k + 3)) 21 (by decide) (by decide) (by decide)

/-! ## Read coalescing -/

/-- What `runs_upto` lists: exactly the maximal runs below `n`, each once and
apart from the others; and the newest run ends at `n` when column `n - 1` is one
of `need`. -/
theorem runs_upto_spec (need : Nat → Bool) (n : Nat) :
    (∀ j0 m, (j0, m) ∈ runs_upto need n ↔ maximal_run need n j0 m) ∧
      (runs_upto need n).Pairwise (fun r1 r2 => r2.1 + r2.2 < r1.1) ∧
      (0 < n → need (n - 1) = true →
        ∃ j0 m rest, runs_upto need n = (j0, m) :: rest ∧ j0 + m = n) := by
  induction n with
  | zero =>
    refine ⟨?_, List.Pairwise.nil, fun h => by omega⟩
    intro j0 m
    simp only [runs_upto, List.not_mem_nil, maximal_run, false_iff]
    rintro ⟨h1, h2, _⟩
    omega
  | succ n ih =>
    obtain ⟨hP, hQ, hR⟩ := ih
    by_cases hn : need n = true
    · -- column n extends the newest run or opens a new one
      cases hruns : runs_upto need n with
      | nil =>
        rw [hruns] at hP hR
        have hprev : n = 0 ∨ need (n - 1) = false := by
          by_cases h0 : n = 0
          · exact Or.inl h0
          · right
            by_contra hne
            obtain ⟨_, _, _, e, _⟩ := hR (by omega) (by simpa using hne)
            simp at e
        have e : runs_upto need (n + 1) = [(n, 1)] := by
          simp only [runs_upto, hn, if_true, hruns]
        rw [e]
        refine ⟨?_, by simp, fun _ _ => ⟨n, 1, [], rfl, rfl⟩⟩
        intro a b
        simp only [List.mem_singleton, Prod.mk.injEq]
        constructor
        · rintro ⟨rfl, rfl⟩
          refine ⟨by omega, by omega, ?_, hprev, Or.inl rfl⟩
          intro c h1 h2
          have : c = a := by omega
          rw [this]; exact hn
        · rintro ⟨h1, h2, h3, h4, h5⟩
          by_cases hab : a + b = n + 1
          · by_cases han : a = n
            · exact ⟨han, by omega⟩
            · exfalso
              have hc := h3 (n - 1) (by omega) (by omega)
              rcases hprev with h | h
              · omega
              · rw [hc] at h; simp at h
          · exfalso
            have hmax : maximal_run need n a b := by
              refine ⟨h1, by omega, h3, h4, ?_⟩
              rcases h5 with h | h
              · omega
              · exact Or.inr h
            have := (hP a b).mpr hmax
            simp at this
      | cons r rest =>
        obtain ⟨j0, m⟩ := r
        rw [hruns] at hP hQ hR
        have hhead := (hP j0 m).mp (List.mem_cons_self _ _)
        obtain ⟨g1, g2, g3, g4, g5⟩ := hhead
        have hrest : ∀ x ∈ rest, x.1 + x.2 < j0 := (List.pairwise_cons.mp hQ).1
        by_cases hext : j0 + m = n
        · have e : runs_upto need (n + 1) = (j0, m + 1) :: rest := by
            simp only [runs_upto, hn, if_true, hruns, hext]
          rw [e]
          refine ⟨?_, ?_, fun _ _ => ⟨j0, m + 1, rest, rfl, by omega⟩⟩
          · intro a b
            simp only [List.mem_cons, Prod.mk.injEq]
            constructor
            · rintro (⟨rfl, rfl⟩ | hmem)
              · refine ⟨by omega, by omega, ?_, g4, Or.inl (by omega)⟩
                intro c h1 h2
                by_cases hc : c = n
                · rw [hc]; exact hn
                · exact g3 c h1 (by omega)
              · have hlt := hrest (a, b) hmem
                obtain ⟨h1, h2, h3, h4, h5⟩ := (hP a b).mp (List.mem_cons_of_mem _ hmem)
                refine ⟨h1, by omega, h3, h4, ?_⟩
                rcases h5 with h | h
                · simp only at hlt; omega
                · exact Or.inr h
            · rintro ⟨h1, h2, h3, h4, h5⟩
              by_cases hab : a + b = n + 1
              · left
                have haj : a = j0 := by
                  by_contra hne
                  rcases Nat.lt_or_gt_of_ne hne with hlt | hgt
                  · have hc := h3 (j0 - 1) (by omega) (by omega)
                    rcases g4 with h | h
                    · omega
                    · rw [hc] at h; simp at h
                  · have hc : need (a - 1) = true := by
                      by_cases han : a - 1 = n
                      · rw [han]; exact hn
                      · exact g3 (a - 1) (by omega) (by omega)
                    rcases h4 with h | h
                    · omega
                    · rw [hc] at h; simp at h
                exact ⟨haj, by omega⟩
              · have hne : a + b ≠ n := by
                  intro h
                  rcases h5 with h' | h'
                  · omega
                  · rw [h, hn] at h'; simp at h'
                have hmax : maximal_run need n a b := by
                  refine ⟨h1, by omega, h3, h4, ?_⟩
                  rcases h5 with h | h
                  · omega
                  · exact Or.inr h
                have hmem := (hP a b).mpr hmax
                simp only [List.mem_cons, Prod.mk.injEq] at hmem
                rcases hmem with ⟨rfl, rfl⟩ | hmem
                · omega
                · exact Or.inr hmem
          · rw [List.pairwise_cons] at hQ ⊢
            exact ⟨fun x hx => by have := hQ.1 x hx; simpa using this, hQ.2⟩
        · have e : runs_upto need (n + 1) = (n, 1) :: (j0, m) :: rest := by
            simp only [runs_upto, hn, if_true, hruns, hext, if_false]
          have hprev : n = 0 ∨ need (n - 1) = false := by
            by_cases h0 : n = 0
            · exact Or.inl h0
            · right
              by_contra hne
              obtain ⟨j1, m1, rest1, e1, e2⟩ := hR (by omega) (by simpa using hne)
              simp only [List.cons.injEq, Prod.mk.injEq] at e1
              omega
          rw [e]
          refine ⟨?_, ?_, fun _ _ => ⟨n, 1, (j0, m) :: rest, rfl, rfl⟩⟩
          · intro a b
            rw [List.mem_cons, hP a b]
            simp only [Prod.mk.injEq]
            constructor
            · rintro (⟨rfl, rfl⟩ | ⟨h1, h2, h3, h4, h5⟩)
              · refine ⟨by omega, by omega, ?_, hprev, Or.inl rfl⟩
                intro c h1 h2
                have : c = a := by omega
                rw [this]; exact hn
              · have hne : a + b ≠ n := by
                  intro h
                  have hmem := (hP a b).mpr ⟨h1, h2, h3, h4, h5⟩
                  simp only [List.mem_cons, Prod.mk.injEq] at hmem
                  rcases hmem with ⟨rfl, rfl⟩ | hmem
                  · omega
                  · have := hrest (a, b) hmem
                    simp only at this
                    omega
                refine ⟨h1, by omega, h3, h4, ?_⟩
                rcases h5 with h | h
                · omega
                · exact Or.inr h
            · rintro ⟨h1, h2, h3, h4, h5⟩
              by_cases hab : a + b = n + 1
              · left
                by_cases han : a = n
                · exact ⟨han, by omega⟩
                · exfalso
                  have hc := h3 (n - 1) (by omega) (by omega)
                  rcases hprev with h | h
                  · omega
                  · rw [hc] at h; simp at h
              · right
                have hne : a + b ≠ n := by
                  intro h
                  rcases h5 with h' | h'
                  · omega
                  · rw [h, hn] at h'; simp at h'
                refine ⟨h1, by omega, h3, h4, ?_⟩
                rcases h5 with h | h
                · omega
                · exact Or.inr h
          · rw [List.pairwise_cons]
            refine ⟨?_, hQ⟩
            intro x hx
            rcases List.mem_cons.mp hx with rfl | hx
            · simp only; omega
            · have := hrest x hx
              simp only; omega
    · -- column n is not of need: the runs are those below n
      have hn0 : need n = false := by simpa using hn
      have e : runs_upto need (n + 1) = runs_upto need n := by
        simp only [runs_upto, hn0, Bool.false_eq_true, if_false]
      rw [e]
      refine ⟨?_, hQ, fun _ h => ?_⟩
      · intro a b
        rw [hP a b]
        constructor
        · rintro ⟨h1, h2, h3, h4, h5⟩
          refine ⟨h1, by omega, h3, h4, ?_⟩
          rcases h5 with h | h
          · right; rw [h]; exact hn0
          · exact Or.inr h
        · rintro ⟨h1, h2, h3, h4, h5⟩
          have hab : a + b ≠ n + 1 := by
            intro h
            have := h3 n (by omega) (by omega)
            rw [hn0] at this; simp at this
          refine ⟨h1, by omega, h3, h4, ?_⟩
          rcases h5 with h | h
          · omega
          · exact Or.inr h
      · simp only [Nat.add_sub_cancel] at h
        rw [hn0] at h; simp at h

theorem run_request_extend (pdo : set_pdo) (k : kernel) (pc : partial_chunk) (i stripe j0 m : Nat)
    (h : pc.offset / data_disks pdo.array_info + pdo.data_offset stripe * 512
      + (j0 + m + 1) * 512 < 18446744073709551616) :
    { run_request pdo k pc i stripe (j0, m) with
        stripe_end := u64 ((run_request pdo k pc i stripe (j0, m)).stripe_end + 512) }
      = run_request pdo k pc i stripe (j0, m + 1) := by
  have e : u64 (pc.offset / data_disks pdo.array_info + j0 * 512 + pdo.data_offset stripe * 512
      + m * 512 + 512)
      = pc.offset / data_disks pdo.array_info + j0 * 512 + pdo.data_offset stripe * 512
        + (m + 1) * 512 := by
    generalize pc.offset / data_disks pdo.array_info = B at h ⊢
    simp only [u64]; omega
  simp only [run_request, e]

/-- One column of the read loop, on requests that are the runs so far. -/
theorem read_sector_runs (pdo : set_pdo) (k : kernel) (pc : partial_chunk) (valid : List Bool)
    (i stripe n : Nat) (ctxs : List io_context)
    (hfit : pdo.array_info.chunksize * 512 * data_disks pdo.array_info < 4294967296)
    (hctx : ∀ d s e, NT_SUCCESS (k.io_context_status d s e) = true)
    (hphys : pc.offset / data_disks pdo.array_info + pdo.data_offset stripe * 512
      + pdo.array_info.chunksize * 512 < 18446744073709551616)
    (hi : i < data_disks pdo.array_info) (hn : n < pdo.array_info.chunksize)
    (hV : RtlCheckBit valid n = false) :
    read_sector pdo k pc i stripe n
        ((runs_upto (scan_reads pdo.array_info pc valid i) n).map
          (run_request pdo k pc i stripe) ++ ctxs)
        (!(runs_upto (scan_reads pdo.array_info pc valid i) n).isEmpty)
      = .ok ((runs_upto (scan_reads pdo.array_info pc valid i) (n + 1)).map
          (run_request pdo k pc i stripe) ++ ctxs,
        !(runs_upto (scan_reads pdo.array_info pc valid i) (n + 1)).isEmpty) := by
  have hB : i * pdo.array_info.chunksize + pdo.array_info.chunksize
      ≤ data_disks pdo.array_info * pdo.array_info.chunksize := by
    have := Nat.mul_le_mul_right pdo.array_info.chunksize (Nat.succ_le_of_lt hi)
    rwa [Nat.succ_mul] at this
  have e512 : pdo.array_info.chunksize * 512 * data_disks pdo.array_info
      = 512 * (data_disks pdo.array_info * pdo.array_info.chunksize) := by ring
  have hbit : u32 (u32 (i * pdo.array_info.chunksize) + n) = i * pdo.array_info.chunksize + n := by
    simp only [u32]; omega
  have hva : u32 (i * u32 (pdo.array_info.chunksize * 512)) + u32 (n * 512)
      = i * (pdo.array_info.chunksize * 512) + n * 512 := by
    have e1 : u32 (pdo.array_info.chunksize * 512) = pdo.array_info.chunksize * 512 := by
      simp only [u32]; omega
    have e2 : i * (pdo.array_info.chunksize * 512) = i * pdo.array_info.chunksize * 512 := by
      ring
    rw [e1]
    simp only [u32]
    omega
  have hS : stripe_start_of pdo pc stripe n
      = pc.offset / data_disks pdo.array_info + n * 512 + pdo.data_offset stripe * 512 := by
    rw [stripe_start_of_eq pdo pc stripe n (by omega)]
    generalize pc.offset / data_disks pdo.array_info = B at hphys ⊢
    omega
  have hS1 : u64 (pc.offset / data_disks pdo.array_info + n * 512 + pdo.data_offset stripe * 512
      + 512) = pc.offset / data_disks pdo.array_info + n * 512 + pdo.data_offset stripe * 512
      + 512 := by
    generalize pc.offset / data_disks pdo.array_info = B at hphys ⊢
    simp only [u64]; omega
  have hnew : io_context.mk stripe (stripe_start_of pdo pc stripe n)
        (u64 (stripe_start_of pdo pc stripe n + 512))
        (u32 (i * u32 (pdo.array_info.chunksize * 512)) + u32 (n * 512))
        (k.io_context_status stripe (stripe_start_of pdo pc stripe n)
          (u64 (stripe_start_of pdo pc stripe n + 512)))
      = run_request pdo k pc i stripe (n, 1) := by
    simp only [run_request, hS, hS1, hva, Nat.one_mul]
  by_cases hb : RtlCheckBit pc.bmp (i * pdo.array_info.chunksize + n) = true
  · have hneed : scan_reads pdo.array_info pc valid i n = true := by
      simp only [scan_reads, hb, hV, Bool.not_false, Bool.and_self]
    simp only [read_sector, hbit, hb, if_true, hctx, hnew]
    cases hruns : runs_upto (scan_reads pdo.array_info pc valid i) n with
    | nil =>
      simp only [runs_upto, hneed, if_true, hruns, List.map_nil, List.nil_append,
        List.isEmpty_nil, Bool.not_true, List.map_cons, List.isEmpty_cons, Bool.not_false,
        List.cons_append]
    | cons r rest =>
      obtain ⟨j0, m⟩ := r
      simp only [List.map_cons, List.cons_append, List.isEmpty_cons, Bool.not_false]
      by_cases hext : j0 + m = n
      · have hco : (run_request pdo k pc i stripe (j0, m)).stripe_end
            = stripe_start_of pdo pc stripe n := by
          rw [hS]
          simp only [run_request]
          generalize pc.offset / data_disks pdo.array_info = B
          omega
        rw [if_pos hco, run_request_extend pdo k pc i stripe j0 m
          (by generalize pc.offset / data_disks pdo.array_info = B at hphys ⊢; omega)]
        simp only [runs_upto, hneed, if_true, hruns, hext, List.map_cons, List.cons_append,
          List.isEmpty_cons, Bool.not_false]
      · have hco : (run_request pdo k pc i stripe (j0, m)).stripe_end
            ≠ stripe_start_of pdo pc stripe n := by
          rw [hS]
          simp only [run_request]
          generalize pc.offset / data_disks pdo.array_info = B
          omega
        rw [if_neg hco]
        simp only [runs_upto, hneed, if_true, hruns, hext, if_false, List.map_cons,
          List.cons_append, List.isEmpty_cons, Bool.not_false]
  · have hb0 : RtlCheckBit pc.bmp (i * pdo.array_info.chunksize + n) = false := by
      simpa using hb
    have hneed : scan_reads pdo.array_info pc valid i n = false := by
      simp only [scan_reads, hb0, Bool.false_and]
    simp only [read_sector, hbit, hb0, Bool.false_eq_true, if_false, runs_upto, hneed]

/-- The scan of the first `n` columns of a row leaves one request for every run
of columns to read, newest first, on top of the requests of the rows before. -/
theorem scan_columns_runs (pdo : set_pdo) (k : kernel) (pc : partial_chunk) (valid : List Bool)
    (i stripe : Nat) (ctxs : List io_context)
    (hfit : pdo.array_info.chunksize * 512 * data_disks pdo.array_info < 4294967296)
    (hctx : ∀ d s e, NT_SUCCESS (k.io_context_status d s e) = true)
    (hphys : pc.offset / data_disks pdo.array_info + pdo.data_offset stripe * 512
      + pdo.array_info.chunksize * 512 < 18446744073709551616)
    (hi : i < data_disks pdo.array_info) (n : Nat) (hn : n ≤ pdo.array_info.chunksize) :
    scan_columns pdo k pc valid i stripe n 0 ctxs false
      = .ok ((runs_upto (scan_reads pdo.array_info pc valid i) n).map
          (run_request pdo k pc i stripe) ++ ctxs,
        !(runs_upto (scan_reads pdo.array_info pc valid i) n).isEmpty) := by
  induction n with
  | zero => rfl
  | succ n ih =>
    rw [scan_columns_append, ih (by omega)]
    simp only [Nat.zero_add, scan_columns]
    by_cases hV : RtlCheckBit valid n = true
    · have hneed : scan_reads pdo.array_info pc valid i n = false := by
        simp only [scan_reads, hV, Bool.not_true, Bool.and_false]
      simp only [hV, if_true, runs_upto, hneed, Bool.false_eq_true, if_false]
    · have hV0 : RtlCheckBit valid n = false := by simpa using hV
      simp only [hV0, Bool.false_eq_true, if_false]
      rw [read_sector_runs pdo k pc valid i stripe n ctxs hfit hctx hphys hi (by omega) hV0]

/-- The row loop builds, row after row, one request for every run of columns to
read; row `i` is read from member `row_stripe i`. -/
theorem read_rows_runs (pdo : set_pdo) (k : kernel) (pc : partial_chunk) (valid : List Bool)
    (parity : Nat)
    (hfit : pdo.array_info.chunksize * 512 * data_disks pdo.array_info < 4294967296)
    (hctx : ∀ d s e, NT_SUCCESS (k.io_context_status d s e) = true)
    (hphys : ∀ d, pc.offset / data_disks pdo.array_info + pdo.data_offset d * 512
      + pdo.array_info.chunksize * 512 < 18446744073709551616)
    (hvalid : valid.length = pdo.array_info.chunksize) (n : Nat) :
    ∀ (i : Nat) (ctxs : List io_context), i + n ≤ data_disks pdo.array_info →
      read_rows pdo k pc valid parity n i (row_stripe pdo.array_info parity i) ctxs
        = .ok (((List.range' i n).flatMap (fun r =>
            ((runs_upto (scan_reads pdo.array_info pc valid r)
                pdo.array_info.chunksize).reverse).map
              (run_request pdo k pc r (row_stripe pdo.array_info parity r)))).reverse
            ++ ctxs) := by
  induction n with
  | zero => intro i ctxs _; rfl
  | succ n ih =>
    intro i ctxs hin
    have hcs : pdo.array_info.chunksize < 4294967296 := by
      have := Nat.le_mul_of_pos_right (pdo.array_info.chunksize * 512)
        (by omega : 0 < data_disks pdo.array_info)
      omega
    have hscan := read_runs_eq_scan pdo k pc valid i (row_stripe pdo.array_info parity i)
      (by omega) (valid.length + 1) 0 ctxs false (Nat.zero_le _) (by omega)
    have hrow := scan_columns_runs pdo k pc valid i (row_stripe pdo.array_info parity i) ctxs
      hfit hctx (hphys _) (by omega) pdo.array_info.chunksize (Nat.le_refl _)
    simp only [read_rows, RtlFindFirstRunClear]
    rw [hscan, Nat.sub_zero, hvalid, hrow]
    simp only
    have hnext : next_stripe pdo.array_info (row_stripe pdo.array_info parity i) parity
        = row_stripe pdo.array_info parity (i + 1) := rfl
    rw [hnext, ih (i + 1) _ (by omega), List.range'_succ, List.flatMap_cons, List.reverse_append,
      List.append_assoc, List.map_reverse, List.reverse_reverse]

/-- With a chunk size that is a multiple of 8 sectors, the loop's test on a
column is met exactly by the sectors pending in row `i` whose column has been
written in some row. -/
theorem scan_reads_iff (pdo : set_pdo) (k : kernel) (pc : partial_chunk)
    (hcs8 : pdo.array_info.chunksize % 8 = 0)
    (hfit : pdo.array_info.chunksize * 512 * data_disks pdo.array_info < 4294967296)
    (hdd : 0 < data_disks pdo.array_info)
    (hvl : pdo.array_info.chunksize / 8 ≤ k.valid_len) (i j : Nat)
    (hj : j < pdo.array_info.chunksize) :
    scan_reads pdo.array_info pc (valid_bmp pdo k pc) i j = true ↔
      (RtlCheckBit pc.bmp (i * pdo.array_info.chunksize + j) = true ∧
        ∃ r, r < data_disks pdo.array_info ∧
          RtlCheckBit pc.bmp (r * pdo.array_info.chunksize + j) = false) := by
  have hv := (valid_bmp_spec pdo k pc hcs8 hfit hdd hvl).2 j hj
  simp only [scan_reads, Bool.and_eq_true, Bool.not_eq_true']
  refine and_congr_right (fun _ => ?_)
  unfold RtlCheckBit at *
  constructor
  · intro h
    by_contra hne
    have hall : ∀ r, r < data_disks pdo.array_info →
        pc.bmp.getD (r * pdo.array_info.chunksize + j) false = true := by
      intro r hr
      by_contra hr1
      exact hne ⟨r, hr, by simpa using hr1⟩
    rw [hv.mpr hall] at h
    simp at h
  · rintro ⟨r, hr, hr1⟩
    by_contra hne
    have := hv.mp (by simpa using hne) r hr
    rw [hr1] at this
    simp at this

/-- What `needs_read` says: the sector is pending and some data row has the
column written. -/
theorem needs_read_iff (a : mdraid_array_info) (pc : partial_chunk) (i j : Nat) :
    needs_read a pc i j = true ↔
      (RtlCheckBit pc.bmp (i * a.chunksize + j) = true ∧
        ∃ r, r < data_disks a ∧ RtlCheckBit pc.bmp (r * a.chunksize + j) = false) := by
  simp only [needs_read, Bool.and_eq_true, List.any_eq_true, List.mem_range,
    Bool.not_eq_true']

/-- With a chunk size that is a multiple of 8 sectors, the loop reads exactly
the sectors that need reading. -/
theorem scan_reads_eq_needs_read (pdo : set_pdo) (k : kernel) (pc : partial_chunk)
    (hcs8 : pdo.array_info.chunksize % 8 = 0)
    (hfit : pdo.array_info.chunksize * 512 * data_disks pdo.array_info < 4294967296)
    (hdd : 0 < data_disks pdo.array_info)
    (hvl : pdo.array_info.chunksize / 8 ≤ k.valid_len) (i j : Nat)
    (hj : j < pdo.array_info.chunksize) :
    scan_reads pdo.array_info pc (valid_bmp pdo k pc) i j = needs_read pdo.array_info pc i j := by
  rw [Bool.eq_iff_iff, scan_reads_iff pdo k pc hcs8 hfit hdd hvl i j hj, needs_read_iff]

/-- The runs below `n` depend on the columns below `n` only. -/
theorem runs_upto_congr (f g : Nat → Bool) (n : Nat) (h : ∀ c, c < n → f c = g c) :
    runs_upto f n = runs_upto g n := by
  induction n with
  | zero => rfl
  | succ n ih =>
    simp only [runs_upto, ih (fun c hc => h c (by omega)), h n (by omega)]

/-- With a chunk size that is a multiple of 8 sectors, the requests
`flush_partial_chunk` builds are those of row 0, then those of row 1, and so
on. -/
theorem flush_partial_chunk_reads_rows (pdo : set_pdo) (k : kernel) (pc : partial_chunk)
    (hcs8 : pdo.array_info.chunksize % 8 = 0)
    (hfit : pdo.array_info.chunksize * 512 * data_disks pdo.array_info < 4294967296)
    (hdd : 0 < data_disks pdo.array_info)
    (hvl : pdo.array_info.chunksize / 8 ≤ k.valid_len)
    (hctx : ∀ d s e, NT_SUCCESS (k.io_context_status d s e) = true)
    (hphys : ∀ d, pc.offset / data_disks pdo.array_info + pdo.data_offset d * 512
      + pdo.array_info.chunksize * 512 < 18446744073709551616) :
    flush_partial_chunk_reads pdo k pc
      = .ok ((List.range (data_disks pdo.array_info)).flatMap (row_requests pdo k pc)) := by
  have hvalid : (valid_bmp pdo k pc).length = pdo.array_info.chunksize := by
    simp [valid_bmp, RtlInitializeBitMap]
  have h := read_rows_runs pdo k pc (valid_bmp pdo k pc)
    (get_parity_volume pdo.array_info pc.offset) hfit hctx hphys hvalid
    (data_disks pdo.array_info) 0 [] (by omega)
  have h0 : row_stripe pdo.array_info (get_parity_volume pdo.array_info pc.offset) 0
      = get_physical_stripe pdo.array_info 0 (get_parity_volume pdo.array_info pc.offset) := rfl
  have hruns : ∀ r, runs_upto (scan_reads pdo.array_info pc (valid_bmp pdo k pc) r)
        pdo.array_info.chunksize
      = runs_upto (needs_read pdo.array_info pc r) pdo.array_info.chunksize :=
    fun r => runs_upto_congr _ _ _
      (fun c hc => scan_reads_eq_needs_read pdo k pc hcs8 hfit hdd hvl r c hc)
  rw [h0] at h
  simp only [flush_partial_chunk_reads, h, List.append_nil, List.reverse_reverse,
    List.range_eq_range', hruns]
  rfl

theorem read_length_run_request (pdo : set_pdo) (k : kernel) (pc : partial_chunk)
    (i stripe j0 m : Nat) (hm : m * 512 < 4294967296) :
    read_length (run_request pdo k pc i stripe (j0, m)) = m * 512 := by
  simp only [read_length, run_request, sub64, u64, u32]
  generalize pc.offset / data_disks pdo.array_info = B
  omega

/-- C15: for a chunk size that is a multiple of 8 sectors, the read requests
`flush_partial_chunk` builds are, row after row, those of `row_requests`: for
data row `i`, one request for every maximal run of consecutive columns that
need reading (the sector is pending in row `i` and the column is written in
some data row), in ascending column order and each run once.  The request of
the run of `m` columns from `j0` reads the bytes from
`chunk_offset / data_disks + j0 * 512 + data_offset * 512` to `m * 512` bytes
further on the row's member disk, into the buffer at `i * chunk_size + j0 * 512`
(`run_request`).  Hence within a row each request ends before the next one
starts, on disk and in the buffer (disjoint and not adjacent), and every length
is a positive multiple of 512. -/
theorem read_coalescing (pdo : set_pdo) (k : kernel) (pc : partial_chunk)
    (hcs8 : pdo.array_info.chunksize % 8 = 0)
    (hfit : pdo.array_info.chunksize * 512 * data_disks pdo.array_info < 4294967296)
    (hdd : 0 < data_disks pdo.array_info)
    (hvl : pdo.array_info.chunksize / 8 ≤ k.valid_len)
    (hctx : ∀ d s e, NT_SUCCESS (k.io_context_status d s e) = true)
    (hphys : ∀ d, pc.offset / data_disks pdo.array_info + pdo.data_offset d * 512
      + pdo.array_info.chunksize * 512 < 18446744073709551616) :
    flush_partial_chunk_reads pdo k pc
        = .ok ((List.range (data_disks pdo.array_info)).flatMap (row_requests pdo k pc)) ∧
      ∀ i, i < data_disks pdo.array_info →
        (∀ j, needs_read pdo.array_info pc i j = true ↔
          (RtlCheckBit pc.bmp (i * pdo.array_info.chunksize + j) = true ∧
            ∃ r, r < data_disks pdo.array_info ∧
              RtlCheckBit pc.bmp (r * pdo.array_info.chunksize + j) = false)) ∧
        ∃ runs : List (Nat × Nat),
          row_requests pdo k pc i = runs.map (run_request pdo k pc i
            (row_stripe pdo.array_info (get_parity_volume pdo.array_info pc.offset) i)) ∧
          (∀ j0 m, (j0, m) ∈ runs ↔
            maximal_run (needs_read pdo.array_info pc i) pdo.array_info.chunksize j0 m) ∧
          runs.Pairwise (fun r1 r2 => r1.1 + r1.2 < r2.1) ∧
          (row_requests pdo k pc i).Pairwise (fun x y =>
            x.stripe_end < y.stripe_start ∧ x.va2 + read_length x < y.va2) ∧
          ∀ x ∈ row_requests pdo k pc i, ∃ m, 0 < m ∧ read_length x = m * 512 ∧
            x.stripe_end = x.stripe_start + m * 512 := by
  refine ⟨flush_partial_chunk_reads_rows pdo k pc hcs8 hfit hdd hvl hctx hphys, ?_⟩
  intro i hi
  refine ⟨fun j => needs_read_iff pdo.array_info pc i j, ?_⟩
  obtain ⟨hP, hQ, _⟩ := runs_upto_spec (needs_read pdo.array_info pc i)
    pdo.array_info.chunksize
  have hcs : pdo.array_info.chunksize * 512 < 4294967296 := by
    have := Nat.le_mul_of_pos_right (pdo.array_info.chunksize * 512)
      (by omega : 0 < data_disks pdo.array_info)
    omega
  have hsep : ((runs_upto (needs_read pdo.array_info pc i)
      pdo.array_info.chunksize).reverse).Pairwise (fun r1 r2 => r1.1 + r1.2 < r2.1) :=
    List.pairwise_reverse.mpr hQ
  have hmem : ∀ r, r ∈ (runs_upto (needs_read pdo.array_info pc i)
      pdo.array_info.chunksize).reverse → 0 < r.2 ∧ r.1 + r.2 ≤ pdo.array_info.chunksize := by
    intro r hr
    have := (hP r.1 r.2).mp (List.mem_reverse.mp hr)
    exact ⟨this.1, this.2.1⟩
  refine ⟨_, rfl, fun j0 m => by rw [List.mem_reverse]; exact hP j0 m, hsep, ?_, ?_⟩
  · unfold row_requests
    rw [List.pairwise_map]
    refine List.Pairwise.imp_of_mem ?_ hsep
    intro r1 r2 h1 h2 h12
    obtain ⟨a1, a2⟩ := hmem r1 h1
    obtain ⟨j1, m1⟩ := r1
    obtain ⟨j2, m2⟩ := r2
    simp only at a1 a2 h12
    rw [read_length_run_request pdo k pc i _ j1 m1 (by omega)]
    simp only [run_request]
    generalize pc.offset / data_disks pdo.array_info = B
    constructor <;> omega
  · intro x hx
    unfold row_requests at hx
    obtain ⟨r, hr, rfl⟩ := List.mem_map.mp hx
    obtain ⟨a1, a2⟩ := hmem r hr
    obtain ⟨j1, m1⟩ := r
    simp only at a1 a2
    refine ⟨m1, a1, ?_, rfl⟩
    exact read_length_run_request pdo k pc i _ j1 m1 (by omega)

theorem read_coalescing_witness :
    flush_partial_chunk_reads small_array kernel_ok two_runs_entry
        = .ok ((List.range (data_disks small_array.array_info)).flatMap
          (row_requests small_array kernel_ok two_runs_entry)) ∧
      ∀ i, i < data_disks small_array.array_info →
        (∀ j, needs_read small_array.array_info two_runs_entry i j = true ↔
          (RtlCheckBit two_runs_entry.bmp (i * small_array.array_info.chunksize + j) = true ∧
            ∃ r, r < data_disks small_array.array_info ∧
              RtlCheckBit two_runs_entry.bmp (r * small_array.array_info.chunksize + j)
                = false)) ∧
        ∃ runs : List (Nat × Nat),
          row_requests small_array kernel_ok two_runs_entry i
            = runs.map (run_request small_array kernel_ok two_runs_entry i
              (row_stripe small_array.array_info
                (get_parity_volume small_array.array_info two_runs_entry.offset) i)) ∧
          (∀ j0 m, (j0, m) ∈ runs ↔
            maximal_run (needs_read small_array.array_info two_runs_entry i)
              small_array.array_info.chunksize j0 m) ∧
          runs.Pairwise (fun r1 r2 => r1.1 + r1.2 < r2.1) ∧
          (row_requests small_array kernel_ok two_runs_entry i).Pairwise (fun x y =>
            x.stripe_end < y.stripe_start ∧ x.va2 + read_length x < y.va2) ∧
          ∀ x ∈ row_requests small_array kernel_ok two_runs_entry i, ∃ m, 0 < m ∧
            read_length x = m * 512 ∧ x.stripe_end = x.stripe_start + m * 512 :=
  read_coalescing small_array kernel_ok two_runs_entry (by decide) (by decide) (by decide)
    (by decide) (fun _ _ _ => rfl)
    (fun _ => (by decide : (0 : Nat) / 2 + 0 * 512 + 8 * 512 < 18446744073709551616))

end WinMD
